import Mathlib

/-!
The pokeapi outbound HTTP client core and its backoff strategies

A shallow embedding of `internal/api` (client.go, utils.go, errors/, backoff/, opts/,
auth/, format/) of jacklaaa89/pokeapi, followed by theorems about it.

Conventions of the embedding

* Go `int`, `int64` and `time.Duration` (nanoseconds) are `Int`.
* A Go `error` value is `Option String` (nil, or the message); a `*errors.Error` is
  `Option errors.Error`.
* A pointer that may be nil is an `Option`.
* Calls to the logger only write log lines and are left out.
* A computation that can stop without a value returns an `Outcome`.
-/

/-- The range of `int64`, the type under `time.Duration`. -/
def isInt64 (n : Int) : Prop := -2 ^ 63 ≤ n ∧ n < 2 ^ 63

instance (n : Int) : Decidable (isInt64 n) := by
  unfold isInt64
  infer_instance

/-- Result of running a piece of Go code: a value, a run-time panic, or a point where the
language leaves the result to the implementation (a float to integer conversion whose
value does not fit the integer type). -/
inductive Outcome (α : Type) where
  | val (a : α)
  | panic (msg : String)
  | implDefined
deriving DecidableEq, Repr

/-! ### float64

A finite `float64` is kept as a dyadic number `m * 2 ^ e`; a value may have several such
spellings, so values are compared with `float64.le` and `float64.eq`, never structurally.
Arithmetic rounds to the nearest value with a 53-bit significand, ties to even, with
gradual underflow below `2 ^ (-1022)` and overflow to an infinity from `2 ^ 1024` on.
The sign of a zero is not kept: this code never looks at it. -/

inductive float64 where
  | fin (m : Int) (e : Int)
  | posInf
  | negInf
  | nan
deriving DecidableEq, Repr

namespace float64

def bitLenAux : Nat → Nat → Nat
  | 0, _ => 0
  | fuel + 1, n => if n = 0 then 0 else bitLenAux fuel (n / 2) + 1

/-- Number of binary digits of `n` (0 for 0). -/
def bitLen (n : Nat) : Nat := bitLenAux n n

/-- The quotient `n / 2 ^ k` rounded to the nearest integer, ties to even. -/
def roundShift (n k : Nat) : Nat :=
  let q := n / 2 ^ k
  let r := n % 2 ^ k
  if 2 ^ k < 2 * r ∨ (2 * r = 2 ^ k ∧ q % 2 = 1) then q + 1 else q

/-- The `float64` nearest to `m * 2 ^ e`. -/
def round (m e : Int) : float64 :=
  let n := m.natAbs
  let k : Nat := (max (max ((bitLen n : Int) - 53) (-1074 - e)) 0).toNat
  let q := roundShift n k
  if q ≠ 0 ∧ 1024 < (bitLen q : Int) + e + k then
    if m < 0 then negInf else posInf
  else fin (Int.sign m * q) (e + k)

/-- The natural number that `float64(n)` denotes for a natural number `n` below `2 ^ 1024`:
`n` rounded to 53 significant bits. -/
def nearest (n : Nat) : Nat :=
  roundShift n (bitLen n - 53) * 2 ^ (bitLen n - 53)

/-- Conversion of an integer, `float64(n)`. -/
def ofInt (n : Int) : float64 := round n 0

def zero : float64 := fin 0 0
def one : float64 := fin 1 0

/-- The sign of a value as -1, 0 or 1 (0 for NaN). -/
def sgn : float64 → Int
  | fin m _ => Int.sign m
  | posInf => 1
  | negInf => -1
  | nan => 0

/-- Addition, `x + y`. -/
def add : float64 → float64 → float64
  | fin m1 e1, fin m2 e2 =>
    let e := min e1 e2
    round (m1 * 2 ^ (e1 - e).toNat + m2 * 2 ^ (e2 - e).toNat) e
  | nan, _ => nan
  | _, nan => nan
  | posInf, negInf => nan
  | negInf, posInf => nan
  | posInf, _ => posInf
  | _, posInf => posInf
  | negInf, _ => negInf
  | _, negInf => negInf

/-- Multiplication, `x * y`. -/
def mul : float64 → float64 → float64
  | fin m1 e1, fin m2 e2 => round (m1 * m2) (e1 + e2)
  | nan, _ => nan
  | _, nan => nan
  | x, y =>
    if sgn x * sgn y = 0 then nan
    else if 0 < sgn x * sgn y then posInf
    else negInf

/-- Comparison `x <= y`; false when either side is NaN. -/
def le : float64 → float64 → Bool
  | fin m1 e1, fin m2 e2 =>
    let e := min e1 e2
    decide (m1 * 2 ^ (e1 - e).toNat ≤ m2 * 2 ^ (e2 - e).toNat)
  | nan, _ => false
  | _, nan => false
  | negInf, _ => true
  | _, posInf => true
  | _, _ => false

/-- Comparison `x >= y`. -/
def ge (x y : float64) : Bool := le y x

/-- Comparison `x == y`. -/
def eq (x y : float64) : Bool := le x y && le y x

/-- Comparison `x < y`. -/
def lt (x y : float64) : Bool := le x y && !le y x

/-- Conversion to `int64`: the fraction is dropped; a value outside the range of `int64`,
an infinity or NaN gives a result the language leaves to the implementation. -/
def toInt64 : float64 → Outcome Int
  | fin m e =>
    let t : Int := if 0 ≤ e then m * 2 ^ e.toNat else Int.tdiv m (2 ^ (-e).toNat)
    if -2 ^ 63 ≤ t ∧ t < 2 ^ 63 then .val t else .implDefined
  | _ => .implDefined

/-- The rational number a finite value denotes. -/
def toRat? : float64 → Option ℚ
  | fin m e => some ((m : ℚ) * (2 : ℚ) ^ e)
  | _ => none

end float64

namespace math

/-- A stand-in for `math.Pow` of the Go standard library, used where a theorem evaluates
the code at a concrete input; every other theorem holds for an arbitrary function in its
place. It follows the documented cases `Pow(x, ±0) = 1`, `Pow(1, y) = 1`, `Pow(x, 1) = x`
and the NaN cases, gives the correctly rounded power of a finite base for an exponent that
is a positive integer, and NaN elsewhere. -/
def Pow (x y : float64) : float64 :=
  if float64.eq y float64.zero || float64.eq x float64.one then float64.one
  else if float64.eq y float64.one then x
  else
    match x, y with
    | .fin m e, .fin n k =>
      if 0 ≤ k ∧ 0 < n then float64.round (m ^ (n * 2 ^ k.toNat).toNat) (e * (n * 2 ^ k.toNat))
      else .nan
    | _, _ => .nan

end math

namespace rand

/-- `rand.Int63n` of `math/rand`: a number in `[0, n)` derived from the raw value `src` of
the random source; it panics when `n <= 0`. -/
def Int63n (src : Nat) (n : Int) : Outcome Int :=
  if n ≤ 0 then .panic "invalid argument to Int63n" else .val ((src : Int) % n)

end rand

namespace textproto

/-- Whether `c` may occur in a header field name: a letter, a digit or one of the fifteen
marks of an HTTP token. -/
def validHeaderFieldByte (c : Char) : Bool :=
  c.isAlphanum || decide (c.toNat ∈ [33, 35, 36, 37, 38, 39, 42, 43, 45, 46, 94, 95, 96, 124, 126])

/-- The loop of the canonical form: the first letter and every letter after a hyphen in
upper case, the other letters in lower case. -/
def canonicalLoop : Bool → List Char → List Char
  | _, [] => []
  | upper, c :: rest =>
    let c1 := if upper && c.isLower then c.toUpper
              else if !upper && c.isUpper then c.toLower
              else c
    c1 :: canonicalLoop (c1 == (Char.ofNat 45)) rest

/-- A stand-in for `textproto.CanonicalMIMEHeaderKey` of the Go standard library, after its
documentation: the canonical form of a header key, the key itself when it holds a space or
a byte that is no header field byte. -/
def CanonicalMIMEHeaderKey (s : String) : String :=
  if s.data.all validHeaderFieldByte then String.mk (canonicalLoop true s.data) else s

end textproto

namespace http

/-- A `http.Header` on which only `Set` and `Get` are used: one value per stored key. -/
abbrev Header := List (String × String)

/-- The method `Header.Set`: the value replaces what is stored under the canonical key. -/
def Header.Set (h : Header) (key value : String) : Header :=
  (textproto.CanonicalMIMEHeaderKey key, value)
    :: h.filter fun p => p.1 != textproto.CanonicalMIMEHeaderKey key

/-- The method `Header.Get`: the value under the canonical key, empty when absent. -/
def Header.Get (h : Header) (key : String) : String :=
  (h.lookup (textproto.CanonicalMIMEHeaderKey key)).getD ""

/-- The query of a URL in parsed form (`url.Values`): the values of each key. -/
abbrev Values := List (String × List String)

/-- The method `Values.Set`: the key is given the single value. -/
def Values.Set (v : Values) (key value : String) : Values :=
  (key, [value]) :: v.filter fun p => p.1 != key

/-- The method `Values.Get`: the first value of the key, empty when there is none. -/
def Values.Get (v : Values) (key : String) : String :=
  match v.lookup key with
  | some (x :: _) => x
  | _ => ""

end http

namespace http

/-- An `io.Reader` / `io.ReadCloser` as this code meets it: the nil reader, `http.NoBody`,
an in-memory buffer, or a reader that delivers `got` and then fails with `msg`. -/
inductive Reader where
  | nil
  | noBody
  | bytes (d : List UInt8)
  | failing (got : List UInt8) (msg : String)
deriving DecidableEq, Repr

/-- `io.ReadAll`: everything read, and the read error if any. -/
def ReadAll : Reader → List UInt8 × Option String
  | .nil => ([], none)
  | .noBody => ([], none)
  | .bytes d => (d, none)
  | .failing got msg => (got, some msg)

/-- The parts of `http.Request` the client core reads or writes. `Host`, `Path` and `Query`
are those of `req.URL`, the query kept in parsed form. `GetBody` is `none` for a nil
function and otherwise the reader the function hands out on each call. -/
structure Request where
  Method : String
  Host : String
  Path : String
  Query : Values
  Header : Header
  Body : Reader
  GetBody : Option Reader
  ContentLength : Int
deriving DecidableEq, Repr

/-- The call `req.Header.Get(key)`. -/
def Request.HeaderGet (req : Request) (key : String) : String :=
  req.Header.Get key

/-- The parts of `http.Response` the client core reads. -/
structure Response where
  StatusCode : Int
  Body : Reader
deriving DecidableEq, Repr

def StatusBadRequest : Int := 400
def StatusUnauthorized : Int := 401
def StatusForbidden : Int := 403
def StatusNotFound : Int := 404
def StatusMethodNotAllowed : Int := 405
def StatusConflict : Int := 409
def StatusPreconditionFailed : Int := 412
def StatusUnprocessableEntity : Int := 422
def StatusTooManyRequests : Int := 429
def StatusInternalServerError : Int := 500
def StatusBadGateway : Int := 502
def StatusServiceUnavailable : Int := 503
def StatusGatewayTimeout : Int := 504

/-- The `Do` method of the configured `*http.Client` (with its caching transport): what the
`k`-th call (counting from 0) made by one run of the retry loop answers for the request it
is given, as the Go pair `(response, error)`. -/
structure Client where
  Do : Nat → Request → Option Response × Option String

end http

namespace errors

abbrev Code := String

def CodeUnknownError : Code := "unknown_error"
def CodeInvalidRequest : Code := "invalid_request"
def CodeForbidden : Code := "forbidden"
def CodeUnauthorized : Code := "unauthorized"
def CodeNotFound : Code := "not_found"
def CodeInvalidOperation : Code := "invalid_operation"
def CodeConflict : Code := "resource_conflict"
def CodeInvalidContentType : Code := "invalid_content_type"
def CodeValidationError : Code := "validation_error"
def CodeRateLimitExceeded : Code := "rate_limit_exceeded"
def CodeServerError : Code := "server_error"
def CodeServerUnavailable : Code := "server_unavailable"
def CodeEncodingError : Code := "encoding_error"
def CodeRequestError : Code := "request_error"
def CodeHTTPClientError : Code := "http_client_error"

def RequestIDHeader : String := "X-Request-ID"
def bodySampleSize : Nat := 500

/-- The normalized error. `Request` and `Response` are `none` for a nil byte slice. -/
structure Error where
  Code : errors.Code
  StatusCode : Int
  Method : String
  Resource : String
  RequestID : String
  Request : Option (List UInt8)
  Response : Option (List UInt8)
  Source : String
deriving DecidableEq, Repr

/-- Maps an HTTP status code to an error code (`code` in error.go). -/
def code (statusCode : Int) : Code :=
  if statusCode = http.StatusBadRequest then CodeInvalidRequest
  else if statusCode = http.StatusUnauthorized then CodeUnauthorized
  else if statusCode = http.StatusForbidden then CodeForbidden
  else if statusCode = http.StatusNotFound then CodeNotFound
  else if statusCode = http.StatusMethodNotAllowed then CodeInvalidOperation
  else if statusCode = http.StatusConflict then CodeConflict
  else if statusCode = http.StatusPreconditionFailed then CodeInvalidContentType
  else if statusCode = http.StatusUnprocessableEntity then CodeValidationError
  else if statusCode = http.StatusTooManyRequests then CodeRateLimitExceeded
  else if statusCode = http.StatusInternalServerError then CodeServerError
  else if statusCode = http.StatusServiceUnavailable ∨ statusCode = http.StatusGatewayTimeout then
    CodeServerUnavailable
  else CodeUnknownError

/-- Message of an error, empty for nil (`errorMessage`). -/
def errorMessage (err : Option String) : String :=
  match err with
  | none => ""
  | some msg => msg

/-- The bytes of the string `...` (three full stops). -/
def dots : List UInt8 := [46, 46, 46]

/-- A sample of at most `bodySampleSize` bytes of a reader, `...` appended when the body
reaches that size (`RetrieveSample`). -/
def RetrieveSample (r : http.Reader) : Option (List UInt8) :=
  match r with
  | .nil => none
  | .noBody => none
  | r =>
    match http.ReadAll r with
    | (_, some _) => none
    | (d, none) =>
      if d.length < bodySampleSize then some d
      else some (d.take bodySampleSize ++ dots)

/-- An error from a request alone (`FromRequest`). -/
def FromRequest (req : http.Request) : Error :=
  let b : http.Reader :=
    match req.GetBody with
    | some r => r
    | none => .noBody
  { Code := ""
    StatusCode := 0
    Method := req.Method
    Resource := req.Path
    RequestID := req.HeaderGet RequestIDHeader
    Request := RetrieveSample b
    Response := none
    Source := "" }

/-- An error from a source error only (`FromSource`). -/
def FromSource (code : Code) (path method id : String) (src : Option String) : Error :=
  { Code := code
    StatusCode := 0
    Method := method
    Resource := path
    RequestID := id
    Request := none
    Response := none
    Source := errorMessage src }

/-- An error from a request, with the code and source overridden (`FromRequestAndSource`). -/
def FromRequestAndSource (req : http.Request) (code : Code) (src : Option String) : Error :=
  let err := FromRequest req
  { err with Code := code, Source := errorMessage src }

/-- An error from a request and a response, the body given separately (`FromResponse`). -/
def FromResponse (req : http.Request) (resp : http.Response) (r : http.Reader) : Error :=
  let err := FromRequest req
  { err with Code := code resp.StatusCode, StatusCode := resp.StatusCode,
             Response := RetrieveSample r }

end errors

namespace backoff

/-- The `Backoff` interface: `Next src retries` is the delay before the next attempt.
`src` is the raw value the process-wide random source yields when the strategy draws from
it; a strategy that draws nothing ignores it. -/
structure Backoff where
  Next : Nat → Int → Outcome Int

/-- A strategy that always waits the same time (`constantBackoff`). -/
structure constantBackoff where
  delay : Int
deriving DecidableEq, Repr

def constantBackoff.Next (c : constantBackoff) (_retries : Int) : Int := c.delay

def constantBackoff.toBackoff (c : constantBackoff) : Backoff :=
  { Next := fun _ retries => .val (c.Next retries) }

def Constant (delay : Int) : Backoff := (constantBackoff.mk delay).toBackoff

def Zero : Backoff := Constant 0

/-- One nanosecond as a `time.Duration`. -/
def Nanosecond : Int := 1

/-- The default growth rate, 0.5. -/
def defaultGrowthRate : float64 := .fin 1 (-1)

/-- The constant `0.01` as the compiler rounds it to `float64`. -/
def onePercent : float64 := .fin 5764607523034235 (-59)

/-- A strategy whose delay grows exponentially from `initial` up to `max`. -/
structure exponentialBackoff where
  growthRate : float64
  initial : Int
  max : Int
deriving DecidableEq, Repr

/-- The delay for the given retry count (`exponentialBackoff.Next`). `pow` is `math.Pow`,
`src` the raw value of the random source. -/
def exponentialBackoff.Next (pow : float64 → float64 → float64) (e : exponentialBackoff)
    (src : Nat) (retries : Int) : Outcome Int :=
  let a := float64.ofInt e.initial
  let x := float64.ofInt retries
  if float64.eq x float64.zero then float64.toInt64 a
  else
    let b := float64.add float64.one e.growthRate
    let fx := float64.mul a (pow b x)
    match float64.toInt64 fx with
    | .val delay =>
      match rand.Int63n src (Int.tdiv delay 4) with
      | .val jitter =>
        let delay := delay - jitter
        if delay > e.max then .val e.max else .val delay
      | .panic msg => .panic msg
      | .implDefined => .implDefined
    | .panic msg => .panic msg
    | .implDefined => .implDefined

/-- The value `fx` that `Next` computes for `a(1+r)^x` before jitter and clamping. -/
def exponentialBackoff.fx (pow : float64 → float64 → float64) (e : exponentialBackoff)
    (retries : Int) : float64 :=
  float64.mul (float64.ofInt e.initial)
    (pow (float64.add float64.one e.growthRate) (float64.ofInt retries))

def exponentialBackoff.toBackoff (pow : float64 → float64 → float64) (e : exponentialBackoff) :
    Backoff :=
  { Next := fun src retries => e.Next pow src retries }

/-- Whether `d` lies within `min` and `max` (`isWithinRange`). -/
def isWithinRange (d min max : float64) : Bool :=
  if float64.ge d min && float64.le d max then true else false

/-- The same for durations (`isWithinDurationRange`). -/
def isWithinDurationRange (d min max : Int) : Bool :=
  isWithinRange (float64.ofInt d) (float64.ofInt min) (float64.ofInt max)

/-- The exponential strategy with the given growth rate (`ExponentialWithGrowthRate`), as
the Go pair `(strategy, error)`. -/
def ExponentialWithGrowthRate (initial max : Int) (growth : float64) :
    Option exponentialBackoff × Option String :=
  if !isWithinDurationRange initial Nanosecond max then
    (none, some "initial must be greater than one nanosecond, but less than max")
  else if !isWithinRange growth onePercent float64.one then
    (none, some "growth rate has to be a percentage between 1 and 100%")
  else (some { growthRate := growth, initial := initial, max := max }, none)

/-- The exponential strategy with the default growth rate (`Exponential`). -/
def Exponential (initial max : Int) : Option exponentialBackoff × Option String :=
  ExponentialWithGrowthRate initial max defaultGrowthRate


end backoff

/-- A Go value handed over as `interface{}` (the request data, the receiver). The model
knows it only by a label; what the libraries make of it is given by `Env`. -/
structure Value where
  label : String
deriving DecidableEq, Repr

namespace base64

def alphabet : List Char :=
  "ABCDEFGHIJKLMNOPQRSTUVWXYZabcdefghijklmnopqrstuvwxyz0123456789+/".data

def digit (n : Nat) : Char := alphabet.getD n (Char.ofNat 65)

def encodeList : List UInt8 → List Char
  | a :: b :: c :: rest =>
    let n := a.toNat * 65536 + b.toNat * 256 + c.toNat
    digit (n / 262144) :: digit (n / 4096 % 64) :: digit (n / 64 % 64) :: digit (n % 64)
      :: encodeList rest
  | [a, b] =>
    let n := a.toNat * 65536 + b.toNat * 256
    [digit (n / 262144), digit (n / 4096 % 64), digit (n / 64 % 64), Char.ofNat 61]
  | [a] =>
    let n := a.toNat * 65536
    [digit (n / 262144), digit (n / 4096 % 64), Char.ofNat 61, Char.ofNat 61]
  | [] => []

/-- The standard base64 encoding with padding (`base64.StdEncoding.EncodeToString`). -/
def EncodeToString (b : List UInt8) : String := String.mk (encodeList b)

end base64

namespace http

/-- The URL of a request as far as the client core reads it. -/
structure URL where
  Host : String
  Path : String
  Query : Values
deriving DecidableEq, Repr

/-- The method `Request.SetBasicAuth`. -/
def Request.SetBasicAuth (r : Request) (username password : String) : Request :=
  let value := "Basic " ++ base64.EncodeToString
    ((username ++ ":" ++ password).data.flatMap String.utf8EncodeChar)
  { r with Header := r.Header.Set "Authorization" value }

/-- The function `http.NewRequestWithContext(ctx, method, url, nil)`, which returns a
request or an error. Its checks (a nil context, an invalid method) and the parsing of the
URL belong to the standard library and are given by `check`: the parsed URL, or the
error. -/
def NewRequestWithContext (check : String → String → Except String URL) (method url : String) :
    Except String Request :=
  match check method url with
  | .error err => .error err
  | .ok u =>
    .ok { Method := if method = "" then "GET" else method
          Host := u.Host
          Path := u.Path
          Query := u.Query
          Header := []
          Body := .nil
          GetBody := none
          ContentLength := 0 }

def MethodGet : String := "GET"
def MethodPost : String := "POST"
def MethodPut : String := "PUT"
def MethodPatch : String := "PATCH"
def MethodDelete : String := "DELETE"

end http

namespace auth

/-- The implementations of the interface `Credentials`; its method is unexported, so there
are no others. The nil interface value is `none` of `Option Credentials`. -/
inductive Credentials where
  | basicAuth (username password : String)
  | fromHeader (key value : String)
  | fromQuery (key value : String)
deriving DecidableEq, Repr

/-- The method `set` of the three implementations. -/
def Credentials.set (c : Credentials) (r : http.Request) : http.Request :=
  match c with
  | .basicAuth username password => r.SetBasicAuth username password
  | .fromHeader key value => { r with Header := r.Header.Set key value }
  | .fromQuery key value => { r with Query := r.Query.Set key value }

def BasicAuth (username password : String) : Option Credentials :=
  some (.basicAuth username password)

def FromHeader (key value : String) : Option Credentials :=
  if key = "" ∨ value = "" then none else some (.fromHeader key value)

def FromQueryString (key value : String) : Option Credentials :=
  if key = "" ∨ value = "" then none else some (.fromQuery key value)

def BearerToken (token : String) : Option Credentials :=
  FromHeader "Authorization" ("Bearer " ++ token)

/-- The function `auth.NewRequest`: the standard request with the credentials applied. -/
def NewRequest (check : String → String → Except String http.URL) (method endpoint : String)
    (c : Option Credentials) : Except String http.Request :=
  match http.NewRequestWithContext check method endpoint, c with
  | .error err, _ => .error err
  | .ok req, none => .ok req
  | .ok req, some cred => .ok (cred.set req)

end auth

namespace format

/-- An implementation of the interface `Encoder` given by its four methods. `Encode`
returns the pair `(reader, error)`; `Decode` returns how many bytes it read from the body
before it returned, and its error. -/
structure Codec where
  ContentType : String
  Accept : String
  Encode : Option Value → http.Reader × Option String
  Decode : http.Reader → Value → Nat × Option String

/-- The interface `Encoder`: the JSON and XML formatters of the repository, or any other
implementation. -/
inductive Encoder where
  | jsonFormatter
  | xmlFormatter
  | custom (codec : Codec)

end format

/-- What lies outside the repository and is taken as given: the identifier `uuid.New()`
draws, the random source of the backoff, the third-party query encoder, the checks of the
standard request constructor, and the JSON and XML libraries. An encoding library is given
by the bytes it writes and its error, a decoding library by the number of bytes it reads
and its error. A cancelled or expired context shows in what the transport answers. -/
structure Env where
  uuid : String
  rand : Nat → Nat
  queryValues : Option Value → String × Option String
  checkRequest : String → String → Except String http.URL
  jsonEncode : Option Value → List UInt8 × Option String
  jsonDecode : http.Reader → Value → Nat × Option String
  xmlEncode : Option Value → List UInt8 × Option String
  xmlDecode : http.Reader → Value → Nat × Option String

namespace format

def Encoder.ContentType : Encoder → String
  | .jsonFormatter => "application/json"
  | .xmlFormatter => "application/xml"
  | .custom codec => codec.ContentType

def Encoder.Accept : Encoder → String
  | .jsonFormatter => "application/json"
  | .xmlFormatter => "application/xml"
  | .custom codec => codec.Accept

/-- The method `Encode`: the two formatters write into a fresh buffer and return it with
the error of the library. -/
def Encoder.Encode (env : Env) (e : Encoder) (i : Option Value) : http.Reader × Option String :=
  match e with
  | .jsonFormatter => (.bytes (env.jsonEncode i).1, (env.jsonEncode i).2)
  | .xmlFormatter => (.bytes (env.xmlEncode i).1, (env.xmlEncode i).2)
  | .custom codec => codec.Encode i

/-- The method `Decode`. -/
def Encoder.Decode (env : Env) (e : Encoder) (r : http.Reader) (rcv : Value) :
    Nat × Option String :=
  match e with
  | .jsonFormatter => env.jsonDecode r rcv
  | .xmlFormatter => env.xmlDecode r rcv
  | .custom codec => codec.Decode r rcv

end format

namespace json

/-- The JSON encoder (`json.New`). -/
def New : format.Encoder := .jsonFormatter

end json

namespace log

/-- The interface `Logger`; its calls only write log lines, so a logger is known by a name.
`fmtLogger level` is the logger `fmt.New(level)`. -/
inductive Logger where
  | fmtLogger (level : Nat)
  | other (name : String)
deriving DecidableEq, Repr

def LevelNone : Nat := 0

end log

namespace opts

/-- The options of the API (`Options`). `Language` holds the tag in its string form. -/
structure Options where
  HTTPClient : http.Client
  MaxNetworkRetries : Int
  Encoder : format.Encoder
  UserAgent : String
  Credentials : Option auth.Credentials
  Backoff : backoff.Backoff
  Logger : log.Logger
  Language : String
  Timeout : Int

/-- An option (`APIOption`, always a `funcAPIOption` wrapping a function). -/
structure APIOption where
  f : Options → Options

def APIOption.apply (fdo : APIOption) (o : Options) : Options := fdo.f o

def newAPIOption (f : Options → Options) : APIOption := { f := f }

def WithUserAgent (ua : String) : APIOption :=
  newAPIOption fun o => { o with UserAgent := ua }

def WithHTTPClient (h : Option http.Client) : APIOption :=
  newAPIOption fun o =>
    match h with
    | none => o
    | some h => { o with HTTPClient := h }

def WithEncoder (f : Option format.Encoder) : APIOption :=
  newAPIOption fun o =>
    match f with
    | none => o
    | some f => { o with Encoder := f }

def WithMaxNetworkRetries (n : Int) : APIOption :=
  newAPIOption fun o => { o with MaxNetworkRetries := n }

def WithCredentials (c : Option auth.Credentials) : APIOption :=
  newAPIOption fun o => { o with Credentials := c }

def WithBackoff (b : Option backoff.Backoff) : APIOption :=
  newAPIOption fun o =>
    match b with
    | none => o
    | some b => { o with Backoff := b }

def WithLogger (l : Option log.Logger) : APIOption :=
  newAPIOption fun o =>
    match l with
    | none => o
    | some l => { o with Logger := l }

def WithLanguage (l : String) : APIOption :=
  newAPIOption fun o => { o with Language := l }

def WithTimeout (t : Int) : APIOption :=
  newAPIOption fun o => { o with Timeout := t }

def zeroTimeout : Int := 0

/-- The loop of `Apply`: each option is applied to the options so far, in order. -/
def applyLoop : List APIOption → Options → Options
  | [], o => o
  | opt :: rest, o => applyLoop rest (opt.apply o)

/-- The function `Apply`. `DefaultClient` is `http.DefaultClient`. -/
def Apply (DefaultClient : http.Client) (opts : List APIOption) : Options :=
  applyLoop opts
    { HTTPClient := DefaultClient
      MaxNetworkRetries := 2
      Encoder := json.New
      UserAgent := ""
      Credentials := none
      Backoff := backoff.Zero
      Logger := .fmtLogger log.LevelNone
      Language := "en-GB"
      Timeout := zeroTimeout }

end opts

namespace api

structure client where
  endpoint : String
  cfg : opts.Options

/-- Whether to retry, from the error so far, the response and the retries already made
(`client.shouldRetry`). -/
def client.shouldRetry (c : client) (err : Option errors.Error) (resp : Option http.Response)
    (retries : Int) : Bool :=
  if retries ≥ c.cfg.MaxNetworkRetries then false
  else
    match resp with
    | none => true
    | some r =>
      if r.StatusCode = http.StatusInternalServerError ∨ r.StatusCode = http.StatusServiceUnavailable
          ∨ r.StatusCode = http.StatusBadGateway ∨ r.StatusCode = http.StatusConflict then true
      else if r.StatusCode = http.StatusTooManyRequests then false
      else err.isSome

/-- Delay before the next attempt (`client.sleepTime`). -/
def client.sleepTime (c : client) (src : Nat) (numRetries : Int) : Outcome Int :=
  c.cfg.Backoff.Next src numRetries

/-- Buffers the body so that it can be replayed (`setBody`): the request as left behind and
the error returned. -/
def setBody (req : http.Request) (body : http.Reader) : http.Request × Option String :=
  match body with
  | .nil => ({ req with GetBody := some .noBody, ContentLength := -1 }, none)
  | body =>
    match http.ReadAll body with
    | (_, some err) => (req, some err)
    | (data, none) =>
      ({ req with ContentLength := data.length, GetBody := some (.bytes data) }, none)

/-- What one run of `client.do` did to the outside world. -/
structure DoTrace where
  attempts : Nat
  sleeps : List Int
deriving DecidableEq, Repr

/-- The retry loop of `client.do`. `fuel` bounds the number of iterations (`none` when it
runs out), `retry` is the loop counter, `rand k` the value of the random source at the
`k`-th backoff computation. The result is the pair `(resp, err)` that `do` returns. -/
def client.doLoop (c : client) (rand : Nat → Nat) (req : http.Request) :
    Nat → Int → DoTrace → Option (Outcome (Option http.Response × Option errors.Error) × DoTrace)
  | 0, _, _ => none
  | fuel + 1, retry, tr =>
    match req.GetBody with
    | none => some (.panic "invalid memory address or nil pointer dereference", tr)
    | some cpy =>
      let req1 := { req with Body := cpy }
      let (res, rawErr) := c.cfg.HTTPClient.Do tr.attempts req1
      let tr1 := { tr with attempts := tr.attempts + 1 }
      let err0 : Option errors.Error :=
        rawErr.map fun e => errors.FromRequestAndSource req1 errors.CodeHTTPClientError (some e)
      match err0, res with
      | none, none => some (.panic "invalid memory address or nil pointer dereference", tr1)
      | _, _ =>
        let err : Option errors.Error :=
          match err0, res with
          | none, some r =>
            if r.StatusCode ≥ http.StatusBadRequest then some (errors.FromResponse req1 r r.Body)
            else none
          | e, _ => e
        if !c.shouldRetry err res retry then
          match err with
          | some e => some (.val (none, some e), tr1)
          | none => some (.val (res, none), tr1)
        else
          match c.sleepTime (rand tr1.sleeps.length) retry with
          | .val sleepDuration =>
            client.doLoop c rand req fuel (retry + 1)
              { tr1 with sleeps := tr1.sleeps ++ [sleepDuration] }
          | .panic msg => some (.panic msg, tr1)
          | .implDefined => some (.implDefined, tr1)

/-- The low-level request with retries (`client.do`). -/
def client.do_ (c : client) (rand : Nat → Nat) (fuel : Nat) (req : http.Request)
    (body : http.Reader) :
    Option (Outcome (Option http.Response × Option errors.Error) × DoTrace) :=
  match setBody req body with
  | (req1, some err) =>
    some (.val (none, some (errors.FromRequestAndSource req1 errors.CodeEncodingError (some err))),
      { attempts := 0, sleeps := [] })
  | (req1, none) => client.doLoop c rand req1 fuel 0 { attempts := 0, sleeps := [] }

/-- The retry eligibility policy in the words of the specification: not retryable once the
retry count has reached the maximum; otherwise retryable when there is no response, or the
status is 500, 503, 502 or 409; never for 429; for any other status exactly when an error
is present. -/
def retryPolicySpec (maxRetries : Int) (errPresent : Bool) (status : Option Int)
    (retries : Int) : Bool :=
  decide (retries < maxRetries) &&
    (match status with
     | none => true
     | some s => decide (s ∈ [500, 503, 502, 409]) || (decide (s ≠ 429) && errPresent))

/-- The result of `client.do` in the words of the specification, from the outcome of the
final attempt alone: a response with a status below 400 obtained without a transport error
is returned with no error; otherwise there is no response and the normalized error is the
one classified from that attempt (no attempt ends with neither response nor error). -/
def finalResultSpec (req : http.Request) (out : Option http.Response × Option String) :
    Option http.Response × Option errors.Error :=
  match out with
  | (some r, none) =>
    if r.StatusCode < 400 then (some r, none)
    else (none, some (errors.FromResponse req r r.Body))
  | (_, some msg) =>
    (none, some (errors.FromRequestAndSource req errors.CodeHTTPClientError (some msg)))
  | (none, none) => (none, none)

/-- A transport that answers every request with the given status and an empty body and no
transport error, as the mock API of the tests answers on its status paths. -/
def statusClient (status : Int) : http.Client :=
  { Do := fun _ _ => (some { StatusCode := status, Body := .bytes [] }, none) }

/-- A GET request without a body, as `Call` hands it to `client.do`. -/
def sampleRequest : http.Request :=
  { Method := "GET"
    Host := "127.0.0.1"
    Path := "/status"
    Query := []
    Header := http.Header.Set [] errors.RequestIDHeader "6ba7b810-9dad-11d1-80b4-00c04fd430c8"
    Body := .nil
    GetBody := none
    ContentLength := 0 }

/-- A client over `statusClient` with the default zero backoff. -/
def sampleClient (status maxRetries : Int) : client :=
  { endpoint := "http://127.0.0.1"
    cfg :=
      { HTTPClient := statusClient status
        MaxNetworkRetries := maxRetries
        Encoder := json.New
        UserAgent := ""
        Credentials := none
        Backoff := backoff.Zero
        Logger := .fmtLogger log.LevelNone
        Language := "en-GB"
        Timeout := 0 } }

end api

namespace api

def userAgentHeader : String := "User-Agent"
def acceptHeader : String := "Accept"
def acceptLanguageHeader : String := "Accept-Language"
def hostHeader : String := "Host"

/-- Whether the method is a mutation (`isHTTPWriteMethod`). -/
def isHTTPWriteMethod (method : String) : Bool :=
  method == http.MethodPost || method == http.MethodPut
    || method == http.MethodPatch || method == http.MethodDelete

/-- The test `strings.HasPrefix(path, "/")`. -/
def hasSlashFirst (path : String) : Bool :=
  match path.data with
  | c :: _ => c == '/'
  | [] => false

/-- The five headers `Call` sets on every request before it hands it to `client.do`. -/
def setFixedHeaders (c : client) (env : Env) (req : http.Request) : http.Request :=
  let h := req.Header.Set hostHeader req.Host
  let h := h.Set acceptHeader c.cfg.Encoder.Accept
  let h := h.Set acceptLanguageHeader c.cfg.Language
  let h := h.Set userAgentHeader c.cfg.UserAgent
  let h := h.Set errors.RequestIDHeader env.uuid
  { req with Header := h }

/-- The part of `client.Call` before the call of `client.do`: the error it returns, or the
request and the body reader it hands to `do`. -/
def client.prepare (c : client) (env : Env) (method path : String) (data : Option Value) :
    Except errors.Error (http.Request × http.Reader) :=
  let requestID := env.uuid
  let e := c.cfg.Encoder
  let path := if !hasSlashFirst path then "/" ++ path else path
  match env.queryValues data with
  | (_, some uErr) =>
    .error (errors.FromSource errors.CodeEncodingError path method requestID (some uErr))
  | (uv, none) =>
    let path := path ++ "?" ++ uv
    match auth.NewRequest env.checkRequest method (c.endpoint ++ path) c.cfg.Credentials with
    | .error err =>
      .error (errors.FromSource errors.CodeRequestError path method requestID (some err))
    | .ok req =>
      if isHTTPWriteMethod method then
        let req := { req with Header := req.Header.Set "Content-Type" e.ContentType }
        match e.Encode env data with
        | (_, some encErr) =>
          .error (errors.FromRequestAndSource req errors.CodeEncodingError (some encErr))
        | (rd, none) => .ok (setFixedHeaders c env req, rd)
      else .ok (setFixedHeaders c env req, .nil)

/-- Decodes the response into the receiver (`client.decode`). The bytes the decoder read go
through the tee into the buffer the error is sampled from. -/
def client.decode (c : client) (env : Env) (req : http.Request) (resp : http.Response)
    (rcv : Option Value) : Option errors.Error :=
  match rcv with
  | none => none
  | some v =>
    let buf := (http.ReadAll resp.Body).1.take (c.cfg.Encoder.Decode env resp.Body v).1
    match (c.cfg.Encoder.Decode env resp.Body v).2 with
    | none => none
    | some src =>
      let err := errors.FromResponse req resp (.bytes buf)
      some { err with Code := errors.CodeEncodingError, Source := src }

/-- The request as a successful `client.do` leaves it behind: `setBody` has set `GetBody`
and the content length, the loop has set `Body`. -/
def requestAfterDo (req : http.Request) (body : http.Reader) : http.Request :=
  let r := (setBody req body).1
  match r.GetBody with
  | some cpy => { r with Body := cpy }
  | none => r

/-- Performs a request (`client.Call`): the error it returns (`none` for nil) and what it
did to the outside world. The context and the per-request timeout act through what the
transport answers and are no arguments of the model. -/
def client.Call (c : client) (env : Env) (fuel : Nat) (method path : String)
    (data rcv : Option Value) : Option (Outcome (Option errors.Error) × DoTrace) :=
  match c.prepare env method path data with
  | .error err => some (.val (some err), { attempts := 0, sleeps := [] })
  | .ok (req, rd) =>
    match c.do_ env.rand fuel req rd with
    | none => none
    | some (.panic msg, tr) => some (.panic msg, tr)
    | some (.implDefined, tr) => some (.implDefined, tr)
    | some (.val (_, some err), tr) => some (.val (some err), tr)
    | some (.val (some output, none), tr) =>
      some (.val (c.decode env (requestAfterDo req rd) output rcv), tr)
    | some (.val (none, none), tr) =>
      match rcv with
      | none => some (.val none, tr)
      | some _ => some (.panic "invalid memory address or nil pointer dereference", tr)

/-- The encoder `errorOnEncode` of the tests: `Encode` always fails. -/
def errorOnEncode : format.Encoder :=
  .custom
    { ContentType := ""
      Accept := ""
      Encode := fun _ => (.nil, some "could not encode request data")
      Decode := fun _ _ => (0, none) }

/-- The encoder `errorOnEncodeRead` of the tests: the reader `Encode` returns fails on the
first read. -/
def errorOnEncodeRead : format.Encoder :=
  .custom
    { ContentType := ""
      Accept := ""
      Encode := fun _ => (.failing [] "could not read encoded data", none)
      Decode := fun _ _ => (0, none) }

/-- An encoder whose `Decode` reads `n` bytes of the body and then fails. -/
def failingDecoder (n : Nat) : format.Encoder :=
  .custom
    { ContentType := "text/plain"
      Accept := "text/plain"
      Encode := fun _ => (.bytes [], none)
      Decode := fun _ _ => (n, some "unexpected input") }

/-- A world in which the request data encodes to an empty query, every URL parses, and the
JSON and XML libraries write two bytes and read the whole body without error. -/
def sampleEnv : Env :=
  { uuid := "6ba7b810-9dad-11d1-80b4-00c04fd430c8"
    rand := fun _ => 0
    queryValues := fun _ => ("", none)
    checkRequest := fun _ _ => .ok { Host := "127.0.0.1", Path := "/200", Query := [] }
    jsonEncode := fun _ => ([123, 125], none)
    jsonDecode := fun r _ => ((http.ReadAll r).1.length, none)
    xmlEncode := fun _ => ([60, 62], none)
    xmlDecode := fun r _ => ((http.ReadAll r).1.length, none) }

/-- A client over the given transport with the default options but for the encoder. -/
def clientWith (h : http.Client) (e : format.Encoder) : client :=
  { endpoint := "http://127.0.0.1"
    cfg := opts.Apply h [opts.WithEncoder (some e)] }

/-- A transport that answers status 200 with the six bytes `abcdef`. -/
def okClient : http.Client :=
  { Do := fun _ _ => (some { StatusCode := 200, Body := .bytes [97, 98, 99, 100, 101, 102] }, none) }

/-- A transport that fails every attempt with the given message and no response. -/
def failingClient (msg : String) : http.Client :=
  { Do := fun _ _ => (none, some msg) }

end api

namespace strings

/-- A stand-in for `strings.EqualFold` of the Go standard library: equality of the two
strings when the letters `A` to `Z` count as their lower-case forms. The library folds
further letters of Unicode; the general theorems below do not depend on which. -/
def EqualFold (s t : String) : Bool :=
  s.data.map Char.toLower == t.data.map Char.toLower

end strings

namespace encoding.json

/-- Whether the byte stands for itself inside a JSON string: a printable ASCII character
other than the quote and the backslash. -/
def plainByte (b : UInt8) : Bool :=
  decide (32 ≤ b.toNat ∧ b.toNat < 127 ∧ b.toNat ≠ 34 ∧ b.toNat ≠ 92 ∧ b.toNat ≠ 60
    ∧ b.toNat ≠ 62 ∧ b.toNat ≠ 38)

/-- A stand-in for `json.Marshal` of a string on strings of plain characters, which the
library writes between two quotes as they are. It is evaluated on such strings only. -/
def MarshalString (s : String) : List UInt8 × Option String :=
  (34 :: s.data.map (fun c => UInt8.ofNat c.toNat) ++ [34], none)

/-- A stand-in for `json.Unmarshal` into a fresh string variable on three shapes of input:
`null`, which the library accepts and which leaves the variable empty; a quoted string of
plain characters, which is the value; and input whose first byte is neither a quote, nor
`n`, nor white space, which the library refuses. It is evaluated on such input only; the
general theorems take the library function as a parameter. -/
def UnmarshalString (b : List UInt8) : Except String String :=
  if b = [110, 117, 108, 108] then .ok ""
  else
    match b with
    | 34 :: rest =>
      if rest.getLast? = some 34 ∧ rest.dropLast.all plainByte then
        .ok (String.mk (rest.dropLast.map fun c => Char.ofNat c.toNat))
      else .error "invalid character in string literal"
    | _ => .error "json: cannot unmarshal value into Go value of type string"

end encoding.json

namespace middleware

/-- The values the middlewares of the server put into the context of a request: the
request identifier (`WithRequestID`) and the logger (`WithLogger`); `none` when the
middleware did not run. -/
structure Context where
  requestID : Option String
  logger : Option log.Logger
deriving DecidableEq, Repr

/-- The request identifier of the context (`RequestID`); the type assertion panics when
there is none. -/
def RequestID (ctx : Context) : Outcome String :=
  match ctx.requestID with
  | some id => .val id
  | none => .panic "interface conversion: interface is nil, not string"

/-- The logger of the context (`Logger`); the type assertion panics when there is none. -/
def Logger (ctx : Context) : Outcome log.Logger :=
  match ctx.logger with
  | some l => .val l
  | none => .panic "interface conversion: interface is nil, not log.Logger"

end middleware

namespace helpers

/-- A non-nil Go `error` as the type switch of `RespondError` tells errors apart: a
`*errors.Error`, a value implementing `compoundError` (given by what its methods `Error`,
`Code` and `StatusCode` return), or any other error (given by its message). -/
inductive Failure where
  | normalized (e : errors.Error)
  | compound (msg : String) (code : errors.Code) (statusCode : Int)
  | other (msg : String)
deriving DecidableEq, Repr

/-- The method `Error` of the error. For a `*errors.Error` it is the JSON form of the
error, which the library function `marshal` stands for. -/
def Failure.Error (marshal : errors.Error → String) : Failure → String
  | .normalized e => marshal e
  | .compound msg _ _ => msg
  | .other msg => msg

/-- Wraps an error as an invalid request (`InvalidRequest`). -/
def InvalidRequest (marshal : errors.Error → String) (err : Failure) : Failure :=
  .compound (err.Error marshal) errors.CodeInvalidRequest http.StatusBadRequest

/-- The error part of a response (`errorResponse`). -/
structure errorResponse where
  Error : String
  Code : errors.Code
deriving DecidableEq, Repr

/-- The response of the server (`response`). -/
structure response where
  RequestID : String
  Error : Option errorResponse
  Data : Option Value
deriving DecidableEq, Repr

/-- What `write` does to the `http.ResponseWriter`: the `Content-Type` header it sets, the
status it passes to `WriteHeader` and the value it hands to the encoder. -/
structure Written where
  contentType : String
  status : Int
  value : response
deriving DecidableEq, Repr

/-- Writes the response with the formatter (`write`); a failure of the encoder only
writes a log line. -/
def write (formatter : format.Encoder) (ctx : middleware.Context) (code : Int) (r : response) :
    Outcome Written :=
  match middleware.Logger ctx with
  | .val _ => .val { contentType := formatter.ContentType, status := code, value := r }
  | .panic msg => .panic msg
  | .implDefined => .implDefined

/-- Writes an error to the response writer (`RespondError`): `none` when nothing is
written. `formatter` is the package variable of that name. -/
def RespondError (marshal : errors.Error → String) (formatter : format.Encoder)
    (ctx : middleware.Context) (err : Option Failure) : Outcome (Option Written) :=
  match err with
  | none => .val none
  | some err =>
    let status := http.StatusInternalServerError
    let msg := err.Error marshal
    let code := errors.CodeServerError
    let (status, code, msg) :=
      match err with
      | .normalized v => (if v.StatusCode > 0 then v.StatusCode else status, v.Code, v.Code)
      | .compound _ c s => (s, c, msg)
      | .other _ => (status, code, msg)
    match middleware.RequestID ctx with
    | .val id =>
      match write formatter ctx status
          { RequestID := id, Error := some { Error := msg, Code := code }, Data := none } with
      | .val w => .val (some w)
      | .panic m => .panic m
      | .implDefined => .implDefined
    | .panic m => .panic m
    | .implDefined => .implDefined

end helpers

namespace pokeapi

structure NamedAPIResource where
  Name : String
deriving DecidableEq, Repr

/-- A flavor text (`FlavorText`); `Language` is a pointer and may be nil. -/
structure FlavorText where
  Text : String
  Language : Option NamedAPIResource
deriving DecidableEq, Repr

/-- A species (`Species`); `Habitat` and the entries of `FlavorText` are pointers and may
be nil. -/
structure Species where
  Name : String
  IsLegendary : Bool
  Habitat : Option NamedAPIResource
  FlavorText : List (Option FlavorText)
deriving DecidableEq, Repr

/-- The loop of `Description` over the flavor texts. -/
def descriptionLoop (equalFold : String → String → Bool) (lang : String) :
    List (Option FlavorText) → Outcome String
  | [] => .val ""
  | none :: _ => .panic "invalid memory address or nil pointer dereference"
  | some ft :: rest =>
    match ft.Language with
    | none => .panic "invalid memory address or nil pointer dereference"
    | some l =>
      if equalFold lang l.Name then .val ft.Text else descriptionLoop equalFold lang rest

/-- The first description in the language (`Species.Description`); `s` is the receiver
pointer, `equalFold` is `strings.EqualFold`. -/
def Species.Description (equalFold : String → String → Bool) (s : Option Species)
    (lang : String) : Outcome String :=
  if lang = "" then .val ""
  else
    match s with
    | none => .val ""
    | some s =>
      if s.FlavorText.length = 0 then .val ""
      else descriptionLoop equalFold lang s.FlavorText

/-- The result of `Description` in the words of the specification: the text of the first
entry, in list order, whose language name equals `lang` ignoring letter case; the empty
string when `lang` is empty, the species is nil, or no entry matches (an empty list has no
entry that matches). -/
def descriptionSpec (equalFold : String → String → Bool) (s : Option Species) (lang : String) :
    String :=
  if lang = "" then ""
  else
    match s with
    | none => ""
    | some s =>
      match s.FlavorText.find? fun e =>
          match e with
          | some ft =>
            (match ft.Language with
             | some l => equalFold lang l.Name
             | none => false)
          | none => false with
      | some (some ft) => ft.Text
      | _ => ""

end pokeapi

namespace translation

/-- The translation method (`Method`), an `int`. -/
abbrev Method := Int

def Shakespeare : Method := 1
def Yoda : Method := 2

/-- The map from a method to its name, as the list of its entries (`methodMappings`). -/
def methodMappings : List (Method × String) :=
  [(Shakespeare, "shakespeare"), (Yoda, "yoda")]

/-- The name of the method (`Method.Name`, which `Method.String` returns as well): the map
lookup, empty for a missing key. -/
def Method.Name (m : Method) : String :=
  (methodMappings.lookup m).getD ""

/-- The loop of `UnmarshalJSON` over the entries of the map in the order of the
iteration. -/
def unmarshalLoop (equalFold : String → String → Bool) (s : String) (m : Method) :
    List (Method × String) → Method
  | [] => m
  | (k, v) :: rest => if equalFold s v then k else unmarshalLoop equalFold s m rest

/-- The method `UnmarshalJSON`: the value of the receiver afterwards and the error.
`unmarshal` is `json.Unmarshal` into a fresh string variable, `order` the order in which
the iteration visits the entries of `methodMappings`, `m` the receiver before. -/
def Method.UnmarshalJSON (unmarshal : List UInt8 → Except String String)
    (equalFold : String → String → Bool) (order : List (Method × String)) (m : Method)
    (b : List UInt8) : Method × Option String :=
  match unmarshal b with
  | .error err => (m, some err)
  | .ok s => (unmarshalLoop equalFold s m order, none)

/-- The method `MarshalJSON`; `marshal` is `json.Marshal` of a string. -/
def Method.MarshalJSON (marshal : String → List UInt8 × Option String) (m : Method) :
    List UInt8 × Option String :=
  marshal (Method.Name m)

end translation

namespace pokemon

/-- The response for a species (`SpeciesResponse`). -/
structure SpeciesResponse where
  Name : String
  Description : String
  Habitat : String
  IsLegendary : Bool
deriving DecidableEq, Repr

/-- Applies the translation to the description (`applyTranslation`): the response
afterwards and the calls of `Translate` it made, each with its input and method.
`translate` is the method `Translate` of the package variable `translationAPI`. -/
def applyTranslation (translate : String → translation.Method → String × Option String)
    (sr : SpeciesResponse) : SpeciesResponse × List (String × translation.Method) :=
  let method :=
    if sr.Habitat = "cave" ∨ sr.IsLegendary = true then translation.Yoda
    else translation.Shakespeare
  let (out, err) := translate sr.Description method
  let calls := [(sr.Description, method)]
  match err with
  | none => ({ sr with Description := out }, calls)
  | some _ => (sr, calls)

end pokemon

namespace api

/-- A client whose transport fails every attempt as it does for a cancelled context, with
a constant backoff of one second and the given maximum of retries. -/
def cancelledClient (maxRetries : Int) : client :=
  { endpoint := "http://127.0.0.1"
    cfg :=
      { HTTPClient := failingClient "context canceled"
        MaxNetworkRetries := maxRetries
        Encoder := json.New
        UserAgent := ""
        Credentials := none
        Backoff := backoff.Constant 1000000000
        Logger := .fmtLogger log.LevelNone
        Language := "en-GB"
        Timeout := 0 } }

end api

namespace api

/-- A transport that answers the first attempt with status 500 and every later attempt with
status 200, both with an empty body and no transport error. -/
def flakyTransport : http.Client :=
  { Do := fun k _ =>
      if k = 0 then (some { StatusCode := 500, Body := .bytes [] }, none)
      else (some { StatusCode := 200, Body := .bytes [] }, none) }

/-- A client over `flakyTransport` with the default zero backoff and 2 retries. -/
def flakyClient : client :=
  { endpoint := "http://127.0.0.1"
    cfg :=
      { HTTPClient := flakyTransport
        MaxNetworkRetries := 2
        Encoder := json.New
        UserAgent := ""
        Credentials := none
        Backoff := backoff.Zero
        Logger := .fmtLogger log.LevelNone
        Language := "en-GB"
        Timeout := 0 } }

end api

/-! ## Theorems -/

namespace errors

/-- C3: `code` maps 400, 401, 403, 404, 405, 409, 412, 422, 429, 500, 503 and 504 to their
taxonomy codes and every other status to `unknown_error`; the `Code` of `FromResponse` is
`code` of the response status. -/
theorem code_table :
    (code 400 = "invalid_request" ∧ code 401 = "unauthorized" ∧ code 403 = "forbidden"
      ∧ code 404 = "not_found" ∧ code 405 = "invalid_operation" ∧ code 409 = "resource_conflict"
      ∧ code 412 = "invalid_content_type" ∧ code 422 = "validation_error"
      ∧ code 429 = "rate_limit_exceeded" ∧ code 500 = "server_error"
      ∧ code 503 = "server_unavailable" ∧ code 504 = "server_unavailable")
    ∧ (∀ s : Int, s ∉ [400, 401, 403, 404, 405, 409, 412, 422, 429, 500, 503, 504] →
        code s = "unknown_error")
    ∧ (∀ (req : http.Request) (resp : http.Response) (r : http.Reader),
        (FromResponse req resp r).Code = code resp.StatusCode
        ∧ (FromResponse req resp r).StatusCode = resp.StatusCode) := by
  refine ⟨by decide, ?_, ?_⟩
  · intro s hs
    simp only [List.mem_cons, List.mem_singleton, List.not_mem_nil, or_false, not_or] at hs
    obtain ⟨h1, h2, h3, h4, h5, h6, h7, h8, h9, h10, h11, h12⟩ := hs
    simp [code, http.StatusBadRequest, http.StatusUnauthorized, http.StatusForbidden,
      http.StatusNotFound, http.StatusMethodNotAllowed, http.StatusConflict,
      http.StatusPreconditionFailed, http.StatusUnprocessableEntity, http.StatusTooManyRequests,
      http.StatusInternalServerError, http.StatusServiceUnavailable, http.StatusGatewayTimeout,
      h1, h2, h3, h4, h5, h6, h7, h8, h9, h10, h11, h12, CodeUnknownError]
  · intro req resp r
    exact ⟨rfl, rfl⟩

/-- Status 418 is none of the listed ones and maps to `unknown_error`. -/
theorem code_table_witness : code 418 = "unknown_error" :=
  code_table.2.1 418 (by decide)

end errors

namespace api

/-- C4: `shouldRetry` is the stated policy for every error state, optional response and
retry count. -/
theorem shouldRetry_eq_policy (c : client) (err : Option errors.Error)
    (resp : Option http.Response) (r : Int) :
    c.shouldRetry err resp r
      = retryPolicySpec c.cfg.MaxNetworkRetries err.isSome (resp.map fun x => x.StatusCode) r := by
  unfold client.shouldRetry retryPolicySpec
  by_cases hr : r ≥ c.cfg.MaxNetworkRetries
  · have : ¬ r < c.cfg.MaxNetworkRetries := not_lt.mpr hr
    simp [hr, this]
  · have hlt : r < c.cfg.MaxNetworkRetries := not_le.mp hr
    cases resp with
    | none => simp [hr, hlt]
    | some x =>
      simp only [hr, hlt, if_false, Option.map_some', decide_True, Bool.true_and,
        http.StatusInternalServerError, http.StatusServiceUnavailable, http.StatusBadGateway,
        http.StatusConflict, http.StatusTooManyRequests, List.mem_cons, List.mem_singleton,
        List.not_mem_nil, or_false]
      by_cases h1 : x.StatusCode = 500 ∨ x.StatusCode = 503 ∨ x.StatusCode = 502
          ∨ x.StatusCode = 409
      · simp [h1]
      · by_cases h2 : x.StatusCode = 429
        · simp [h2]
        · simp [h1, h2]

end api

namespace backoff

/-- C10: the constant strategy returns its fixed delay for every retry count, whatever the
random source holds, so identical calls agree; the zero strategy always returns 0. -/
theorem Constant_Next (d x : Int) (src src2 : Nat) :
    (Constant d).Next src x = .val d
    ∧ (Constant d).Next src x = (Constant d).Next src2 x
    ∧ (constantBackoff.mk d).Next x = d
    ∧ Zero.Next src x = .val 0 :=
  ⟨rfl, rfl, rfl, rfl⟩

end backoff

namespace api

/-- One pass of the retry loop when the transport answers 500 and `j` retries remain. -/
theorem doLoop_all_500 (c : client) (rand : Nat → Nat) (req : http.Request) (cpy : http.Reader)
    (n : Nat) (hmax : c.cfg.MaxNetworkRetries = n) (hget : req.GetBody = some cpy)
    (h500 : ∀ (k : Nat) (r : http.Request),
      ∃ b, c.cfg.HTTPClient.Do k r = (some { StatusCode := 500, Body := b }, none))
    (hback : ∀ (src : Nat) (k : Int), 0 ≤ k → k < n → ∃ d, c.cfg.Backoff.Next src k = .val d) :
    ∀ (j : Nat), j ≤ n → ∀ (fuel : Nat), j + 1 ≤ fuel → ∀ (tr : DoTrace),
      ∃ e tr2, client.doLoop c rand req fuel ((n : Int) - j) tr = some (.val (none, some e), tr2)
        ∧ tr2.attempts = tr.attempts + (j + 1) ∧ tr2.sleeps.length = tr.sleeps.length + j
        ∧ e.Code = "server_error" ∧ e.StatusCode = 500 := by
  intro j
  induction j with
  | zero =>
    intro _ fuel hfuel tr
    obtain ⟨f, rfl⟩ : ∃ f, fuel = f + 1 := ⟨fuel - 1, by omega⟩
    obtain ⟨b, hb⟩ := h500 tr.attempts { req with Body := cpy, GetBody := some cpy }
    refine ⟨errors.FromResponse { req with Body := cpy, GetBody := some cpy }
      { StatusCode := 500, Body := b } b,
      { tr with attempts := tr.attempts + 1 }, ?_, rfl, rfl, rfl, rfl⟩
    simp [client.doLoop, hget, hb, client.shouldRetry, hmax, http.StatusBadRequest]
  | succ j ih =>
    intro hj fuel hfuel tr
    obtain ⟨f, rfl⟩ : ∃ f, fuel = f + 1 := ⟨fuel - 1, by omega⟩
    obtain ⟨b, hb⟩ := h500 tr.attempts { req with Body := cpy, GetBody := some cpy }
    have hlt : ((n : Int) - ((j + 1 : Nat) : Int)) < n := by omega
    have hnn : (0 : Int) ≤ (n : Int) - ((j + 1 : Nat) : Int) := by omega
    obtain ⟨d, hd⟩ := hback (rand tr.sleeps.length) ((n : Int) - ((j + 1 : Nat) : Int)) hnn hlt
    obtain ⟨e, tr2, h1, h2, h3, h4, h5⟩ := ih (by omega) f (by omega)
      { attempts := tr.attempts + 1, sleeps := tr.sleeps ++ [d] }
    refine ⟨e, tr2, ?_, ?_, ?_, h4, h5⟩
    · have hstep : (n : Int) - ((j + 1 : Nat) : Int) + 1 = (n : Int) - (j : Nat) := by
        push_cast; ring
      have hnot : ¬ ((n : Int) ≤ (n : Int) - ((j + 1 : Nat) : Int)) := by omega
      simp only [client.doLoop, hget, hb, client.shouldRetry, hmax, ge_iff_le, hnot,
        if_false, http.StatusInternalServerError, http.StatusBadRequest, client.sleepTime, hd,
        hstep]
      simpa using h1
    · simp at h2; omega
    · simp at h3; omega

/-- C1: with a maximum of `n >= 0` retries, a readable body, a backoff that returns a delay
for every retry count below `n` and a transport that answers every attempt with status 500,
`client.do` makes exactly `n + 1` transport attempts (sleeping `n` times) and returns no
response and a normalized error with code `server_error` and status code 500. -/
theorem do_retries_500 (c : client) (rand : Nat → Nat) (req : http.Request) (body : http.Reader)
    (n fuel : Nat) (hmax : c.cfg.MaxNetworkRetries = n)
    (hbody : (http.ReadAll body).2 = none)
    (h500 : ∀ (k : Nat) (r : http.Request),
      ∃ b, c.cfg.HTTPClient.Do k r = (some { StatusCode := 500, Body := b }, none))
    (hback : ∀ (src : Nat) (k : Int), 0 ≤ k → k < n → ∃ d, c.cfg.Backoff.Next src k = .val d)
    (hfuel : n + 1 ≤ fuel) :
    ∃ e tr, c.do_ rand fuel req body = some (.val (none, some e), tr)
      ∧ tr.attempts = n + 1 ∧ tr.sleeps.length = n
      ∧ e.Code = "server_error" ∧ e.StatusCode = 500 := by
  obtain ⟨req1, cpy, hset, hget⟩ : ∃ req1 cpy, setBody req body = (req1, none)
      ∧ req1.GetBody = some cpy := by
    cases body with
    | nil => exact ⟨_, _, rfl, rfl⟩
    | noBody => exact ⟨_, _, rfl, rfl⟩
    | bytes d => exact ⟨_, _, rfl, rfl⟩
    | failing got msg => simp [http.ReadAll] at hbody
  obtain ⟨e, tr2, h1, h2, h3, h4, h5⟩ :=
    doLoop_all_500 c rand req1 cpy n hmax hget h500 hback n le_rfl fuel hfuel
      { attempts := 0, sleeps := [] }
  refine ⟨e, tr2, ?_, by simpa using h2, by simpa using h3, h4, h5⟩
  simp only [client.do_, hset]
  simpa using h1

end api

namespace api

/-- With 2 retries against a transport answering 500 there are 3 attempts. -/
theorem do_retries_500_witness :
    ∃ e tr, (sampleClient 500 2).do_ (fun _ => 0) 3 sampleRequest .nil
        = some (.val (none, some e), tr)
      ∧ tr.attempts = 2 + 1 ∧ tr.sleeps.length = 2
      ∧ e.Code = "server_error" ∧ e.StatusCode = 500 :=
  do_retries_500 (sampleClient 500 2) (fun _ => 0) sampleRequest .nil 2 3 rfl rfl
    (fun _ _ => ⟨_, rfl⟩) (fun _ _ _ _ => ⟨0, rfl⟩) (by decide)

/-- C2: whatever the maximum retry count, when the transport answers the first attempt with
status 429 (the body being readable), `client.do` makes exactly one transport attempt,
sleeps for no backoff, and returns no response and a normalized error with code
`rate_limit_exceeded` and status code 429. -/
theorem do_no_retry_429 (c : client) (rand : Nat → Nat) (req : http.Request)
    (body : http.Reader) (fuel : Nat)
    (hbody : (http.ReadAll body).2 = none)
    (h429 : ∀ r : http.Request,
      ∃ b, c.cfg.HTTPClient.Do 0 r = (some { StatusCode := 429, Body := b }, none))
    (hfuel : 1 ≤ fuel) :
    ∃ e tr, c.do_ rand fuel req body = some (.val (none, some e), tr)
      ∧ tr.attempts = 1 ∧ tr.sleeps = []
      ∧ e.Code = "rate_limit_exceeded" ∧ e.StatusCode = 429 := by
  obtain ⟨f, rfl⟩ : ∃ f, fuel = f + 1 := ⟨fuel - 1, by omega⟩
  obtain ⟨req1, cpy, hset, hget⟩ : ∃ req1 cpy, setBody req body = (req1, none)
      ∧ req1.GetBody = some cpy := by
    cases body with
    | nil => exact ⟨_, _, rfl, rfl⟩
    | noBody => exact ⟨_, _, rfl, rfl⟩
    | bytes d => exact ⟨_, _, rfl, rfl⟩
    | failing got msg => simp [http.ReadAll] at hbody
  obtain ⟨b, hb⟩ := h429 { req1 with Body := cpy, GetBody := some cpy }
  refine ⟨errors.FromResponse { req1 with Body := cpy, GetBody := some cpy }
    { StatusCode := 429, Body := b } b, { attempts := 1, sleeps := [] }, ?_, rfl, rfl, rfl, rfl⟩
  by_cases hm : (0 : Int) ≥ c.cfg.MaxNetworkRetries
  · simp [client.do_, hset, client.doLoop, hget, hb, client.shouldRetry, hm,
      http.StatusBadRequest]
  · simp [client.do_, hset, client.doLoop, hget, hb, client.shouldRetry, hm,
      http.StatusBadRequest, http.StatusInternalServerError, http.StatusServiceUnavailable,
      http.StatusBadGateway, http.StatusConflict, http.StatusTooManyRequests]

/-- With 2 retries allowed, a transport answering 429 is tried once. -/
theorem do_no_retry_429_witness :
    ∃ e tr, (sampleClient 429 2).do_ (fun _ => 0) 1 sampleRequest .nil
        = some (.val (none, some e), tr)
      ∧ tr.attempts = 1 ∧ tr.sleeps = []
      ∧ e.Code = "rate_limit_exceeded" ∧ e.StatusCode = 429 :=
  do_no_retry_429 (sampleClient 429 2) (fun _ => 0) sampleRequest .nil 1 rfl
    (fun _ => ⟨_, rfl⟩) (by decide)

end api

namespace float64

theorem bitLenAux_le_iff : ∀ (fuel n L : Nat), n ≤ fuel → (bitLenAux fuel n ≤ L ↔ n < 2 ^ L) := by
  intro fuel
  induction fuel with
  | zero =>
    intro n L hn
    have h0 : n = 0 := Nat.le_zero.mp hn
    subst h0
    simp [bitLenAux]
  | succ f ih =>
    intro n L hn
    by_cases h0 : n = 0
    · subst h0
      simp [bitLenAux]
    · have hhalf : n / 2 ≤ f := by omega
      simp only [bitLenAux, h0, if_false]
      cases L with
      | zero =>
        simp only [pow_zero, Nat.lt_one_iff]
        omega
      | succ L =>
        rw [Nat.add_le_add_iff_right, ih (n / 2) L hhalf, pow_succ]
        omega

theorem bitLen_le_iff (n L : Nat) : bitLen n ≤ L ↔ n < 2 ^ L :=
  bitLenAux_le_iff n n L le_rfl

theorem lt_two_pow_bitLen (n : Nat) : n < 2 ^ bitLen n :=
  (bitLen_le_iff n (bitLen n)).mp le_rfl

theorem two_pow_le_of_lt_bitLen {n L : Nat} (h : L < bitLen n) : 2 ^ L ≤ n := by
  by_contra hc
  have := (bitLen_le_iff n L).mpr (not_le.mp hc)
  omega

theorem bitLen_mono {a b : Nat} (h : a ≤ b) : bitLen a ≤ bitLen b :=
  (bitLen_le_iff a (bitLen b)).mpr (lt_of_le_of_lt h (lt_two_pow_bitLen b))

theorem roundShift_zero (n : Nat) : roundShift n 0 = n := by
  simp [roundShift, Nat.mod_one]

theorem roundShift_ge (n k : Nat) : n / 2 ^ k ≤ roundShift n k := by
  unfold roundShift
  simp only
  split <;> omega

theorem roundShift_le (n k : Nat) : roundShift n k ≤ n / 2 ^ k + 1 := by
  unfold roundShift
  simp only
  split <;> omega

theorem roundShift_mono {a b : Nat} (k : Nat) (h : a ≤ b) : roundShift a k ≤ roundShift b k := by
  have hq : a / 2 ^ k ≤ b / 2 ^ k := Nat.div_le_div_right h
  rcases Nat.lt_or_ge (a / 2 ^ k) (b / 2 ^ k) with hlt | hge
  · calc roundShift a k ≤ a / 2 ^ k + 1 := roundShift_le a k
      _ ≤ b / 2 ^ k := hlt
      _ ≤ roundShift b k := roundShift_ge b k
  · have heq : a / 2 ^ k = b / 2 ^ k := le_antisymm hq hge
    have hr : a % 2 ^ k ≤ b % 2 ^ k := by
      have ha := Nat.div_add_mod a (2 ^ k)
      have hb := Nat.div_add_mod b (2 ^ k)
      rw [heq] at ha
      omega
    unfold roundShift
    simp only [heq]
    split <;> split <;> omega

end float64

namespace float64

theorem nearest_small {n : Nat} (h : n < 2 ^ 53) : nearest n = n := by
  have hb : bitLen n - 53 = 0 := Nat.sub_eq_zero_of_le ((bitLen_le_iff n 53).mpr h)
  simp [nearest, hb, roundShift_zero]

theorem nearest_bounds {n : Nat} (hn : 0 < n) :
    2 ^ (bitLen n - 1) ≤ nearest n ∧ nearest n ≤ 2 ^ bitLen n := by
  have hpos : 0 < bitLen n := by
    by_contra hc
    have := (bitLen_le_iff n 0).mp (by omega)
    simp at this
    omega
  have hlo : 2 ^ (bitLen n - 1) ≤ n := two_pow_le_of_lt_bitLen (by omega)
  have hhi : n < 2 ^ bitLen n := lt_two_pow_bitLen n
  rcases Nat.lt_or_ge (bitLen n) 54 with hs | hl
  · have hb : bitLen n - 53 = 0 := by omega
    simp only [nearest, hb, roundShift_zero, pow_zero, mul_one]
    exact ⟨hlo, hhi.le⟩
  · obtain ⟨k, hk⟩ : ∃ k, bitLen n = k + 53 := ⟨bitLen n - 53, by omega⟩
    have hkk : bitLen n - 53 = k := by omega
    have hk1 : bitLen n - 1 = 52 + k := by omega
    simp only [nearest, hkk]
    rw [hk1] at hlo ⊢
    rw [hk] at hhi ⊢
    have h2k : 0 < 2 ^ k := pow_pos (by norm_num) k
    have hq1 : 2 ^ 52 ≤ n / 2 ^ k := by
      rw [Nat.le_div_iff_mul_le h2k, ← pow_add]
      exact hlo
    have hq2 : n / 2 ^ k < 2 ^ 53 := by
      rw [Nat.div_lt_iff_lt_mul h2k, ← pow_add, Nat.add_comm 53 k]
      exact hhi
    constructor
    · calc 2 ^ (52 + k) = 2 ^ 52 * 2 ^ k := pow_add 2 52 k
        _ ≤ roundShift n k * 2 ^ k :=
          Nat.mul_le_mul_right _ (le_trans hq1 (roundShift_ge n k))
    · calc roundShift n k * 2 ^ k ≤ 2 ^ 53 * 2 ^ k :=
          Nat.mul_le_mul_right _ (le_trans (roundShift_le n k) hq2)
        _ = 2 ^ (k + 53) := by rw [← pow_add, Nat.add_comm]

theorem nearest_zero : nearest 0 = 0 := by decide

theorem nearest_mono {a b : Nat} (h : a ≤ b) : nearest a ≤ nearest b := by
  rcases Nat.eq_zero_or_pos a with ha | ha
  · subst ha
    rw [nearest_zero]
    exact Nat.zero_le _
  · have hb : 0 < b := lt_of_lt_of_le ha h
    rcases Nat.lt_or_ge (bitLen a) (bitLen b) with hlt | hge
    · calc nearest a ≤ 2 ^ bitLen a := (nearest_bounds ha).2
        _ ≤ 2 ^ (bitLen b - 1) := Nat.pow_le_pow_right (by norm_num) (by omega)
        _ ≤ nearest b := (nearest_bounds hb).1
    · have heq : bitLen a = bitLen b := le_antisymm (bitLen_mono h) hge
      unfold nearest
      rw [heq]
      exact Nat.mul_le_mul_right _ (roundShift_mono _ h)

theorem nearest_pos {n : Nat} (hn : 0 < n) : 0 < nearest n :=
  lt_of_lt_of_le (pow_pos (by norm_num) _) (nearest_bounds hn).1

/-- The spelling of `float64(n)` for `n` in the range of `int64`. -/
theorem ofInt_eq (n : Int) (h : n.natAbs ≤ 2 ^ 63) :
    ofInt n = fin (Int.sign n * (roundShift n.natAbs (bitLen n.natAbs - 53) : Nat))
      ((bitLen n.natAbs - 53 : Nat) : Int) := by
  have hbl : bitLen n.natAbs ≤ 64 :=
    (bitLen_le_iff _ 64).mpr (lt_of_le_of_lt h (by norm_num))
  have hk : (max (max ((bitLen n.natAbs : Int) - 53) (-1074 - 0)) 0).toNat
      = bitLen n.natAbs - 53 := by omega
  have hq : roundShift n.natAbs (bitLen n.natAbs - 53) ≤ 2 ^ 53 := by
    have h2k : 0 < 2 ^ (bitLen n.natAbs - 53) := pow_pos (by norm_num) _
    have h1 : n.natAbs / 2 ^ (bitLen n.natAbs - 53) < 2 ^ 53 := by
      rw [Nat.div_lt_iff_lt_mul h2k, ← pow_add]
      exact lt_of_lt_of_le (lt_two_pow_bitLen _) (Nat.pow_le_pow_right (by norm_num) (by omega))
    exact le_trans (roundShift_le _ _) h1
  have hbq : bitLen (roundShift n.natAbs (bitLen n.natAbs - 53)) ≤ 54 :=
    (bitLen_le_iff _ 54).mpr (lt_of_le_of_lt hq (by norm_num))
  unfold ofInt round
  simp only [hk]
  rw [if_neg]
  · simp
  · rintro ⟨-, hc⟩
    omega

end float64

namespace float64

theorem le_fin_nat (m1 m2 : Int) (k1 k2 : Nat) :
    le (fin m1 k1) (fin m2 k2) = decide (m1 * 2 ^ k1 ≤ m2 * 2 ^ k2) := by
  unfold le
  simp only
  congr 1
  apply propext
  rcases Nat.le_total k1 k2 with h | h
  · obtain ⟨d, rfl⟩ : ∃ d, k2 = k1 + d := ⟨k2 - k1, by omega⟩
    have e1 : ((k1 : Int) - min (k1 : Int) ((k1 + d : Nat) : Int)).toNat = 0 := by omega
    have e2 : (((k1 + d : Nat) : Int) - min (k1 : Int) ((k1 + d : Nat) : Int)).toNat = d := by
      omega
    rw [e1, e2, pow_zero, mul_one, pow_add, ← mul_assoc, mul_right_comm m2]
    exact (mul_le_mul_right (pow_pos (by norm_num : (0 : Int) < 2) k1)).symm
  · obtain ⟨d, rfl⟩ : ∃ d, k1 = k2 + d := ⟨k1 - k2, by omega⟩
    have e1 : (((k2 + d : Nat) : Int) - min ((k2 + d : Nat) : Int) (k2 : Int)).toNat = d := by
      omega
    have e2 : ((k2 : Int) - min ((k2 + d : Nat) : Int) (k2 : Int)).toNat = 0 := by omega
    rw [e1, e2, pow_zero, mul_one, pow_add, ← mul_assoc, mul_right_comm m1]
    exact (mul_le_mul_right (pow_pos (by norm_num : (0 : Int) < 2) k2)).symm

/-- The integer that `float64(n)` denotes, for `n` in the range of `int64`. -/
theorem ofInt_le (a b : Int) (ha : a.natAbs ≤ 2 ^ 63) (hb : b.natAbs ≤ 2 ^ 63) :
    le (ofInt a) (ofInt b)
      = decide (Int.sign a * (nearest a.natAbs : Int) ≤ Int.sign b * (nearest b.natAbs : Int)) := by
  rw [ofInt_eq a ha, ofInt_eq b hb, le_fin_nat]
  simp only [nearest, Nat.cast_mul, Nat.cast_pow, Nat.cast_ofNat, mul_assoc]

theorem intValue_small {n : Int} (h : n.natAbs < 2 ^ 53) :
    Int.sign n * (nearest n.natAbs : Int) = n := by
  rw [nearest_small h]
  exact Int.sign_mul_natAbs n

theorem intValue_nonpos {n : Int} (h : n ≤ 0) : Int.sign n * (nearest n.natAbs : Int) ≤ 0 := by
  have hs : Int.sign n ≤ 0 := by
    rcases lt_or_eq_of_le h with h1 | h1
    · rw [Int.sign_eq_neg_one_of_neg h1]; decide
    · rw [h1]; decide
  exact mul_nonpos_of_nonpos_of_nonneg hs (Int.ofNat_nonneg _)

theorem intValue_pos {n : Int} (h : 0 < n) :
    Int.sign n * (nearest n.natAbs : Int) = (nearest n.natAbs : Int)
      ∧ 0 < (nearest n.natAbs : Int) := by
  rw [Int.sign_eq_one_of_pos h, one_mul]
  refine ⟨rfl, ?_⟩
  have : 0 < n.natAbs := Int.natAbs_pos.mpr (ne_of_gt h)
  exact_mod_cast nearest_pos this

theorem intValue_mono {a b : Int} (h : a ≤ b) :
    Int.sign a * (nearest a.natAbs : Int) ≤ Int.sign b * (nearest b.natAbs : Int) := by
  rcases le_or_lt a 0 with ha | ha
  · rcases le_or_lt b 0 with hb | hb
    · rcases lt_or_eq_of_le hb with hb1 | hb1
      · have ha1 : a < 0 := lt_of_le_of_lt h hb1
        rw [Int.sign_eq_neg_one_of_neg ha1, Int.sign_eq_neg_one_of_neg hb1]
        have : nearest b.natAbs ≤ nearest a.natAbs := nearest_mono (by omega)
        have : (nearest b.natAbs : Int) ≤ (nearest a.natAbs : Int) := by exact_mod_cast this
        omega
      · subst hb1
        simpa using intValue_nonpos ha
    · exact le_trans (intValue_nonpos ha) (by rw [(intValue_pos hb).1]; exact (intValue_pos hb).2.le)
  · have hb : 0 < b := lt_of_lt_of_le ha h
    rw [(intValue_pos ha).1, (intValue_pos hb).1]
    have : nearest a.natAbs ≤ nearest b.natAbs := nearest_mono (by omega)
    exact_mod_cast this

end float64

namespace float64

/-- The order of two finite values is the order of the rationals they denote. -/
theorem le_fin_iff (m1 e1 m2 e2 : Int) :
    le (fin m1 e1) (fin m2 e2) = true ↔ (m1 : ℚ) * (2 : ℚ) ^ e1 ≤ (m2 : ℚ) * (2 : ℚ) ^ e2 := by
  unfold le
  simp only [decide_eq_true_eq]
  obtain ⟨d1, hd1⟩ : ∃ d : Nat, e1 = min e1 e2 + d := ⟨(e1 - min e1 e2).toNat, by omega⟩
  obtain ⟨d2, hd2⟩ : ∃ d : Nat, e2 = min e1 e2 + d := ⟨(e2 - min e1 e2).toNat, by omega⟩
  have t1 : (e1 - min e1 e2).toNat = d1 := by omega
  have t2 : (e2 - min e1 e2).toNat = d2 := by omega
  rw [t1, t2]
  have h2 : (0 : ℚ) < (2 : ℚ) ^ (min e1 e2) := zpow_pos (by norm_num) _
  have c1 : (m1 : ℚ) * (2 : ℚ) ^ e1 = ((m1 * 2 ^ d1 : Int) : ℚ) * (2 : ℚ) ^ (min e1 e2) := by
    conv_lhs => rw [hd1]
    rw [zpow_add₀ (by norm_num : (2 : ℚ) ≠ 0), zpow_natCast]
    push_cast
    ring
  have c2 : (m2 : ℚ) * (2 : ℚ) ^ e2 = ((m2 * 2 ^ d2 : Int) : ℚ) * (2 : ℚ) ^ (min e1 e2) := by
    conv_lhs => rw [hd2]
    rw [zpow_add₀ (by norm_num : (2 : ℚ) ≠ 0), zpow_natCast]
    push_cast
    ring
  rw [c1, c2, mul_le_mul_right h2]
  exact Int.cast_le.symm

/-- A conversion to `int64` that yields a positive `D` drops a fraction in `[0, 1)`. -/
theorem toInt64_bounds {m e D : Int} (h : toInt64 (fin m e) = .val D) (hD : 0 < D) :
    (D : ℚ) ≤ (m : ℚ) * (2 : ℚ) ^ e ∧ (m : ℚ) * (2 : ℚ) ^ e < (D : ℚ) + 1 := by
  rcases le_or_lt 0 e with he | he
  · simp only [toInt64, he, if_true] at h
    split at h
    · injection h with h
      obtain ⟨n, rfl⟩ : ∃ n : Nat, e = n := ⟨e.toNat, by omega⟩
      have : (m : ℚ) * (2 : ℚ) ^ ((n : Int)) = (D : ℚ) := by
        rw [← h, zpow_natCast]
        simp
      rw [this]
      exact ⟨le_rfl, by linarith⟩
    · cases h
  · simp only [toInt64, not_le.mpr he, if_false] at h
    split at h
    · injection h with h
      obtain ⟨n, rfl⟩ : ∃ n : Nat, e = -(n : Int) := ⟨(-e).toNat, by omega⟩
      have hn : (-(-(n : Int))).toNat = n := by omega
      rw [hn] at h
      have hp : (0 : Int) < 2 ^ n := pow_pos (by norm_num) n
      have hm : 0 ≤ m := by
        by_contra hc
        have hneg : m ≤ 0 := by omega
        have h1 : (-m).tdiv (2 ^ n) = -D := by rw [Int.neg_tdiv, h]
        have h2 : 0 ≤ (-m).tdiv (2 ^ n) := Int.tdiv_nonneg (by omega) hp.le
        omega
      rw [Int.tdiv_eq_ediv hm hp.le] at h
      have hlo : D * 2 ^ n ≤ m := by
        rw [← h]; exact Int.ediv_mul_le m (ne_of_gt hp)
      have hhi : m < (D + 1) * 2 ^ n := by
        rw [← h]; exact Int.lt_ediv_add_one_mul_self m hp
      have hq : (0 : ℚ) < (2 : ℚ) ^ n := pow_pos (by norm_num) n
      have e1 : (m : ℚ) * (2 : ℚ) ^ (-(n : Int)) = (m : ℚ) / (2 : ℚ) ^ n := by
        rw [zpow_neg, zpow_natCast, div_eq_mul_inv]
      rw [e1]
      constructor
      · rw [le_div_iff₀ hq]
        exact_mod_cast hlo
      · rw [div_lt_iff₀ hq]
        exact_mod_cast hhi
    · cases h

/-- Only the integer 0 converts to a `float64` equal to zero. -/
theorem ofInt_eq_zero_iff (x : Int) : eq (ofInt x) zero = true ↔ x = 0 := by
  constructor
  · intro h
    by_contra hx
    have hn : 0 < x.natAbs := Int.natAbs_pos.mpr hx
    have hbl : 0 < bitLen x.natAbs := by
      by_contra hc
      have := (bitLen_le_iff x.natAbs 0).mp (by omega)
      simp at this
      omega
    have hk : (max (max ((bitLen x.natAbs : Int) - 53) (-1074 - 0)) 0).toNat
        = bitLen x.natAbs - 53 := by omega
    have hq : 0 < roundShift x.natAbs (bitLen x.natAbs - 53) := by
      have h1 : 2 ^ (bitLen x.natAbs - 53) ≤ x.natAbs := two_pow_le_of_lt_bitLen (by omega)
      have h2 : 0 < x.natAbs / 2 ^ (bitLen x.natAbs - 53) :=
        Nat.div_pos h1 (pow_pos (by norm_num) _)
      exact lt_of_lt_of_le h2 (roundShift_ge _ _)
    unfold ofInt round at h
    simp only [hk] at h
    split at h
    · split at h <;> simp [eq, le, zero] at h
    · have hs : Int.sign x * (roundShift x.natAbs (bitLen x.natAbs - 53) : Int) ≠ 0 := by
        apply mul_ne_zero
        · exact fun hc => hx (Int.sign_eq_zero_iff_zero.mp hc)
        · exact_mod_cast (ne_of_gt hq)
      simp only [eq, zero, Bool.and_eq_true, le_fin_iff] at h
      obtain ⟨h1, h2⟩ := h
      simp only [Int.cast_zero, zero_mul] at h1 h2
      have hp : (0 : ℚ) < (2 : ℚ) ^ ((0 : Int) + ((bitLen x.natAbs - 53 : Nat) : Int)) :=
        zpow_pos (by norm_num) _
      have h3 : ((Int.sign x * (roundShift x.natAbs (bitLen x.natAbs - 53) : Int) : Int) : ℚ) = 0 := by
        have := le_antisymm h1 h2
        rcases mul_eq_zero.mp this with h4 | h4
        · exact h4
        · exact absurd h4 (ne_of_gt hp)
      exact hs (by exact_mod_cast h3)
  · rintro rfl
    decide

end float64

namespace backoff

theorem natAbs_le_of_isInt64 {n : Int} (h : isInt64 n) : n.natAbs ≤ 2 ^ 63 := by
  unfold isInt64 at h
  omega

theorem tdiv_four_pos {D : Int} (h : 0 < Int.tdiv D 4) : 0 < D ∧ Int.tdiv D 4 = D / 4 := by
  have hD : 0 ≤ D := by
    by_contra hc
    have h1 : (-D).tdiv 4 = -(D.tdiv 4) := Int.neg_tdiv D 4
    have h2 : 0 ≤ (-D).tdiv 4 := Int.tdiv_nonneg (by omega) (by norm_num)
    omega
  have he : Int.tdiv D 4 = D / 4 := Int.tdiv_eq_ediv hD (by norm_num)
  rw [he] at h
  exact ⟨by omega, he⟩

/-- For a retry count other than 0, a returned delay is the unjittered delay `D` less a
jitter in `[0, D / 4)`, clamped to `max`. -/
theorem Next_nonzero_shape (pow : float64 → float64 → float64) (e : exponentialBackoff)
    (src : Nat) (x d : Int) (hx : x ≠ 0) (h : e.Next pow src x = .val d) :
    ∃ D jit : Int, float64.toInt64 (e.fx pow x) = .val D ∧ 4 ≤ D ∧ 0 ≤ jit ∧ 4 * jit + 4 ≤ D
      ∧ d = min (D - jit) e.max := by
  have hz : float64.eq (float64.ofInt x) float64.zero = false := by
    cases hb : float64.eq (float64.ofInt x) float64.zero with
    | false => rfl
    | true => exact absurd ((float64.ofInt_eq_zero_iff x).mp hb) hx
  unfold exponentialBackoff.Next at h
  simp only [hz] at h
  cases hfx : float64.toInt64 (e.fx pow x) with
  | panic msg =>
    unfold exponentialBackoff.fx at hfx
    simp [hfx] at h
  | implDefined =>
    unfold exponentialBackoff.fx at hfx
    simp [hfx] at h
  | val D =>
    have hfx2 := hfx
    unfold exponentialBackoff.fx at hfx2
    simp only [hfx2, Bool.false_eq_true, if_false] at h
    unfold rand.Int63n at h
    by_cases hn : Int.tdiv D 4 ≤ 0
    · simp [hn] at h
    · simp only [hn, if_false] at h
      obtain ⟨hD, he⟩ := tdiv_four_pos (not_le.mp hn)
      have hpos : 0 < D / 4 := by rw [← he]; exact not_le.mp hn
      have hj0 : 0 ≤ (src : Int) % Int.tdiv D 4 := by
        rw [he]; exact Int.emod_nonneg _ (ne_of_gt hpos)
      have hj1 : (src : Int) % Int.tdiv D 4 < D / 4 := by
        rw [he]; exact Int.emod_lt_of_pos _ hpos
      refine ⟨D, (src : Int) % Int.tdiv D 4, rfl, by omega, hj0, by omega, ?_⟩
      by_cases hc : D - (src : Int) % Int.tdiv D 4 > e.max
      · simp only [hc, if_true] at h
        injection h with h
        rw [← h]
        exact (min_eq_right (le_of_lt hc)).symm
      · simp only [hc, if_false] at h
        injection h with h
        rw [← h]
        exact (min_eq_left (not_lt.mp hc)).symm

/-- At retry count 0 the delay is the initial delay as long as it is below `2 ^ 53`. -/
theorem Next_zero_of_small (pow : float64 → float64 → float64) (e : exponentialBackoff)
    (src : Nat) (h : e.initial.natAbs < 2 ^ 53) : e.Next pow src 0 = .val e.initial := by
  have hz : float64.eq (float64.ofInt 0) float64.zero = true := by decide
  have ha : float64.ofInt e.initial = .fin e.initial 0 := by
    rw [float64.ofInt_eq _ (le_trans h.le (by norm_num))]
    have hb : float64.bitLen e.initial.natAbs - 53 = 0 :=
      Nat.sub_eq_zero_of_le ((float64.bitLen_le_iff _ 53).mpr h)
    rw [hb, float64.roundShift_zero, Int.sign_mul_natAbs]
    rfl
  unfold exponentialBackoff.Next
  simp only [hz, if_true, ha, float64.toInt64]
  have h1 : (2 : Int) ^ (53 : Nat) < 2 ^ 63 := by norm_num
  have h2 : ((e.initial.natAbs : Int)) < 2 ^ 53 := by exact_mod_cast h
  rw [if_pos]
  · simp
  · simp only [le_refl, if_true, Int.toNat_zero, pow_zero, mul_one]
    constructor <;> omega

end backoff

namespace backoff

/-- Counterexample to C5 as stated: with initial 50ms, max 60ms, growth 0.5 and retry
count 1, `a(1+r)^x` is 75ms and exceeds `max`, yet for the random draw 18000000 the delay is
57ms, not `max`. -/
theorem Next_exceeds_max_yet_below_max :
    ((50000000 : ℚ) * (1 + 1 / 2) ^ (1 : Nat) > 60000000)
    ∧ (float64.fin 1 (-1)).toRat? = some (1 / 2)
    ∧ ExponentialWithGrowthRate 50000000 60000000 (.fin 1 (-1))
        = (some { growthRate := .fin 1 (-1), initial := 50000000, max := 60000000 }, none)
    ∧ exponentialBackoff.Next math.Pow
        { growthRate := .fin 1 (-1), initial := 50000000, max := 60000000 } 18000000 1
        = .val 57000000
    ∧ (57000000 : Int) ≠ 60000000 := by
  refine ⟨by norm_num, ?_, by decide, by decide, by decide⟩
  simp only [float64.toRat?]
  norm_num

/-- C5 (amended): whenever `Next(x)` returns a delay `d`: for `x` other than 0 there is a
jittered delay `j` with `0.75 * fx < j <= fx`, where `fx` is the `float64` value the code
computes for `a(1+r)^x`, and `d` is the smaller of `j` and `max`, so `d` is `max` exactly
when `j` exceeds `max`; for `x = 0` and an initial delay below `2 ^ 53` ns, `d` is the
initial delay. -/
theorem Next_jitter_then_clamp (pow : float64 → float64 → float64) (e : exponentialBackoff)
    (src : Nat) (x d : Int) (h : e.Next pow src x = .val d) :
    (x ≠ 0 → ∃ (q : ℚ) (j : Int), (e.fx pow x).toRat? = some q
        ∧ (3 / 4 : ℚ) * q < (j : ℚ) ∧ (j : ℚ) ≤ q ∧ d = min j e.max)
    ∧ (x = 0 → e.initial.natAbs < 2 ^ 53 → d = e.initial) := by
  constructor
  · intro hx
    obtain ⟨D, jit, hD, h4, hj0, hj1, hd⟩ := Next_nonzero_shape pow e src x d hx h
    cases hf : e.fx pow x with
    | fin m ex =>
      rw [hf] at hD
      obtain ⟨hlo, hhi⟩ := float64.toInt64_bounds hD (by omega)
      refine ⟨(m : ℚ) * (2 : ℚ) ^ ex, D - jit, rfl, ?_, ?_, hd⟩
      · have h1 : (3 : ℚ) * ((D : ℚ) + 1) ≤ 4 * ((D - jit : Int) : ℚ) := by
          have : 3 * (D + 1) ≤ 4 * (D - jit) := by omega
          exact_mod_cast this
        linarith
      · have h1 : ((D - jit : Int) : ℚ) ≤ (D : ℚ) := by
          have : D - jit ≤ D := by omega
          exact_mod_cast this
        linarith
    | posInf => rw [hf] at hD; simp [float64.toInt64] at hD
    | negInf => rw [hf] at hD; simp [float64.toInt64] at hD
    | nan => rw [hf] at hD; simp [float64.toInt64] at hD
  · intro hx hs
    subst hx
    rw [Next_zero_of_small pow e src hs] at h
    injection h with h
    exact h.symm

/-- The run of the counterexample: the delay 57ms is the jittered delay itself. -/
theorem Next_jitter_then_clamp_witness :
    ∃ (q : ℚ) (j : Int),
      (exponentialBackoff.fx math.Pow
        { growthRate := .fin 1 (-1), initial := 50000000, max := 60000000 } 1).toRat? = some q
      ∧ (3 / 4 : ℚ) * q < (j : ℚ) ∧ (j : ℚ) ≤ q ∧ (57000000 : Int) = min j 60000000 :=
  (Next_jitter_then_clamp math.Pow
    { growthRate := .fin 1 (-1), initial := 50000000, max := 60000000 } 18000000 1 57000000
    (by decide)).1 (by decide)

/-- C6: at retry count 0 the code returns the initial delay after a round trip through
`float64`; for the initial delay `2 ^ 54 + 1` ns, which `ExponentialWithGrowthRate`
accepts, `Next(0)` is `2 ^ 54` ns, not the configured initial delay. -/
theorem Next_zero_rounds_initial :
    ExponentialWithGrowthRate 18014398509481985 4611686018427387904 (.fin 1 (-1))
        = (some { growthRate := .fin 1 (-1), initial := 18014398509481985,
                  max := 4611686018427387904 }, none)
    ∧ (∀ (pow : float64 → float64 → float64) (src : Nat),
        exponentialBackoff.Next pow
          { growthRate := .fin 1 (-1), initial := 18014398509481985,
            max := 4611686018427387904 } src 0 = .val 18014398509481984)
    ∧ (18014398509481984 : Int) ≠ 18014398509481985 := by
  refine ⟨by decide, ?_, by decide⟩
  intro pow src
  have hz : float64.eq (float64.ofInt 0) float64.zero = true := by decide
  have ha : float64.toInt64 (float64.ofInt 18014398509481985) = .val 18014398509481984 := by
    decide
  simp only [exponentialBackoff.Next, hz, if_true, ha]

/-- C9: the delay at retry count 0 is not clamped and has gone through `float64`; for the
accepted configuration initial `2 ^ 55 + 5` ns, max `2 ^ 55 + 6` ns, `Next(0)` is
`2 ^ 55 + 8` ns, above the ceiling. -/
theorem Next_zero_above_max :
    ExponentialWithGrowthRate 36028797018963973 36028797018963974 (.fin 1 (-1))
        = (some { growthRate := .fin 1 (-1), initial := 36028797018963973,
                  max := 36028797018963974 }, none)
    ∧ (∀ (pow : float64 → float64 → float64) (src : Nat),
        exponentialBackoff.Next pow
          { growthRate := .fin 1 (-1), initial := 36028797018963973,
            max := 36028797018963974 } src 0 = .val 36028797018963976)
    ∧ (36028797018963974 : Int) < 36028797018963976 := by
  refine ⟨by decide, ?_, by decide⟩
  intro pow src
  have hz : float64.eq (float64.ofInt 0) float64.zero = true := by decide
  have ha : float64.toInt64 (float64.ofInt 36028797018963973) = .val 36028797018963976 := by
    decide
  simp only [exponentialBackoff.Next, hz, if_true, ha]

end backoff

namespace backoff

theorem isWithinDurationRange_eq (d lo hi : Int) (hd : isInt64 d) (hlo : isInt64 lo)
    (hhi : isInt64 hi) :
    isWithinDurationRange d lo hi
      = (decide (Int.sign lo * (float64.nearest lo.natAbs : Int)
            ≤ Int.sign d * (float64.nearest d.natAbs : Int))
          && decide (Int.sign d * (float64.nearest d.natAbs : Int)
            ≤ Int.sign hi * (float64.nearest hi.natAbs : Int))) := by
  unfold isWithinDurationRange isWithinRange float64.ge
  rw [float64.ofInt_le lo d (natAbs_le_of_isInt64 hlo) (natAbs_le_of_isInt64 hd),
    float64.ofInt_le d hi (natAbs_le_of_isInt64 hd) (natAbs_le_of_isInt64 hhi)]
  simp

theorem isInt64_one : isInt64 Nanosecond := by
  unfold isInt64 Nanosecond
  constructor <;> norm_num

theorem intValue_one :
    Int.sign Nanosecond * (float64.nearest Nanosecond.natAbs : Int) = 1 := by decide

/-- What acceptance of the growth rate means for the rational it denotes. -/
theorem isWithinRange_growth (growth : float64) :
    isWithinRange growth onePercent float64.one = true
      ↔ ∃ r : ℚ, growth.toRat? = some r ∧ (5764607523034235 : ℚ) / 2 ^ 59 ≤ r ∧ r ≤ 1 := by
  have hc : ((5764607523034235 : Int) : ℚ) * (2 : ℚ) ^ (-59 : Int)
      = (5764607523034235 : ℚ) / 2 ^ 59 := by
    rw [zpow_neg, div_eq_mul_inv]
    norm_cast
  cases growth with
  | fin m e =>
    unfold isWithinRange float64.ge onePercent float64.one
    simp only [Bool.and_eq_true, float64.le_fin_iff, float64.toRat?, Option.some.injEq,
      exists_eq_left', hc, if_true_right, Bool.if_false_right, Bool.and_true,
      decide_eq_true_eq, Bool.decide_and, Bool.decide_eq_true]
    simp
  | posInf => simp [isWithinRange, float64.ge, float64.le, float64.toRat?, onePercent, float64.one]
  | negInf => simp [isWithinRange, float64.ge, float64.le, float64.toRat?, onePercent, float64.one]
  | nan => simp [isWithinRange, float64.ge, float64.le, float64.toRat?, onePercent, float64.one]

/-- C7: `initial = max = 50ms` satisfies `initial >= max`, yet the construction succeeds and
returns a strategy with a nil error, although the comment and the error text of the code
say that the initial delay must be less than the maximum; the same happens for the initial
delay `2 ^ 53 + 1` ns above the maximum `2 ^ 53` ns, which compare equal as `float64`. -/
theorem ExponentialWithGrowthRate_equal_bounds :
    ((50000000 : Int) ≥ 50000000)
    ∧ (float64.fin 1 (-1)).toRat? = some (1 / 2)
    ∧ ExponentialWithGrowthRate 50000000 50000000 (.fin 1 (-1))
        = (some { growthRate := .fin 1 (-1), initial := 50000000, max := 50000000 }, none)
    ∧ ((9007199254740993 : Int) > 9007199254740992)
    ∧ ExponentialWithGrowthRate 9007199254740993 9007199254740992 (.fin 1 (-1))
        = (some { growthRate := .fin 1 (-1), initial := 9007199254740993,
                  max := 9007199254740992 }, none) := by
  refine ⟨by decide, ?_, by decide, by decide, by decide⟩
  simp only [float64.toRat?]
  norm_num

/-- What the construction does refuse: for `int64` durations, if `initial <= 0`, or
`initial > max` with `max` below `2 ^ 53` ns, or the growth rate is outside `(0, 1]` (NaN
and the infinities included), `ExponentialWithGrowthRate` returns a nil strategy and a
non-nil error. -/
theorem ExponentialWithGrowthRate_rejects (initial max : Int) (growth : float64)
    (hi : isInt64 initial) (hm : isInt64 max)
    (h : initial ≤ 0 ∨ (max < initial ∧ max < 2 ^ 53)
      ∨ ∀ r : ℚ, growth.toRat? = some r → ¬ (0 < r ∧ r ≤ 1)) :
    (ExponentialWithGrowthRate initial max growth).1 = none
      ∧ (ExponentialWithGrowthRate initial max growth).2 ≠ none := by
  have hdur : initial ≤ 0 ∨ (max < initial ∧ max < 2 ^ 53) →
      isWithinDurationRange initial Nanosecond max = false := by
    intro hc
    rw [isWithinDurationRange_eq initial Nanosecond max hi isInt64_one hm, intValue_one]
    rcases le_or_lt initial 0 with h0 | h0
    · have := float64.intValue_nonpos h0
      have h1 : ¬ (1 ≤ Int.sign initial * (float64.nearest initial.natAbs : Int)) := by omega
      simp [h1]
    · have hlt : max < initial ∧ max < 2 ^ 53 := by
        rcases hc with hc | hc
        · omega
        · exact hc
      have h2 : ¬ (Int.sign initial * (float64.nearest initial.natAbs : Int)
          ≤ Int.sign max * (float64.nearest max.natAbs : Int)) := by
        rcases le_or_lt max 0 with hm0 | hm0
        · have h3 := float64.intValue_nonpos hm0
          have h4 := float64.intValue_pos h0
          omega
        · have h3 : Int.sign max * (float64.nearest max.natAbs : Int) = max :=
            float64.intValue_small (by omega)
          have h4 : Int.sign (max + 1) * (float64.nearest (max + 1).natAbs : Int) = max + 1 := by
            rcases lt_or_eq_of_le (show max + 1 ≤ 2 ^ 53 by omega) with h5 | h5
            · exact float64.intValue_small (by omega)
            · rw [h5]; decide
          have h6 := float64.intValue_mono (show max + 1 ≤ initial by omega)
          omega
      simp [h2]
  have hgr : (∀ r : ℚ, growth.toRat? = some r → ¬ (0 < r ∧ r ≤ 1)) →
      isWithinRange growth onePercent float64.one = false := by
    intro hc
    cases hb : isWithinRange growth onePercent float64.one with
    | false => rfl
    | true =>
      obtain ⟨r, hr, hlo, hhi⟩ := (isWithinRange_growth growth).mp hb
      have hpos : (0 : ℚ) < (5764607523034235 : ℚ) / 2 ^ 59 := by positivity
      exact absurd ⟨lt_of_lt_of_le hpos hlo, hhi⟩ (hc r hr)
  unfold ExponentialWithGrowthRate
  rcases h with h | h | h
  · simp [hdur (Or.inl h)]
  · simp [hdur (Or.inr h)]
  · by_cases hd : isWithinDurationRange initial Nanosecond max = true
    · simp [hd, hgr h]
    · simp [hd]

/-- The case `MinGreaterThanMax` of the tests: initial 5000ms, max 50ms. -/
theorem ExponentialWithGrowthRate_rejects_witness :
    (ExponentialWithGrowthRate 5000000000 50000000 (.fin 1 (-1))).1 = none
      ∧ (ExponentialWithGrowthRate 5000000000 50000000 (.fin 1 (-1))).2 ≠ none :=
  ExponentialWithGrowthRate_rejects 5000000000 50000000 (.fin 1 (-1)) (by decide) (by decide)
    (Or.inr (Or.inl (by decide)))

/-- Counterexample to C8 as stated: the growth rate 1/128 lies in `(0, 1]` and
`0 < initial < max`, yet the construction fails. -/
theorem ExponentialWithGrowthRate_small_growth :
    ((0 : Int) < 50000000 ∧ (50000000 : Int) < 5000000000)
    ∧ (float64.fin 1 (-7)).toRat? = some (1 / 128)
    ∧ ((0 : ℚ) < 1 / 128 ∧ (1 / 128 : ℚ) ≤ 1)
    ∧ ExponentialWithGrowthRate 50000000 5000000000 (.fin 1 (-7))
        = (none, some "growth rate has to be a percentage between 1 and 100%") := by
  refine ⟨by decide, ?_, by norm_num, by decide⟩
  simp only [float64.toRat?]
  norm_num

/-- C8 (amended): for `int64` durations with `0 < initial < max` and a growth rate between
0.01 (as the `float64` constant, `5764607523034235 / 2 ^ 59`) and 1.0 inclusive,
`ExponentialWithGrowthRate` returns a nil error and a strategy holding exactly that
initial delay, ceiling and growth rate; `Exponential` is the same construction with growth
rate 0.5 and so succeeds whenever `0 < initial < max`. -/
theorem ExponentialWithGrowthRate_accepts (initial max : Int) (growth : float64) (r : ℚ)
    (hi : isInt64 initial) (hm : isInt64 max) (h0 : 0 < initial) (hlt : initial < max)
    (hg : growth.toRat? = some r) (hlo : (5764607523034235 : ℚ) / 2 ^ 59 ≤ r) (hhi : r ≤ 1) :
    ExponentialWithGrowthRate initial max growth
        = (some { growthRate := growth, initial := initial, max := max }, none)
    ∧ Exponential initial max = ExponentialWithGrowthRate initial max (.fin 1 (-1))
    ∧ Exponential initial max
        = (some { growthRate := .fin 1 (-1), initial := initial, max := max }, none) := by
  have hdur : isWithinDurationRange initial Nanosecond max = true := by
    rw [isWithinDurationRange_eq initial Nanosecond max hi isInt64_one hm, intValue_one]
    have h1 := float64.intValue_mono (show (1 : Int) ≤ initial by omega)
    have h2 := float64.intValue_mono (show initial ≤ max by omega)
    have h3 : Int.sign 1 * (float64.nearest (1 : Int).natAbs : Int) = 1 := by decide
    rw [h3] at h1
    simp [h1, h2]
  have hgr : isWithinRange growth onePercent float64.one = true :=
    (isWithinRange_growth growth).mpr ⟨r, hg, hlo, hhi⟩
  have hdef : isWithinRange (.fin 1 (-1)) onePercent float64.one = true := by decide
  refine ⟨?_, rfl, ?_⟩
  · simp [ExponentialWithGrowthRate, hdur, hgr]
  · simp [Exponential, defaultGrowthRate, ExponentialWithGrowthRate, hdur, hdef]

/-- The case `Valid` of the tests: initial 50ms, max 5000ms, growth 0.5. -/
theorem ExponentialWithGrowthRate_accepts_witness :
    ExponentialWithGrowthRate 50000000 5000000000 (.fin 1 (-1))
        = (some { growthRate := .fin 1 (-1), initial := 50000000, max := 5000000000 }, none)
    ∧ Exponential 50000000 5000000000
        = ExponentialWithGrowthRate 50000000 5000000000 (.fin 1 (-1))
    ∧ Exponential 50000000 5000000000
        = (some { growthRate := .fin 1 (-1), initial := 50000000, max := 5000000000 }, none) :=
  ExponentialWithGrowthRate_accepts 50000000 5000000000 (.fin 1 (-1)) (1 / 2) (by decide)
    (by decide) (by decide) (by decide) (by simp only [float64.toRat?]; norm_num)
    (by norm_num) (by norm_num)

end backoff

namespace backoff

/-- What acceptance by `ExponentialWithGrowthRate` tells about the durations. -/
theorem accepted_durations {initial max : Int} {growth : float64} {bk : exponentialBackoff}
    (hi : isInt64 initial) (hm : isInt64 max)
    (h : ExponentialWithGrowthRate initial max growth = (some bk, none)) :
    bk = { growthRate := growth, initial := initial, max := max }
      ∧ 1 ≤ Int.sign initial * (float64.nearest initial.natAbs : Int)
      ∧ Int.sign initial * (float64.nearest initial.natAbs : Int)
          ≤ Int.sign max * (float64.nearest max.natAbs : Int) := by
  unfold ExponentialWithGrowthRate at h
  by_cases hd : isWithinDurationRange initial Nanosecond max = true
  · by_cases hg : isWithinRange growth onePercent float64.one = true
    · simp only [hd, hg, Bool.not_true, Bool.false_eq_true, if_false, Prod.mk.injEq,
        Option.some.injEq, and_true] at h
      rw [isWithinDurationRange_eq initial Nanosecond max hi isInt64_one hm, intValue_one] at hd
      simp only [Bool.and_eq_true, decide_eq_true_eq] at hd
      exact ⟨h.symm, hd.1, hd.2⟩
    · simp [hd, hg] at h
  · simp [hd] at h

/-- Within the range where `float64` is exact the delay of an accepted strategy lies
between 0 and `max`; for a retry count other than 0 it does so for every accepted
strategy. -/
theorem Next_within_bounds (pow : float64 → float64 → float64) (initial max : Int)
    (growth : float64) (bk : exponentialBackoff) (src : Nat) (x d : Int)
    (hi : isInt64 initial) (hm : isInt64 max)
    (hacc : ExponentialWithGrowthRate initial max growth = (some bk, none))
    (hx : x ≠ 0 ∨ max < 2 ^ 53)
    (h : bk.Next pow src x = .val d) : 0 ≤ d ∧ d ≤ max := by
  obtain ⟨hbk, h1, h2⟩ := accepted_durations hi hm hacc
  have hmax : 0 < max := by
    by_contra hc
    have := float64.intValue_nonpos (not_lt.mp hc)
    omega
  have hinit : 0 < initial := by
    by_contra hc
    have := float64.intValue_nonpos (not_lt.mp hc)
    omega
  subst hbk
  by_cases hx0 : x = 0
  · subst hx0
    have hm53 : max < 2 ^ 53 := by
      rcases hx with hx | hx
      · exact absurd rfl hx
      · exact hx
    have hv : Int.sign max * (float64.nearest max.natAbs : Int) = max :=
      float64.intValue_small (by omega)
    have hsmall : initial.natAbs < 2 ^ 53 := by
      by_contra hc
      have hb : 53 < float64.bitLen initial.natAbs := by
        by_contra hc2
        exact hc ((float64.bitLen_le_iff _ 53).mp (not_lt.mp hc2))
      have hn := (float64.nearest_bounds (Int.natAbs_pos.mpr (ne_of_gt hinit))).1
      have hp : 2 ^ 53 ≤ 2 ^ (float64.bitLen initial.natAbs - 1) :=
        Nat.pow_le_pow_right (by norm_num) (by omega)
      have h3 : (2 ^ 53 : Nat) ≤ float64.nearest initial.natAbs := le_trans hp hn
      have h4 : ((2 ^ 53 : Nat) : Int) ≤ (float64.nearest initial.natAbs : Int) := by
        exact_mod_cast h3
      rw [(float64.intValue_pos hinit).1, hv] at h2
      have h5 : ((2 ^ 53 : Nat) : Int) = 2 ^ 53 := by norm_num
      omega
    rw [Next_zero_of_small pow _ src hsmall] at h
    injection h with h
    rw [float64.intValue_small hsmall, hv] at h2
    simp only at h
    omega
  · obtain ⟨D, jit, -, h4, hj0, hj1, hd⟩ := Next_nonzero_shape pow _ src x d hx0 h
    simp only at hd
    rw [hd]
    constructor
    · exact le_min (by omega) hmax.le
    · exact min_le_right _ _

end backoff

namespace http

theorem lookup_filter_ne {β : Type} (k a : String) (h : a ≠ k) :
    ∀ l : List (String × β), (l.filter fun p => p.1 != k).lookup a = l.lookup a := by
  intro l
  induction l with
  | nil => rfl
  | cons p rest ih =>
    obtain ⟨pk, pv⟩ := p
    by_cases hp : pk = k
    · subst hp
      have hne : (a == pk) = false := by simpa using h
      simp [List.filter, List.lookup, hne, ih]
    · have hkeep : (pk != k) = true := by simpa using hp
      simp only [List.filter, hkeep, List.lookup]
      cases hak : a == pk <;> simp [ih]

theorem Header.Get_Set_self (h : Header) (key value : String) :
    (h.Set key value).Get key = value := by
  simp [Header.Set, Header.Get, List.lookup]

theorem Header.Get_Set_ne (h : Header) (key value k : String)
    (hk : textproto.CanonicalMIMEHeaderKey k ≠ textproto.CanonicalMIMEHeaderKey key) :
    (h.Set key value).Get k = h.Get k := by
  have hne : (textproto.CanonicalMIMEHeaderKey k == textproto.CanonicalMIMEHeaderKey key)
      = false := by simpa using hk
  simp only [Header.Set, Header.Get, List.lookup, hne]
  rw [lookup_filter_ne _ _ hk]

theorem Header.lookup_Set_ne (h : Header) (key value k : String)
    (hk : k ≠ textproto.CanonicalMIMEHeaderKey key) :
    (h.Set key value).lookup k = h.lookup k := by
  have hne : (k == textproto.CanonicalMIMEHeaderKey key) = false := by simpa using hk
  simp only [Header.Set, List.lookup, hne]
  rw [lookup_filter_ne _ _ hk]

theorem Values.Get_Set_same (v : Values) (key value : String) :
    (v.Set key value).Get key = value := by
  simp [Values.Set, Values.Get, List.lookup]

theorem Values.Get_Set_other (v : Values) (key value k : String) (hk : k ≠ key) :
    (v.Set key value).Get k = v.Get k := by
  have hne : (k == key) = false := by simpa using hk
  simp only [Values.Set, Values.Get, List.lookup, hne]
  rw [lookup_filter_ne _ _ hk]

end http

namespace errors

/-- C14: for a readable body `d`, `RetrieveSample` returns `d` itself when `d` has fewer
than 500 bytes, and otherwise the first 500 bytes followed by the three bytes `...`, 503
bytes in all; a sample is never longer than 503 bytes. For the nil reader, `http.NoBody`
and a reader whose read fails it returns nil. -/
theorem RetrieveSample_spec (d got : List UInt8) (msg : String) :
    (d.length < 500 → RetrieveSample (.bytes d) = some d)
    ∧ (500 ≤ d.length →
        RetrieveSample (.bytes d) = some (d.take 500 ++ [46, 46, 46])
        ∧ (d.take 500 ++ [46, 46, 46]).length = 503)
    ∧ (∀ s, RetrieveSample (.bytes d) = some s → s.length ≤ 503)
    ∧ RetrieveSample .nil = none
    ∧ RetrieveSample .noBody = none
    ∧ RetrieveSample (.failing got msg) = none := by
  have hlt : d.length < 500 → RetrieveSample (.bytes d) = some d := by
    intro h
    simp [RetrieveSample, http.ReadAll, bodySampleSize, h]
  have hge : 500 ≤ d.length →
      RetrieveSample (.bytes d) = some (d.take 500 ++ [46, 46, 46])
      ∧ (d.take 500 ++ [46, 46, 46]).length = 503 := by
    intro h
    have hn : ¬ d.length < 500 := by omega
    refine ⟨by simp [RetrieveSample, http.ReadAll, bodySampleSize, hn, dots], ?_⟩
    simp [List.length_take]
    omega
  refine ⟨hlt, hge, ?_, rfl, rfl, rfl⟩
  intro s hs
  rcases Nat.lt_or_ge d.length 500 with h | h
  · rw [hlt h] at hs
    injection hs with hs
    subst hs
    omega
  · rw [(hge h).1] at hs
    injection hs with hs
    subst hs
    rw [(hge h).2]

/-- A body of 3 bytes is returned as it is. -/
theorem RetrieveSample_spec_witness : RetrieveSample (.bytes [97, 98, 99]) = some [97, 98, 99] :=
  (RetrieveSample_spec [97, 98, 99] [] "").1 (by decide)

end errors

namespace auth

/-- C15: `FromHeader` and `FromQueryString` return the nil credential exactly when the key
or the value is empty; otherwise they return a credential whose `set` stores the value
under that key (the header under the key's canonical form, the query parameter under the
key itself) and leaves every other key as it was. -/
theorem FromHeader_FromQueryString (key value : String) :
    (FromHeader key value = none ↔ key = "" ∨ value = "")
    ∧ (FromQueryString key value = none ↔ key = "" ∨ value = "")
    ∧ (¬ (key = "" ∨ value = "") →
        FromHeader key value = some (.fromHeader key value)
        ∧ FromQueryString key value = some (.fromQuery key value))
    ∧ (∀ r : http.Request,
        ((Credentials.fromHeader key value).set r).HeaderGet key = value
        ∧ (∀ k, textproto.CanonicalMIMEHeaderKey k ≠ textproto.CanonicalMIMEHeaderKey key →
            ((Credentials.fromHeader key value).set r).HeaderGet k = r.HeaderGet k)
        ∧ ((Credentials.fromHeader key value).set r).Query = r.Query
        ∧ ((Credentials.fromQuery key value).set r).Query.Get key = value
        ∧ (∀ k, k ≠ key → ((Credentials.fromQuery key value).set r).Query.Get k = r.Query.Get k)
        ∧ ((Credentials.fromQuery key value).set r).Header = r.Header) := by
  refine ⟨?_, ?_, ?_, ?_⟩
  · unfold FromHeader
    by_cases h : key = "" ∨ value = "" <;> simp [h]
  · unfold FromQueryString
    by_cases h : key = "" ∨ value = "" <;> simp [h]
  · intro h
    simp [FromHeader, FromQueryString, h]
  · intro r
    refine ⟨?_, ?_, rfl, ?_, ?_, rfl⟩
    · exact http.Header.Get_Set_self _ _ _
    · intro k hk
      exact http.Header.Get_Set_ne _ _ _ _ hk
    · exact http.Values.Get_Set_same _ _ _
    · intro k hk
      exact http.Values.Get_Set_other _ _ _ _ hk

/-- A key and a value that are both present give a header credential. -/
theorem FromHeader_FromQueryString_witness :
    FromHeader "X-Api-Key" "secret" = some (.fromHeader "X-Api-Key" "secret")
    ∧ FromQueryString "X-Api-Key" "secret" = some (.fromQuery "X-Api-Key" "secret") :=
  (FromHeader_FromQueryString "X-Api-Key" "secret").2.2.1 (by decide)

end auth

namespace opts

theorem applyLoop_append (os : List APIOption) (o : APIOption) :
    ∀ x : Options, applyLoop (os ++ [o]) x = o.apply (applyLoop os x) := by
  induction os with
  | nil => intro x; rfl
  | cons p rest ih =>
    intro x
    show applyLoop (rest ++ [o]) (p.apply x) = o.apply (applyLoop rest (p.apply x))
    exact ih _

theorem applyLoop_eq_foldl (os : List APIOption) :
    ∀ x : Options, applyLoop os x = os.foldl (fun acc o => o.apply acc) x := by
  induction os with
  | nil => intro x; rfl
  | cons p rest ih =>
    intro x
    show applyLoop rest (p.apply x) = rest.foldl (fun acc o => o.apply acc) (p.apply x)
    exact ih _

theorem applyLoop_keeps {β : Type} (proj : Options → β) :
    ∀ (os : List APIOption), (∀ o ∈ os, ∀ x, proj (o.apply x) = proj x) →
      ∀ x : Options, proj (applyLoop os x) = proj x := by
  intro os
  induction os with
  | nil => intro _ x; rfl
  | cons p rest ih =>
    intro h x
    simp only [applyLoop]
    rw [ih (fun o ho => h o (List.mem_cons_of_mem _ ho)), h p (List.mem_cons_self _ _)]

/-- C19: `Apply` applies the options in their order to the default configuration (maximum
retries 2, JSON encoder, empty user agent, no credentials, zero backoff, timeout zero): it
is the left fold of `apply` over the list, so the last option acts on the result of those
before it and wins over them, and a field that no option of the list changes keeps the
value it has by default. -/
theorem Apply_in_order (d : http.Client) (os : List APIOption) :
    ((Apply d []).MaxNetworkRetries = 2 ∧ (Apply d []).Encoder = json.New
      ∧ (Apply d []).UserAgent = "" ∧ (Apply d []).Credentials = none
      ∧ (Apply d []).Backoff = backoff.Zero ∧ (Apply d []).Timeout = 0
      ∧ (Apply d []).Logger = .fmtLogger 0 ∧ (Apply d []).Language = "en-GB")
    ∧ Apply d os = os.foldl (fun acc o => o.apply acc) (Apply d [])
    ∧ (∀ o : APIOption, Apply d (os ++ [o]) = o.apply (Apply d os))
    ∧ (∀ (n : Int) (ua : String) (t : Int) (c : Option auth.Credentials),
        (Apply d (os ++ [WithMaxNetworkRetries n])).MaxNetworkRetries = n
        ∧ (Apply d (os ++ [WithUserAgent ua])).UserAgent = ua
        ∧ (Apply d (os ++ [WithTimeout t])).Timeout = t
        ∧ (Apply d (os ++ [WithCredentials c])).Credentials = c)
    ∧ (∀ (e : format.Encoder) (b : backoff.Backoff),
        (Apply d (os ++ [WithEncoder (some e)])).Encoder = e
        ∧ (Apply d (os ++ [WithBackoff (some b)])).Backoff = b)
    ∧ (∀ {β : Type} (proj : Options → β),
        (∀ o ∈ os, ∀ x, proj (o.apply x) = proj x) → proj (Apply d os) = proj (Apply d [])) := by
  refine ⟨⟨rfl, rfl, rfl, rfl, rfl, rfl, rfl, rfl⟩, ?_, ?_, ?_, ?_, ?_⟩
  · exact applyLoop_eq_foldl os _
  · intro o
    exact applyLoop_append os o _
  · intro n ua t c
    simp only [Apply, applyLoop_append]
    exact ⟨rfl, rfl, rfl, rfl⟩
  · intro e b
    simp only [Apply, applyLoop_append]
    exact ⟨rfl, rfl⟩
  · intro β proj h
    exact applyLoop_keeps proj os h _

/-- Two options on the same field: the later one wins; the user agent, which neither
touches, keeps its default. -/
theorem Apply_in_order_witness :
    (Apply api.okClient [WithMaxNetworkRetries 5, WithMaxNetworkRetries 1]).MaxNetworkRetries = 1
    ∧ (Apply api.okClient [WithMaxNetworkRetries 5, WithMaxNetworkRetries 1]).UserAgent = "" :=
  ⟨((Apply_in_order api.okClient [WithMaxNetworkRetries 5]).2.2.2.1 1 "" 0 none).1,
   (Apply_in_order api.okClient [WithMaxNetworkRetries 5, WithMaxNetworkRetries 1]).2.2.2.2.2
     (fun o => o.UserAgent)
     (by
       intro o ho x
       simp only [List.mem_cons, List.mem_singleton, List.not_mem_nil, or_false] at ho
       rcases ho with rfl | rfl <;> rfl)⟩

end opts

namespace api

theorem isHTTPWriteMethod_iff (m : String) :
    isHTTPWriteMethod m = true ↔ m = "POST" ∨ m = "PUT" ∨ m = "PATCH" ∨ m = "DELETE" := by
  simp [isHTTPWriteMethod, http.MethodPost, http.MethodPut, http.MethodPatch,
    http.MethodDelete, or_assoc]

end api

namespace api

/-- What a successful `prepare` went through. -/
theorem prepare_ok {c : client} {env : Env} {method path : String} {data : Option Value}
    {req : http.Request} {rd : http.Reader}
    (h : c.prepare env method path data = .ok (req, rd)) :
    ∃ req0 : http.Request,
      (env.queryValues data).2 = none
      ∧ auth.NewRequest env.checkRequest method
          (c.endpoint ++ ((if !hasSlashFirst path then "/" ++ path else path) ++ "?"
            ++ (env.queryValues data).1)) c.cfg.Credentials = .ok req0
      ∧ ((isHTTPWriteMethod method = true ∧ (c.cfg.Encoder.Encode env data).2 = none
            ∧ rd = (c.cfg.Encoder.Encode env data).1
            ∧ req = setFixedHeaders c env
                { req0 with Header := req0.Header.Set "Content-Type" c.cfg.Encoder.ContentType })
          ∨ (isHTTPWriteMethod method = false ∧ rd = .nil ∧ req = setFixedHeaders c env req0)) := by
  unfold client.prepare at h
  simp only at h
  rcases hq : env.queryValues data with ⟨uv, uErr⟩
  rw [hq] at h
  cases uErr with
  | some e => simp at h
  | none =>
    simp only at h
    cases hn : auth.NewRequest env.checkRequest method
        (c.endpoint ++ ((if !hasSlashFirst path then "/" ++ path else path) ++ "?" ++ uv))
        c.cfg.Credentials with
    | error e => rw [hn] at h; simp at h
    | ok req0 =>
      rw [hn] at h
      simp only at h
      refine ⟨req0, rfl, rfl, ?_⟩
      by_cases hw : isHTTPWriteMethod method = true
      · simp only [hw, if_true] at h
        rcases he : c.cfg.Encoder.Encode env data with ⟨r, encErr⟩
        rw [he] at h
        cases encErr with
        | some e => simp at h
        | none =>
          simp only [Except.ok.injEq, Prod.mk.injEq] at h
          exact Or.inl ⟨hw, rfl, h.2.symm, h.1.symm⟩
      · simp only [hw, Bool.false_eq_true, if_false, Except.ok.injEq, Prod.mk.injEq] at h
        exact Or.inr ⟨by simpa using hw, h.2.symm, h.1.symm⟩

theorem setFixedHeaders_RequestID (c : client) (env : Env) (r : http.Request) :
    (setFixedHeaders c env r).HeaderGet errors.RequestIDHeader = env.uuid := by
  simp only [setFixedHeaders, http.Request.HeaderGet]
  exact http.Header.Get_Set_self _ _ _

theorem setFixedHeaders_ContentType (c : client) (env : Env) (r : http.Request) :
    (setFixedHeaders c env r).Header.lookup "Content-Type" = r.Header.lookup "Content-Type" := by
  simp only [setFixedHeaders]
  rw [http.Header.lookup_Set_ne _ _ _ _ (by decide), http.Header.lookup_Set_ne _ _ _ _ (by decide),
    http.Header.lookup_Set_ne _ _ _ _ (by decide), http.Header.lookup_Set_ne _ _ _ _ (by decide),
    http.Header.lookup_Set_ne _ _ _ _ (by decide)]

theorem canonical_ContentType :
    textproto.CanonicalMIMEHeaderKey "Content-Type" = "Content-Type" := by decide

/-- The headers of a fresh request after the credentials are applied hold `Content-Type`
only if a header credential put it there. -/
theorem NewRequest_ContentType {check : String → String → Except String http.URL}
    {method url : String} {cred : Option auth.Credentials} {req0 : http.Request}
    (h : auth.NewRequest check method url cred = .ok req0)
    (hc : ∀ k v, cred = some (.fromHeader k v) →
      textproto.CanonicalMIMEHeaderKey k ≠ "Content-Type") :
    req0.Header.lookup "Content-Type" = none := by
  unfold auth.NewRequest http.NewRequestWithContext at h
  cases hch : check method url with
  | error e => simp [hch] at h
  | ok u =>
    simp only [hch] at h
    cases cred with
    | none =>
      simp only [Except.ok.injEq] at h
      rw [← h]
      rfl
    | some cr =>
      simp only [Except.ok.injEq] at h
      rw [← h]
      cases cr with
      | basicAuth u p =>
        simp only [auth.Credentials.set, http.Request.SetBasicAuth]
        rw [http.Header.lookup_Set_ne _ _ _ _ (by decide)]
        rfl
      | fromHeader k v =>
        simp only [auth.Credentials.set]
        rw [http.Header.lookup_Set_ne _ _ _ _ (fun hk => hc k v rfl hk.symm)]
        rfl
      | fromQuery k v => rfl

/-- The request and the body that a successful `prepare` hands to `client.do`, by the kind
of the method. -/
theorem prepare_write_methods (c : client) (env : Env) (method path : String)
    (data : Option Value) (req : http.Request) (rd : http.Reader)
    (hprep : c.prepare env method path data = .ok (req, rd)) :
    (isHTTPWriteMethod method = true
        ↔ method = "POST" ∨ method = "PUT" ∨ method = "PATCH" ∨ method = "DELETE")
    ∧ (isHTTPWriteMethod method = true →
        req.HeaderGet "Content-Type" = c.cfg.Encoder.ContentType
        ∧ rd = (c.cfg.Encoder.Encode env data).1)
    ∧ (isHTTPWriteMethod method = false →
        rd = .nil
        ∧ (setBody req rd).1.GetBody = some .noBody
        ∧ (setBody req rd).1.ContentLength = -1
        ∧ ((∀ k v, c.cfg.Credentials = some (.fromHeader k v) →
              textproto.CanonicalMIMEHeaderKey k ≠ "Content-Type") →
            req.Header.lookup "Content-Type" = none)) := by
  obtain ⟨req0, -, hnew, hcase⟩ := prepare_ok hprep
  refine ⟨isHTTPWriteMethod_iff method, ?_, ?_⟩
  · intro hw
    rcases hcase with ⟨-, -, hrd, hreq⟩ | ⟨hnw, -, -⟩
    · refine ⟨?_, hrd⟩
      rw [hreq]
      simp only [http.Request.HeaderGet, http.Header.Get, canonical_ContentType,
        setFixedHeaders_ContentType]
      simp [http.Header.Set, canonical_ContentType, List.lookup]
    · rw [hw] at hnw
      cases hnw
  · intro hnw
    rcases hcase with ⟨hw, -, -, -⟩ | ⟨-, hrd, hreq⟩
    · rw [hnw] at hw
      cases hw
    · subst hrd
      refine ⟨rfl, rfl, rfl, ?_⟩
      intro hc
      rw [hreq, setFixedHeaders_ContentType]
      exact NewRequest_ContentType hnew hc

/-- When the query values are encoded and the request is constructed without error,
`prepare` fails only on a failing `Encode` for a write method. -/
theorem prepare_succeeds (c : client) (env : Env) (method path : String) (data : Option Value)
    (req0 : http.Request)
    (hq : (env.queryValues data).2 = none)
    (hnew : auth.NewRequest env.checkRequest method
      (c.endpoint ++ ((if !hasSlashFirst path then "/" ++ path else path) ++ "?"
        ++ (env.queryValues data).1)) c.cfg.Credentials = .ok req0) :
    (isHTTPWriteMethod method = true → (c.cfg.Encoder.Encode env data).2 = none →
        c.prepare env method path data
          = .ok (setFixedHeaders c env
              { req0 with Header := req0.Header.Set "Content-Type" c.cfg.Encoder.ContentType },
              (c.cfg.Encoder.Encode env data).1))
    ∧ (isHTTPWriteMethod method = false →
        c.prepare env method path data = .ok (setFixedHeaders c env req0, .nil)) := by
  rcases hqv : env.queryValues data with ⟨uv, uErr⟩
  rw [hqv] at hq hnew
  simp only at hq hnew
  subst hq
  constructor
  · intro hw he
    rcases hev : c.cfg.Encoder.Encode env data with ⟨rd, encErr⟩
    rw [hev] at he
    simp only at he
    subst he
    simp only [client.prepare, hqv, hnew, hw, if_true, hev]
  · intro hw
    simp only [client.prepare, hqv, hnew, hw, Bool.false_eq_true, if_false]

/-- After a successful `prepare`, `Call` makes the transport attempts and the sleeps of
`client.do` on the request and the body that `prepare` built. -/
theorem Call_trace_of_prepare {c : client} {env : Env} {method path : String}
    {data : Option Value} {req : http.Request} {rd : http.Reader}
    (h : c.prepare env method path data = .ok (req, rd)) (fuel : Nat) (rcv : Option Value) :
    (c.Call env fuel method path data rcv).map (fun x => x.2)
      = (c.do_ env.rand fuel req rd).map (fun x => x.2) := by
  simp only [client.Call, h]
  rcases hdo : c.do_ env.rand fuel req rd with _ | ⟨out, tr⟩
  · rfl
  · rcases out with ⟨resp, err⟩ | msg | _
    · cases err with
      | some e => cases resp <;> rfl
      | none =>
        cases resp with
        | some output => rfl
        | none => cases rcv <;> rfl
    · rfl
    · rfl

/-- C20: `isHTTPWriteMethod` holds exactly for POST, PUT, PATCH and DELETE. Once the query
values are encoded and the request is constructed, for those methods, `Encode` returning
no error, `Call` builds a request that carries the encoder's content type in
`Content-Type` and runs `client.do` on it with the reader `Encode` returned for the
request data as its body; for every other method it builds a request and runs `client.do`
on it with no body, so that `setBody` leaves the request without body and with content
length -1, and it does not set `Content-Type`: the header is absent unless a header
credential put it there. -/
theorem Call_write_methods (c : client) (env : Env) (method path : String)
    (data : Option Value) (req0 : http.Request)
    (hq : (env.queryValues data).2 = none)
    (hnew : auth.NewRequest env.checkRequest method
      (c.endpoint ++ ((if !hasSlashFirst path then "/" ++ path else path) ++ "?"
        ++ (env.queryValues data).1)) c.cfg.Credentials = .ok req0) :
    (isHTTPWriteMethod method = true
        ↔ method = "POST" ∨ method = "PUT" ∨ method = "PATCH" ∨ method = "DELETE")
    ∧ (isHTTPWriteMethod method = true → (c.cfg.Encoder.Encode env data).2 = none →
        ∃ req, c.prepare env method path data = .ok (req, (c.cfg.Encoder.Encode env data).1)
          ∧ req.HeaderGet "Content-Type" = c.cfg.Encoder.ContentType
          ∧ ∀ (fuel : Nat) (rcv : Option Value),
              (c.Call env fuel method path data rcv).map (fun x => x.2)
                = (c.do_ env.rand fuel req (c.cfg.Encoder.Encode env data).1).map
                    (fun x => x.2))
    ∧ (isHTTPWriteMethod method = false →
        ∃ req, c.prepare env method path data = .ok (req, .nil)
          ∧ (setBody req .nil).1.GetBody = some .noBody
          ∧ (setBody req .nil).1.ContentLength = -1
          ∧ ((∀ k v, c.cfg.Credentials = some (.fromHeader k v) →
                textproto.CanonicalMIMEHeaderKey k ≠ "Content-Type") →
              req.Header.lookup "Content-Type" = none)
          ∧ ∀ (fuel : Nat) (rcv : Option Value),
              (c.Call env fuel method path data rcv).map (fun x => x.2)
                = (c.do_ env.rand fuel req .nil).map (fun x => x.2)) := by
  obtain ⟨hwrite, hother⟩ := prepare_succeeds c env method path data req0 hq hnew
  refine ⟨isHTTPWriteMethod_iff method, ?_, ?_⟩
  · intro hw he
    have hp := hwrite hw he
    exact ⟨_, hp, ((prepare_write_methods c env method path data _ _ hp).2.1 hw).1,
      Call_trace_of_prepare hp⟩
  · intro hnw
    have hp := hother hnw
    obtain ⟨-, h2, h3, h4⟩ := (prepare_write_methods c env method path data _ _ hp).2.2 hnw
    exact ⟨_, hp, h2, h3, h4, Call_trace_of_prepare hp⟩

/-- A POST through the default client is built with the content type of the JSON encoder
and the encoded data as its body; a GET is built with no body, content length -1 and no
`Content-Type`. -/
theorem Call_write_methods_witness :
    (∃ req, (clientWith okClient json.New).prepare sampleEnv "POST" "/200"
          (some { label := "request" })
        = .ok (req, (format.Encoder.Encode sampleEnv json.New (some { label := "request" })).1)
      ∧ req.HeaderGet "Content-Type" = "application/json")
    ∧ (format.Encoder.Encode sampleEnv json.New (some { label := "request" })).1
        = .bytes [123, 125]
    ∧ (∃ req, (clientWith okClient json.New).prepare sampleEnv "GET" "/200" none
        = .ok (req, .nil)
      ∧ (setBody req .nil).1.GetBody = some .noBody
      ∧ (setBody req .nil).1.ContentLength = -1) :=
  ⟨((Call_write_methods (clientWith okClient json.New) sampleEnv "POST" "/200"
      (some { label := "request" }) _ rfl rfl).2.1 (by decide) rfl).imp
      fun _ h => ⟨h.1, h.2.1⟩,
    rfl,
    ((Call_write_methods (clientWith okClient json.New) sampleEnv "GET" "/200" none _
      rfl rfl).2.2 (by decide)).imp fun _ h => ⟨h.1, h.2.1, h.2.2.1⟩⟩

end api

namespace api

theorem setBody_of_read_error {req : http.Request} {rd : http.Reader} {msg : String}
    (h : (http.ReadAll rd).2 = some msg) : setBody req rd = (req, some msg) := by
  cases rd with
  | nil => simp [http.ReadAll] at h
  | noBody => simp [http.ReadAll] at h
  | bytes d => simp [http.ReadAll] at h
  | failing got m =>
    simp only [http.ReadAll, Option.some.injEq] at h
    simp [setBody, http.ReadAll, h]

/-- C11: when the query encoding of the request data fails, or the request is built and
the encoder's `Encode` fails for a write method, or the request is prepared and reading the
encoded body fails in `setBody`, `Call` returns a normalized error with code
`encoding_error` and the transport is not invoked (zero attempts, zero sleeps), whatever
the fuel. -/
theorem Call_encoding_failure (c : client) (env : Env) (fuel : Nat) (method path : String)
    (data rcv : Option Value)
    (h : (∃ uErr, (env.queryValues data).2 = some uErr)
      ∨ ((env.queryValues data).2 = none
          ∧ (∃ req0, auth.NewRequest env.checkRequest method
              (c.endpoint ++ ((if !hasSlashFirst path then "/" ++ path else path) ++ "?"
                ++ (env.queryValues data).1)) c.cfg.Credentials = .ok req0)
          ∧ isHTTPWriteMethod method = true
          ∧ ∃ encErr, (c.cfg.Encoder.Encode env data).2 = some encErr)
      ∨ (∃ req rd readErr, c.prepare env method path data = .ok (req, rd)
          ∧ (http.ReadAll rd).2 = some readErr)) :
    ∃ e, c.Call env fuel method path data rcv
        = some (.val (some e), { attempts := 0, sleeps := [] })
      ∧ e.Code = "encoding_error" := by
  rcases h with ⟨uErr, hq⟩ | ⟨hq, ⟨req0, hnew⟩, hw, encErr, he⟩ | ⟨req, rd, readErr, hprep, hread⟩
  · rcases hqv : env.queryValues data with ⟨uv, e2⟩
    rw [hqv] at hq
    simp only at hq
    subst hq
    refine ⟨errors.FromSource errors.CodeEncodingError
      (if !hasSlashFirst path then "/" ++ path else path) method env.uuid (some uErr), ?_, rfl⟩
    simp only [client.Call, client.prepare, hqv]
  · rcases hqv : env.queryValues data with ⟨uv, e2⟩
    rw [hqv] at hq hnew
    simp only at hq hnew
    subst hq
    rcases hev : c.cfg.Encoder.Encode env data with ⟨r, e3⟩
    rw [hev] at he
    simp only at he
    subst he
    refine ⟨errors.FromRequestAndSource
      { req0 with Header := req0.Header.Set "Content-Type" c.cfg.Encoder.ContentType }
      errors.CodeEncodingError (some encErr), ?_, rfl⟩
    simp only [client.Call, client.prepare, hqv, hnew, hw, if_true, hev]
  · refine ⟨errors.FromRequestAndSource req errors.CodeEncodingError (some readErr), ?_, rfl⟩
    simp only [client.Call, hprep, client.do_, setBody_of_read_error hread]

/-- The case `EncodingRequestBodyError` of the tests: a POST whose encoder fails. -/
theorem Call_encoding_failure_witness :
    ∃ e, (clientWith okClient errorOnEncode).Call sampleEnv 3 "POST" "/200"
        (some { label := "validRequestData" }) none
        = some (.val (some e), { attempts := 0, sleeps := [] })
      ∧ e.Code = "encoding_error" :=
  Call_encoding_failure (clientWith okClient errorOnEncode) sampleEnv 3 "POST" "/200"
    (some { label := "validRequestData" }) none
    (Or.inr (Or.inl ⟨rfl, ⟨_, rfl⟩, by decide, ⟨_, rfl⟩⟩))

/-- C16: when the receiver is not nil and the encoder's `Decode` fails with the message
`msg` after reading `n` bytes of the body, `client.decode` returns a normalized error with
code `encoding_error`, source `msg`, the status code of the response, and as response the
sample of exactly the bytes read; `Call` returns it with the trace of `client.do`
unchanged, so no further attempt is made. -/
theorem decode_failure (c : client) (env : Env) (req : http.Request) (resp : http.Response)
    (v : Value) (n : Nat) (msg : String)
    (hdec : c.cfg.Encoder.Decode env resp.Body v = (n, some msg)) :
    (∃ e, c.decode env req resp (some v) = some e
      ∧ e.Code = "encoding_error" ∧ e.Source = msg ∧ e.StatusCode = resp.StatusCode
      ∧ e.Response = errors.RetrieveSample (.bytes ((http.ReadAll resp.Body).1.take n))
      ∧ e.RequestID = req.HeaderGet errors.RequestIDHeader)
    ∧ (∀ (fuel : Nat) (method path : String) (data : Option Value) (req0 : http.Request)
        (rd : http.Reader) (tr : DoTrace),
        c.prepare env method path data = .ok (req0, rd) →
        c.do_ env.rand fuel req0 rd = some (.val (some resp, none), tr) →
        c.Call env fuel method path data (some v)
          = some (.val (c.decode env (requestAfterDo req0 rd) resp (some v)), tr)) := by
  constructor
  · refine ⟨{ errors.FromResponse req resp (.bytes ((http.ReadAll resp.Body).1.take n)) with
      Code := errors.CodeEncodingError, Source := msg }, ?_, rfl, rfl, rfl, rfl, rfl⟩
    simp only [client.decode, hdec]
  · intro fuel method path data req0 rd tr hprep hdo
    simp only [client.Call, hprep, hdo]

/-- A decoder that fails after 3 of the 6 bytes: the sample holds those 3 bytes. -/
theorem decode_failure_witness :
    ∃ e, (clientWith okClient (failingDecoder 3)).decode sampleEnv sampleRequest
        { StatusCode := 200, Body := .bytes [97, 98, 99, 100, 101, 102] }
        (some { label := "receiver" }) = some e
      ∧ e.Code = "encoding_error" ∧ e.Source = "unexpected input" ∧ e.StatusCode = 200
      ∧ e.Response = errors.RetrieveSample (.bytes
          ((http.ReadAll (.bytes [97, 98, 99, 100, 101, 102])).1.take 3))
      ∧ e.RequestID = sampleRequest.HeaderGet errors.RequestIDHeader :=
  (decode_failure (clientWith okClient (failingDecoder 3)) sampleEnv sampleRequest
    { StatusCode := 200, Body := .bytes [97, 98, 99, 100, 101, 102] }
    { label := "receiver" } 3 "unexpected input" rfl).1

end api

namespace api

/-- A returned result of the retry loop is the one of its last attempt. -/
theorem doLoop_final (c : client) (rand : Nat → Nat) (req : http.Request) (cpy : http.Reader)
    (hget : req.GetBody = some cpy) :
    ∀ (fuel : Nat) (retry : Int) (tr : DoTrace)
      (res : Option http.Response × Option errors.Error) (tr2 : DoTrace),
      client.doLoop c rand req fuel retry tr = some (.val res, tr2) →
      tr.attempts < tr2.attempts
      ∧ res = finalResultSpec { req with Body := cpy, GetBody := some cpy }
          (c.cfg.HTTPClient.Do (tr2.attempts - 1) { req with Body := cpy, GetBody := some cpy }) := by
  intro fuel
  induction fuel with
  | zero =>
    intro retry tr res tr2 h
    simp [client.doLoop] at h
  | succ f ih =>
    intro retry tr res tr2 h
    have hrec : ∀ (d : Int),
        client.doLoop c rand req f (retry + 1)
          { attempts := tr.attempts + 1, sleeps := tr.sleeps ++ [d] } = some (.val res, tr2) →
        tr.attempts < tr2.attempts
        ∧ res = finalResultSpec { req with Body := cpy, GetBody := some cpy }
            (c.cfg.HTTPClient.Do (tr2.attempts - 1)
              { req with Body := cpy, GetBody := some cpy }) := by
      intro d hd
      obtain ⟨h1, h2⟩ := ih _ _ _ _ hd
      exact ⟨by simp at h1; omega, h2⟩
    rcases hdo : c.cfg.HTTPClient.Do tr.attempts { req with Body := cpy, GetBody := some cpy }
      with ⟨r, rawErr⟩
    simp only [client.doLoop, hget, hdo] at h
    cases rawErr with
    | some msg =>
      simp only [Option.map_some'] at h
      split at h
      · simp only [Option.some.injEq, Prod.mk.injEq, Outcome.val.injEq] at h
        obtain ⟨h1, h2⟩ := h
        subst h2
        refine ⟨by simp, ?_⟩
        simp only [Nat.add_sub_cancel, hdo]
        cases r <;> simp [finalResultSpec, ← h1]
      · split at h
        · exact hrec _ h
        · simp at h
        · simp at h
    | none =>
      cases r with
      | none => simp at h
      | some resp =>
        simp only [Option.map_none'] at h
        by_cases hs : resp.StatusCode ≥ http.StatusBadRequest
        · simp only [hs, if_true] at h
          split at h
          · simp only [Option.some.injEq, Prod.mk.injEq, Outcome.val.injEq] at h
            obtain ⟨h1, h2⟩ := h
            subst h2
            refine ⟨by simp, ?_⟩
            have hn : ¬ resp.StatusCode < 400 := by
              simp only [http.StatusBadRequest] at hs
              omega
            simp [hdo, finalResultSpec, hn, ← h1]
          · split at h
            · exact hrec _ h
            · simp at h
            · simp at h
        · simp only [hs, if_false] at h
          split at h
          · simp only [Option.some.injEq, Prod.mk.injEq, Outcome.val.injEq] at h
            obtain ⟨h1, h2⟩ := h
            subst h2
            refine ⟨by simp, ?_⟩
            have hn : resp.StatusCode < 400 := by
              simp only [http.StatusBadRequest] at hs
              omega
            simp [hdo, finalResultSpec, hn, ← h1]
          · split at h
            · exact hrec _ h
            · simp at h
            · simp at h

end api

namespace api

theorem requestAfterDo_eq {req r : http.Request} {body : http.Reader}
    (h : setBody req body = (r, none)) :
    ∃ cpy, r.GetBody = some cpy
      ∧ requestAfterDo req body = { r with Body := cpy, GetBody := some cpy } := by
  cases body with
  | nil =>
    simp only [setBody, Prod.mk.injEq, and_true] at h
    subst h
    exact ⟨_, rfl, rfl⟩
  | noBody =>
    simp only [setBody, http.ReadAll, Prod.mk.injEq, and_true] at h
    subst h
    exact ⟨_, rfl, rfl⟩
  | bytes d =>
    simp only [setBody, http.ReadAll, Prod.mk.injEq, and_true] at h
    subst h
    exact ⟨_, rfl, rfl⟩
  | failing got msg => simp [setBody, http.ReadAll] at h

theorem setBody_of_readable (req : http.Request) {body : http.Reader}
    (h : (http.ReadAll body).2 = none) : ∃ r, setBody req body = (r, none) := by
  cases body with
  | nil => exact ⟨_, rfl⟩
  | noBody => exact ⟨_, rfl⟩
  | bytes d => exact ⟨_, rfl⟩
  | failing got msg => simp [http.ReadAll] at h

/-- The retry loop returns within `j + 1` iterations once at most `j` retries remain. -/
theorem doLoop_returns (c : client) (rand : Nat → Nat) (req : http.Request) :
    ∀ (j : Nat) (fuel : Nat) (retry : Int) (tr : DoTrace),
      c.cfg.MaxNetworkRetries - retry ≤ j → j + 1 ≤ fuel →
      ∃ out tr2, client.doLoop c rand req fuel retry tr = some (out, tr2)
        ∧ tr2.attempts ≤ tr.attempts + (j + 1) := by
  intro j
  induction j with
  | zero =>
    intro fuel retry tr hj hfuel
    obtain ⟨f, rfl⟩ : ∃ f, fuel = f + 1 := ⟨fuel - 1, by omega⟩
    have hge : retry ≥ c.cfg.MaxNetworkRetries := by
      simp only [Nat.cast_zero] at hj
      omega
    have hsr : ∀ (err : Option errors.Error) (res : Option http.Response),
        c.shouldRetry err res retry = false := by
      intro err res
      simp [client.shouldRetry, hge]
    cases hget : req.GetBody with
    | none =>
      simp only [client.doLoop, hget]
      exact ⟨_, _, rfl, by simp⟩
    | some cpy =>
      simp only [client.doLoop, hget, hsr, Bool.not_false, if_true]
      rcases hdo : c.cfg.HTTPClient.Do tr.attempts { req with Body := cpy, GetBody := some cpy }
        with ⟨r, rawErr⟩
      split
      · exact ⟨_, _, rfl, by simp⟩
      · split <;> exact ⟨_, _, rfl, by simp⟩
  | succ j ih =>
    intro fuel retry tr hj hfuel
    obtain ⟨f, rfl⟩ : ∃ f, fuel = f + 1 := ⟨fuel - 1, by omega⟩
    have hnext : ∀ d : Int, ∃ out tr2,
        client.doLoop c rand req f (retry + 1)
          { attempts := tr.attempts + 1, sleeps := tr.sleeps ++ [d] } = some (out, tr2)
        ∧ tr2.attempts ≤ tr.attempts + (j + 1 + 1) := by
      intro d
      obtain ⟨out, tr2, h1, h2⟩ := ih f (retry + 1)
        { attempts := tr.attempts + 1, sleeps := tr.sleeps ++ [d] }
        (by push_cast at hj; omega) (by omega)
      exact ⟨out, tr2, h1, by simp at h2; omega⟩
    cases hget : req.GetBody with
    | none =>
      simp only [client.doLoop, hget]
      exact ⟨_, _, rfl, by simp⟩
    | some cpy =>
      simp only [client.doLoop, hget]
      rcases hdo : c.cfg.HTTPClient.Do tr.attempts { req with Body := cpy, GetBody := some cpy }
        with ⟨r, rawErr⟩
      split
      · exact ⟨_, _, rfl, by simp⟩
      · split
        · split <;> exact ⟨_, _, rfl, by simp⟩
        · split
          · exact hnext _
          · exact ⟨_, _, rfl, by simp⟩
          · exact ⟨_, _, rfl, by simp⟩

end api

namespace api

/-- Given a readable body and enough fuel, `client.do` ends after at most
`max(MaxNetworkRetries, 0) + 1` attempts, and a result it returns is `finalResultSpec` of
what the transport answered to the last attempt. -/
theorem do_ends_with_final_attempt (c : client) (rand : Nat → Nat) (fuel : Nat)
    (req : http.Request) (body : http.Reader)
    (hbody : (http.ReadAll body).2 = none)
    (hfuel : c.cfg.MaxNetworkRetries.toNat + 1 ≤ fuel) :
    ∃ out tr, c.do_ rand fuel req body = some (out, tr)
      ∧ tr.attempts ≤ c.cfg.MaxNetworkRetries.toNat + 1
      ∧ ∀ res, out = .val res →
          0 < tr.attempts
          ∧ res = finalResultSpec (requestAfterDo req body)
              (c.cfg.HTTPClient.Do (tr.attempts - 1) (requestAfterDo req body))
          ∧ (∀ r, c.cfg.HTTPClient.Do (tr.attempts - 1) (requestAfterDo req body) = (some r, none) →
              r.StatusCode < 400 → res = (some r, none))
          ∧ (∀ r, c.cfg.HTTPClient.Do (tr.attempts - 1) (requestAfterDo req body) = (some r, none) →
              400 ≤ r.StatusCode →
              res = (none, some (errors.FromResponse (requestAfterDo req body) r r.Body)))
          ∧ (∀ r msg, c.cfg.HTTPClient.Do (tr.attempts - 1) (requestAfterDo req body)
                = (r, some msg) →
              res = (none, some (errors.FromRequestAndSource (requestAfterDo req body)
                errors.CodeHTTPClientError (some msg)))) := by
  obtain ⟨r1, hset⟩ := setBody_of_readable req hbody
  obtain ⟨cpy, hget, hafter⟩ := requestAfterDo_eq hset
  obtain ⟨out, tr, hloop, hatt⟩ :=
    doLoop_returns c rand r1 c.cfg.MaxNetworkRetries.toNat fuel 0 { attempts := 0, sleeps := [] }
      (by omega) hfuel
  refine ⟨out, tr, ?_, by simpa using hatt, ?_⟩
  · simp only [client.do_, hset, hloop]
  · intro res hres
    subst hres
    obtain ⟨h1, h2⟩ := doLoop_final c rand r1 cpy hget _ _ _ _ _ hloop
    rw [← hafter] at h2
    refine ⟨by simpa using h1, h2, ?_, ?_, ?_⟩
    · intro r hr hs
      rw [h2, hr]
      simp [finalResultSpec, hs]
    · intro r hr hs
      rw [h2, hr]
      have hn : ¬ r.StatusCode < 400 := by omega
      simp [finalResultSpec, hn]
    · intro r msg hr
      rw [h2, hr]
      cases r <;> simp [finalResultSpec]

/-- The retry loop when every attempt fails without a response and `j` retries remain. -/
theorem doLoop_all_fail (c : client) (rand : Nat → Nat) (req : http.Request) (cpy : http.Reader)
    (msgs : Nat → String) (hget : req.GetBody = some cpy)
    (hfail : ∀ (k : Nat) (r : http.Request), c.cfg.HTTPClient.Do k r = (none, some (msgs k)))
    (hback : ∀ (src : Nat) (k : Int), 0 ≤ k → k < c.cfg.MaxNetworkRetries →
      ∃ d, c.cfg.Backoff.Next src k = .val d) :
    ∀ (j : Nat), j ≤ c.cfg.MaxNetworkRetries.toNat → ∀ (fuel : Nat), j + 1 ≤ fuel →
      ∀ (tr : DoTrace),
      ∃ tr2, client.doLoop c rand req fuel ((c.cfg.MaxNetworkRetries.toNat : Int) - j) tr
          = some (.val (none, some (errors.FromRequestAndSource
              { req with Body := cpy, GetBody := some cpy } errors.CodeHTTPClientError
              (some (msgs (tr.attempts + j))))), tr2)
        ∧ tr2.attempts = tr.attempts + (j + 1) := by
  intro j
  induction j with
  | zero =>
    intro _ fuel hfuel tr
    obtain ⟨f, rfl⟩ : ∃ f, fuel = f + 1 := ⟨fuel - 1, by omega⟩
    have hb := hfail tr.attempts { req with Body := cpy, GetBody := some cpy }
    have hge : (c.cfg.MaxNetworkRetries.toNat : Int) ≥ c.cfg.MaxNetworkRetries := by omega
    refine ⟨{ tr with attempts := tr.attempts + 1 }, ?_, rfl⟩
    simp [client.doLoop, hget, hb, client.shouldRetry, hge]
  | succ j ih =>
    intro hj fuel hfuel tr
    obtain ⟨f, rfl⟩ : ∃ f, fuel = f + 1 := ⟨fuel - 1, by omega⟩
    have hb := hfail tr.attempts { req with Body := cpy, GetBody := some cpy }
    have hlt : ((c.cfg.MaxNetworkRetries.toNat : Int) - ((j + 1 : Nat) : Int))
        < c.cfg.MaxNetworkRetries := by omega
    have hnn : (0 : Int) ≤ (c.cfg.MaxNetworkRetries.toNat : Int) - ((j + 1 : Nat) : Int) := by
      omega
    obtain ⟨d, hd⟩ := hback (rand tr.sleeps.length) _ hnn hlt
    obtain ⟨tr2, h1, h2⟩ := ih (by omega) f (by omega)
      { attempts := tr.attempts + 1, sleeps := tr.sleeps ++ [d] }
    refine ⟨tr2, ?_, by simp at h2; omega⟩
    have hstep : (c.cfg.MaxNetworkRetries.toNat : Int) - ((j + 1 : Nat) : Int) + 1
        = (c.cfg.MaxNetworkRetries.toNat : Int) - (j : Nat) := by
      push_cast; ring
    have hnot : ¬ (c.cfg.MaxNetworkRetries
        ≤ (c.cfg.MaxNetworkRetries.toNat : Int) - ((j + 1 : Nat) : Int)) := by omega
    have harith : tr.attempts + 1 + j = tr.attempts + (j + 1) := by omega
    simp only [harith] at h1
    simp only [client.doLoop, hget, hb, client.shouldRetry, ge_iff_le, hnot, if_false,
      client.sleepTime, hd, hstep]
    simpa using h1

/-- C12: when the request is prepared with a readable body, the backoff returns a delay for
every retry count below the maximum, and every transport attempt fails without a response
(attempt `k` with the message `msgs k`), `Call` returns, after `max(MaxNetworkRetries, 0) + 1`
attempts, a normalized error with code `http_client_error`, status code 0 and as source the
message of the last attempt. -/
theorem Call_transport_failure (c : client) (env : Env) (fuel : Nat) (method path : String)
    (data rcv : Option Value) (req : http.Request) (rd : http.Reader) (msgs : Nat → String)
    (hprep : c.prepare env method path data = .ok (req, rd))
    (hbody : (http.ReadAll rd).2 = none)
    (hfail : ∀ (k : Nat) (r : http.Request), c.cfg.HTTPClient.Do k r = (none, some (msgs k)))
    (hback : ∀ (src : Nat) (k : Int), 0 ≤ k → k < c.cfg.MaxNetworkRetries →
      ∃ d, c.cfg.Backoff.Next src k = .val d)
    (hfuel : c.cfg.MaxNetworkRetries.toNat + 1 ≤ fuel) :
    ∃ e tr, c.Call env fuel method path data rcv = some (.val (some e), tr)
      ∧ tr.attempts = c.cfg.MaxNetworkRetries.toNat + 1
      ∧ e.Code = "http_client_error" ∧ e.StatusCode = 0
      ∧ e.Source = msgs c.cfg.MaxNetworkRetries.toNat
      ∧ e.Response = none := by
  obtain ⟨r1, hset⟩ := setBody_of_readable req hbody
  obtain ⟨cpy, hget, -⟩ := requestAfterDo_eq hset
  obtain ⟨tr2, h1, h2⟩ := doLoop_all_fail c env.rand r1 cpy msgs hget hfail hback
    c.cfg.MaxNetworkRetries.toNat le_rfl fuel hfuel { attempts := 0, sleeps := [] }
  simp only [sub_self, zero_add] at h1
  refine ⟨errors.FromRequestAndSource { r1 with Body := cpy, GetBody := some cpy }
    errors.CodeHTTPClientError (some (msgs c.cfg.MaxNetworkRetries.toNat)), tr2, ?_,
    by simpa using h2, rfl, rfl, rfl, rfl⟩
  simp only [client.Call, hprep, client.do_, hset, h1]

/-- The transport fails every attempt with a deadline error: 3 attempts with the default
2 retries, and the error carries the message. -/
theorem Call_transport_failure_witness :
    ∃ e tr, (clientWith (failingClient "context deadline exceeded") json.New).Call sampleEnv 3
        "GET" "/200" none none = some (.val (some e), tr)
      ∧ tr.attempts = 2 + 1
      ∧ e.Code = "http_client_error" ∧ e.StatusCode = 0
      ∧ e.Source = "context deadline exceeded"
      ∧ e.Response = none :=
  Call_transport_failure (clientWith (failingClient "context deadline exceeded") json.New)
    sampleEnv 3 "GET" "/200" none none _ .nil (fun _ => "context deadline exceeded") rfl rfl
    (fun _ _ => rfl) (fun _ _ _ _ => ⟨0, rfl⟩) (by decide)

end api

namespace api

/-- The two ways `client.do` returns a result: `setBody` failed before any attempt, or the
loop ended with the result of its last attempt. -/
theorem do_val_cases {c : client} {rand : Nat → Nat} {fuel : Nat} {req : http.Request}
    {rd : http.Reader} {res : Option http.Response × Option errors.Error} {tr : DoTrace}
    (h : c.do_ rand fuel req rd = some (.val res, tr)) :
    (∃ msg, (http.ReadAll rd).2 = some msg
        ∧ res = (none, some (errors.FromRequestAndSource req errors.CodeEncodingError (some msg)))
        ∧ tr.attempts = 0)
    ∨ (0 < tr.attempts
        ∧ res = finalResultSpec (requestAfterDo req rd)
            (c.cfg.HTTPClient.Do (tr.attempts - 1) (requestAfterDo req rd))) := by
  cases hr : (http.ReadAll rd).2 with
  | some msg =>
    left
    rw [client.do_, setBody_of_read_error hr] at h
    simp only [Option.some.injEq, Prod.mk.injEq, Outcome.val.injEq] at h
    exact ⟨msg, rfl, h.1.symm, by rw [← h.2]⟩
  | none =>
    right
    obtain ⟨r1, hset⟩ := setBody_of_readable req hr
    obtain ⟨cpy, hget, hafter⟩ := requestAfterDo_eq hset
    simp only [client.do_, hset] at h
    obtain ⟨h1, h2⟩ := doLoop_final c rand r1 cpy hget _ _ _ _ _ h
    rw [← hafter] at h2
    exact ⟨by simpa using h1, h2⟩

/-- The errors `prepare` returns. -/
theorem prepare_error_cases {c : client} {env : Env} {method path : String}
    {data : Option Value} {e : errors.Error}
    (h : c.prepare env method path data = .error e) :
    (∃ code p src, e = errors.FromSource code p method env.uuid src)
    ∨ (∃ req encErr, isHTTPWriteMethod method = true
        ∧ (c.cfg.Encoder.Encode env data).2 = some encErr
        ∧ e = errors.FromRequestAndSource req errors.CodeEncodingError (some encErr)) := by
  unfold client.prepare at h
  simp only at h
  rcases hq : env.queryValues data with ⟨uv, uErr⟩
  rw [hq] at h
  cases uErr with
  | some err =>
    simp only [Except.error.injEq] at h
    exact Or.inl ⟨_, _, _, h.symm⟩
  | none =>
    simp only at h
    cases hn : auth.NewRequest env.checkRequest method
        (c.endpoint ++ ((if !hasSlashFirst path then "/" ++ path else path) ++ "?" ++ uv))
        c.cfg.Credentials with
    | error err =>
      rw [hn] at h
      simp only [Except.error.injEq] at h
      exact Or.inl ⟨_, _, _, h.symm⟩
    | ok req0 =>
      rw [hn] at h
      simp only at h
      by_cases hw : isHTTPWriteMethod method = true
      · simp only [hw, if_true] at h
        rcases he : c.cfg.Encoder.Encode env data with ⟨r, encErr⟩
        rw [he] at h
        cases encErr with
        | some err =>
          simp only [Except.error.injEq] at h
          exact Or.inr ⟨_, err, hw, rfl, h.symm⟩
        | none => simp at h
      · simp [hw] at h

/-- Every error `Call` returns, by the path it comes from. -/
theorem Call_error_cases {c : client} {env : Env} {fuel : Nat} {method path : String}
    {data rcv : Option Value} {e : errors.Error} {tr : DoTrace}
    (h : c.Call env fuel method path data rcv = some (.val (some e), tr)) :
    (c.prepare env method path data = .error e ∧ tr.attempts = 0)
    ∨ ∃ req rd, c.prepare env method path data = .ok (req, rd)
        ∧ ((∃ msg, (http.ReadAll rd).2 = some msg ∧ tr.attempts = 0
              ∧ e = errors.FromRequestAndSource req errors.CodeEncodingError (some msg))
          ∨ (0 < tr.attempts
              ∧ ((∃ r msg, c.cfg.HTTPClient.Do (tr.attempts - 1) (requestAfterDo req rd)
                      = (r, some msg)
                    ∧ e = errors.FromRequestAndSource (requestAfterDo req rd)
                        errors.CodeHTTPClientError (some msg))
                ∨ (∃ r, c.cfg.HTTPClient.Do (tr.attempts - 1) (requestAfterDo req rd)
                      = (some r, none)
                    ∧ 400 ≤ r.StatusCode
                    ∧ e = errors.FromResponse (requestAfterDo req rd) r r.Body)
                ∨ (∃ r v, c.cfg.HTTPClient.Do (tr.attempts - 1) (requestAfterDo req rd)
                      = (some r, none)
                    ∧ r.StatusCode < 400 ∧ rcv = some v
                    ∧ c.decode env (requestAfterDo req rd) r (some v) = some e)))) := by
  unfold client.Call at h
  cases hp : c.prepare env method path data with
  | error err =>
    rw [hp] at h
    simp only [Option.some.injEq, Prod.mk.injEq, Outcome.val.injEq] at h
    left
    exact ⟨by rw [h.1], by rw [← h.2]⟩
  | ok p =>
    obtain ⟨req, rd⟩ := p
    rw [hp] at h
    simp only at h
    right
    refine ⟨req, rd, rfl, ?_⟩
    cases hd : c.do_ env.rand fuel req rd with
    | none => rw [hd] at h; simp at h
    | some q =>
      obtain ⟨out, tr1⟩ := q
      rw [hd] at h
      cases out with
      | panic msg => simp at h
      | implDefined => simp at h
      | val res =>
        obtain ⟨resp, err⟩ := res
        rcases do_val_cases hd with ⟨msg, hr, hres, hatt⟩ | ⟨hatt, hres⟩
        · left
          simp only [Prod.mk.injEq] at hres
          obtain ⟨h1, h2⟩ := hres
          subst h1 h2
          simp only [Option.some.injEq, Prod.mk.injEq, Outcome.val.injEq] at h
          obtain ⟨h3, h4⟩ := h
          subst h4
          exact ⟨msg, hr, hatt, h3.symm⟩
        · right
          rcases hdo : c.cfg.HTTPClient.Do (tr1.attempts - 1) (requestAfterDo req rd)
            with ⟨r, rawErr⟩
          rw [hdo] at hres
          cases rawErr with
          | some msg =>
            have hres2 : (resp, err) = (none, some (errors.FromRequestAndSource
                (requestAfterDo req rd) errors.CodeHTTPClientError (some msg))) := by
              rw [hres]; cases r <;> rfl
            simp only [Prod.mk.injEq] at hres2
            obtain ⟨h1, h2⟩ := hres2
            subst h1 h2
            simp only [Option.some.injEq, Prod.mk.injEq, Outcome.val.injEq] at h
            obtain ⟨h3, h4⟩ := h
            subst h4
            exact ⟨hatt, Or.inl ⟨r, msg, hdo, h3.symm⟩⟩
          | none =>
            cases r with
            | none =>
              simp only [finalResultSpec, Prod.mk.injEq] at hres
              obtain ⟨h1, h2⟩ := hres
              subst h1 h2
              cases rcv <;> simp at h
            | some r =>
              by_cases hs : r.StatusCode < 400
              · simp only [finalResultSpec, hs, if_true, Prod.mk.injEq] at hres
                obtain ⟨h1, h2⟩ := hres
                subst h1 h2
                simp only [Option.some.injEq, Prod.mk.injEq, Outcome.val.injEq] at h
                obtain ⟨h3, h4⟩ := h
                subst h4
                cases rcv with
                | none => simp [client.decode] at h3
                | some v => exact ⟨hatt, Or.inr (Or.inr ⟨r, v, hdo, hs, rfl, h3⟩)⟩
              · simp only [finalResultSpec, hs, if_false, Prod.mk.injEq] at hres
                obtain ⟨h1, h2⟩ := hres
                subst h1 h2
                simp only [Option.some.injEq, Prod.mk.injEq, Outcome.val.injEq] at h
                obtain ⟨h3, h4⟩ := h
                subst h4
                exact ⟨hatt, Or.inr (Or.inl ⟨r, hdo, by omega, h3.symm⟩)⟩

end api

namespace api

theorem requestAfterDo_Header (req : http.Request) (rd : http.Reader) :
    (requestAfterDo req rd).Header = req.Header := by
  cases rd with
  | nil => rfl
  | noBody => rfl
  | bytes d => rfl
  | failing got msg =>
    simp only [requestAfterDo, setBody, http.ReadAll]
    cases req.GetBody <;> rfl

theorem decode_some {c : client} {env : Env} {req : http.Request} {resp : http.Response}
    {v : Value} {e : errors.Error} (h : c.decode env req resp (some v) = some e) :
    e.Code = "encoding_error" ∧ e.StatusCode = resp.StatusCode
      ∧ e.RequestID = req.HeaderGet errors.RequestIDHeader
      ∧ e.Response = errors.RetrieveSample
          (.bytes ((http.ReadAll resp.Body).1.take (c.cfg.Encoder.Decode env resp.Body v).1)) := by
  unfold client.decode at h
  simp only at h
  cases hd : (c.cfg.Encoder.Decode env resp.Body v).2 with
  | none => rw [hd] at h; simp at h
  | some src =>
    rw [hd] at h
    simp only [Option.some.injEq] at h
    subst h
    exact ⟨rfl, rfl, rfl, rfl⟩

/-- On every path but the failure of the encoder's `Encode`, the error `Call` returns
carries the request identifier generated for the call. -/
theorem Call_error_RequestID {c : client} {env : Env} {fuel : Nat} {method path : String}
    {data rcv : Option Value} {e : errors.Error} {tr : DoTrace}
    (h : c.Call env fuel method path data rcv = some (.val (some e), tr))
    (hne : ¬ (isHTTPWriteMethod method = true
      ∧ ∃ encErr, (c.cfg.Encoder.Encode env data).2 = some encErr)) :
    e.RequestID = env.uuid := by
  rcases Call_error_cases h with ⟨hp, -⟩ | ⟨req, rd, hp, hcase⟩
  · rcases prepare_error_cases hp with ⟨code, p, src, he⟩ | ⟨req, encErr, hw, henc, -⟩
    · rw [he]; rfl
    · exact absurd ⟨hw, encErr, henc⟩ hne
  · have hid : req.HeaderGet errors.RequestIDHeader = env.uuid := by
      obtain ⟨req0, -, -, hc⟩ := prepare_ok hp
      rcases hc with ⟨-, -, -, hreq⟩ | ⟨-, -, hreq⟩ <;> rw [hreq] <;>
        exact setFixedHeaders_RequestID _ _ _
    have hid2 : (requestAfterDo req rd).HeaderGet errors.RequestIDHeader = env.uuid := by
      rw [← hid]
      simp only [http.Request.HeaderGet, requestAfterDo_Header]
    rcases hcase with ⟨msg, -, -, he⟩ | ⟨-, ⟨r, msg, -, he⟩ | ⟨r, -, -, he⟩ | ⟨r, v, -, -, -, he⟩⟩
    · rw [he]; exact hid
    · rw [he]; exact hid2
    · rw [he]; exact hid2
    · rw [(decode_some he).2.2.1]; exact hid2

/-- C13: a POST through an encoder whose `Encode` fails (the encoder `errorOnEncode` of the
tests) returns an error built from the request before the `X-Request-ID` header is set: its
`RequestID` is empty, not the identifier generated for the call. -/
theorem Call_encode_failure_without_RequestID :
    (clientWith okClient errorOnEncode).Call sampleEnv 3 "POST" "/200"
        (some { label := "validRequestData" }) none
      = some (.val (some
          { Code := "encoding_error"
            StatusCode := 0
            Method := "POST"
            Resource := "/200"
            RequestID := ""
            Request := none
            Response := none
            Source := "could not encode request data" }), { attempts := 0, sleeps := [] })
    ∧ sampleEnv.uuid = "6ba7b810-9dad-11d1-80b4-00c04fd430c8" := by
  constructor
  · decide
  · rfl

/-- Counterexample to C17 as stated: a response with status 200 and the body `abcdef` is
received, the decoder reads 3 bytes and fails; the error holds the sample `abc` of what was
read, not the sample of the body. -/
theorem Call_decode_failure_sample :
    (clientWith okClient (failingDecoder 3)).Call sampleEnv 3 "GET" "/200" none
        (some { label := "receiver" })
      = some (.val (some
          { Code := "encoding_error"
            StatusCode := 200
            Method := "GET"
            Resource := "/200"
            RequestID := "6ba7b810-9dad-11d1-80b4-00c04fd430c8"
            Request := none
            Response := some [97, 98, 99]
            Source := "unexpected input" }), { attempts := 1, sleeps := [] })
    ∧ okClient.Do 0 sampleRequest
        = (some { StatusCode := 200, Body := .bytes [97, 98, 99, 100, 101, 102] }, none)
    ∧ errors.RetrieveSample (.bytes [97, 98, 99, 100, 101, 102])
        = some [97, 98, 99, 100, 101, 102]
    ∧ (some [97, 98, 99] : Option (List UInt8)) ≠ some [97, 98, 99, 100, 101, 102] := by
  refine ⟨by decide, rfl, by decide, by decide⟩

/-- C17 (amended): for every error `Call` returns, either no attempt was made (query
encoding, request construction or body encoding failed) and the status code is 0 with no
response sample; or the last attempt failed in the transport and the status code is 0 with
no response sample; or the last attempt obtained a response with status 400 or above and
the error holds that status code and the sample of the response body; or it obtained a
response below 400 whose decoding failed and the error holds that status code and the
sample of the bytes the decoder had read. -/
theorem Call_error_StatusCode (c : client) (env : Env) (fuel : Nat) (method path : String)
    (data rcv : Option Value) (e : errors.Error) (tr : DoTrace)
    (h : c.Call env fuel method path data rcv = some (.val (some e), tr)) :
    (tr.attempts = 0 ∧ e.StatusCode = 0 ∧ e.Response = none)
    ∨ ∃ req rd, c.prepare env method path data = .ok (req, rd) ∧ 0 < tr.attempts
        ∧ ((∃ r msg, c.cfg.HTTPClient.Do (tr.attempts - 1) (requestAfterDo req rd)
                = (r, some msg)
              ∧ e.StatusCode = 0 ∧ e.Response = none)
          ∨ (∃ r, c.cfg.HTTPClient.Do (tr.attempts - 1) (requestAfterDo req rd) = (some r, none)
              ∧ 400 ≤ r.StatusCode ∧ e.StatusCode = r.StatusCode
              ∧ e.Response = errors.RetrieveSample r.Body)
          ∨ (∃ r v, c.cfg.HTTPClient.Do (tr.attempts - 1) (requestAfterDo req rd)
                = (some r, none)
              ∧ r.StatusCode < 400 ∧ rcv = some v ∧ e.Code = "encoding_error"
              ∧ e.StatusCode = r.StatusCode
              ∧ e.Response = errors.RetrieveSample
                  (.bytes ((http.ReadAll r.Body).1.take (c.cfg.Encoder.Decode env r.Body v).1)))) := by
  rcases Call_error_cases h with ⟨hp, hatt⟩ | ⟨req, rd, hp, hcase⟩
  · left
    rcases prepare_error_cases hp with ⟨code, p, src, he⟩ | ⟨req, encErr, -, -, he⟩
    · rw [he]; exact ⟨hatt, rfl, rfl⟩
    · rw [he]; exact ⟨hatt, rfl, rfl⟩
  · rcases hcase with ⟨msg, -, hatt, he⟩
      | ⟨hatt, ⟨r, msg, hdo, he⟩ | ⟨r, hdo, hs, he⟩ | ⟨r, v, hdo, hs, hv, he⟩⟩
    · left
      rw [he]; exact ⟨hatt, rfl, rfl⟩
    · right
      refine ⟨req, rd, hp, hatt, Or.inl ⟨r, msg, hdo, ?_, ?_⟩⟩ <;> rw [he] <;> rfl
    · right
      refine ⟨req, rd, hp, hatt, Or.inr (Or.inl ⟨r, hdo, hs, ?_, ?_⟩)⟩ <;> rw [he] <;> rfl
    · right
      obtain ⟨h1, h2, -, h4⟩ := decode_some he
      exact ⟨req, rd, hp, hatt, Or.inr (Or.inr ⟨r, v, hdo, hs, hv, h1, h2, h4⟩)⟩

end api

namespace api

/-- The run of the counterexample falls under the last case: status 200, decoding failed. -/
theorem Call_error_StatusCode_witness :
    ((1 : Nat) = 0 ∧ (200 : Int) = 0 ∧ (some [97, 98, 99] : Option (List UInt8)) = none)
    ∨ ∃ req rd, (clientWith okClient (failingDecoder 3)).prepare sampleEnv "GET" "/200" none
          = .ok (req, rd) ∧ 0 < 1
        ∧ ((∃ r msg, (clientWith okClient (failingDecoder 3)).cfg.HTTPClient.Do (1 - 1)
                (requestAfterDo req rd) = (r, some msg)
              ∧ (200 : Int) = 0 ∧ (some [97, 98, 99] : Option (List UInt8)) = none)
          ∨ (∃ r, (clientWith okClient (failingDecoder 3)).cfg.HTTPClient.Do (1 - 1)
                (requestAfterDo req rd) = (some r, none)
              ∧ 400 ≤ r.StatusCode ∧ (200 : Int) = r.StatusCode
              ∧ (some [97, 98, 99] : Option (List UInt8)) = errors.RetrieveSample r.Body)
          ∨ (∃ r v, (clientWith okClient (failingDecoder 3)).cfg.HTTPClient.Do (1 - 1)
                (requestAfterDo req rd) = (some r, none)
              ∧ r.StatusCode < 400 ∧ some { label := "receiver" } = some v
              ∧ "encoding_error" = "encoding_error"
              ∧ (200 : Int) = r.StatusCode
              ∧ (some [97, 98, 99] : Option (List UInt8)) = errors.RetrieveSample
                  (.bytes ((http.ReadAll r.Body).1.take
                    ((clientWith okClient (failingDecoder 3)).cfg.Encoder.Decode sampleEnv
                      r.Body v).1)))) :=
  Call_error_StatusCode (clientWith okClient (failingDecoder 3)) sampleEnv 3 "GET" "/200" none
    (some { label := "receiver" })
    { Code := "encoding_error"
      StatusCode := 200
      Method := "GET"
      Resource := "/200"
      RequestID := "6ba7b810-9dad-11d1-80b4-00c04fd430c8"
      Request := none
      Response := some [97, 98, 99]
      Source := "unexpected input" }
    { attempts := 1, sleeps := [] } (by decide)

end api

namespace auth

/-- C30: for every token, the empty one included, `BearerToken` returns a non-nil
credential, and setting it on a request makes the `Authorization` header `Bearer ` followed
by the token; `FromHeader` with an empty value returns the nil credential instead. -/
theorem BearerToken_never_nil (token : String) (r : http.Request) :
    BearerToken token ≠ none
    ∧ (∃ cred, BearerToken token = some cred
        ∧ (cred.set r).HeaderGet "Authorization" = "Bearer " ++ token)
    ∧ (∃ cred, BearerToken "" = some cred ∧ (cred.set r).HeaderGet "Authorization" = "Bearer ")
    ∧ FromHeader "Authorization" "" = none := by
  have hne : ∀ t : String, "Bearer " ++ t ≠ "" := by
    intro t h
    have hl := congrArg String.length h
    rw [String.length_append] at hl
    have h7 : "Bearer ".length = 7 := by decide
    have h0 : "".length = 0 := by decide
    omega
  have hb : ∀ t : String,
      BearerToken t = some (.fromHeader "Authorization" ("Bearer " ++ t)) := by
    intro t
    have h1 : ¬ ("Authorization" = "") := by decide
    simp [BearerToken, FromHeader, hne t]
  refine ⟨?_, ⟨_, hb token, ?_⟩, ⟨_, hb "", ?_⟩, ?_⟩
  · rw [hb token]
    exact Option.some_ne_none _
  · exact http.Header.Get_Set_self _ _ _
  · exact http.Header.Get_Set_self _ _ _
  · simp [FromHeader]

end auth

namespace errors

/-- C28: a body of exactly 500 bytes, from which no byte is dropped, is not returned as it
is: `RetrieveSample` appends the marker `...` and returns 503 bytes. -/
theorem RetrieveSample_full_body_marked :
    (List.replicate 500 (97 : UInt8)).length ≤ 500
    ∧ RetrieveSample (.bytes (List.replicate 500 97))
        = some (List.replicate 500 97 ++ [46, 46, 46])
    ∧ RetrieveSample (.bytes (List.replicate 500 97)) ≠ some (List.replicate 500 97) := by
  have hgen : ∀ d : List UInt8, d.length = 500 →
      RetrieveSample (.bytes d) = some (d ++ [46, 46, 46]) := by
    intro d hd
    have hn : ¬ d.length < 500 := by omega
    have ht : d.take 500 = d := List.take_of_length_le (by omega)
    simp only [RetrieveSample, http.ReadAll, bodySampleSize, hn, if_false, ht, dots]
  have hlen : (List.replicate 500 (97 : UInt8)).length = 500 := List.length_replicate _ _
  refine ⟨le_of_eq hlen, hgen _ hlen, ?_⟩
  rw [hgen _ hlen]
  intro hc
  have hl := congrArg (fun o => (o.map List.length)) hc
  simp only [Option.map_some', List.length_append, hlen, Option.some.injEq] at hl
  simp at hl

end errors

namespace backoff

/-- C27: the strategy with initial delay 1ns, ceiling 1s and growth rate 0.5 is constructed
without error, yet at retry count 1 the unjittered delay is 1ns, a quarter of it truncates
to 0, and the random draw panics: `Next(1)` returns no duration. -/
theorem Next_panics_for_small_initial (src : Nat) :
    ExponentialWithGrowthRate 1 1000000000 (.fin 1 (-1))
        = (some { growthRate := .fin 1 (-1), initial := 1, max := 1000000000 }, none)
    ∧ float64.toInt64 (exponentialBackoff.fx math.Pow
        { growthRate := .fin 1 (-1), initial := 1, max := 1000000000 } 1) = .val 1
    ∧ Int.tdiv 1 4 = 0
    ∧ exponentialBackoff.Next math.Pow
        { growthRate := .fin 1 (-1), initial := 1, max := 1000000000 } src 1
        = .panic "invalid argument to Int63n" := by
  refine ⟨by decide, by decide, by decide, ?_⟩
  have hz : float64.eq (float64.ofInt 1) float64.zero = false := by decide
  have hfx : float64.toInt64 (float64.mul (float64.ofInt 1)
      (math.Pow (float64.add float64.one (.fin 1 (-1))) (float64.ofInt 1))) = .val 1 := by
    decide
  have h4 : Int.tdiv 1 4 = 0 := by decide
  simp [exponentialBackoff.Next, hz, hfx, rand.Int63n, h4]

end backoff

namespace pokemon

/-- The one call of `Translate` that `applyTranslation` makes, and what it does with the
result. -/
theorem applyTranslation_cases
    (translate : String → translation.Method → String × Option String) (sr : SpeciesResponse) :
    (∃ m, (applyTranslation translate sr).2 = [(sr.Description, m)]
      ∧ (m = translation.Yoda ↔ (sr.Habitat = "cave" ∨ sr.IsLegendary = true))
      ∧ (m = translation.Shakespeare ↔ ¬ (sr.Habitat = "cave" ∨ sr.IsLegendary = true))
      ∧ ((translate sr.Description m).2 = none →
          (applyTranslation translate sr).1
            = { Name := sr.Name, Description := (translate sr.Description m).1,
                Habitat := sr.Habitat, IsLegendary := sr.IsLegendary })
      ∧ ((translate sr.Description m).2 ≠ none → (applyTranslation translate sr).1 = sr)) := by
  by_cases h : sr.Habitat = "cave" ∨ sr.IsLegendary = true
  · refine ⟨translation.Yoda, ?_, ?_, ?_, ?_, ?_⟩
    · rcases ht : translate sr.Description translation.Yoda with ⟨out, err⟩
      cases err <;> simp [applyTranslation, h, ht]
    · simp [h]
    · simp [h, translation.Yoda, translation.Shakespeare]
    · intro he
      rcases ht : translate sr.Description translation.Yoda with ⟨out, err⟩
      rw [ht] at he
      simp only at he
      subst he
      simp [applyTranslation, h, ht]
    · intro he
      rcases ht : translate sr.Description translation.Yoda with ⟨out, err⟩
      rw [ht] at he
      cases err with
      | none => exact absurd rfl he
      | some e => simp [applyTranslation, h, ht]
  · refine ⟨translation.Shakespeare, ?_, ?_, ?_, ?_, ?_⟩
    · rcases ht : translate sr.Description translation.Shakespeare with ⟨out, err⟩
      cases err <;> simp [applyTranslation, h, ht]
    · simp [h, translation.Yoda, translation.Shakespeare]
    · simp [h]
    · intro he
      rcases ht : translate sr.Description translation.Shakespeare with ⟨out, err⟩
      rw [ht] at he
      simp only at he
      subst he
      simp [applyTranslation, h, ht]
    · intro he
      rcases ht : translate sr.Description translation.Shakespeare with ⟨out, err⟩
      rw [ht] at he
      cases err with
      | none => exact absurd rfl he
      | some e => simp [applyTranslation, h, ht]

/-- C24: `applyTranslation` calls `Translate` once, with the description and with Yoda when
the habitat is `cave` or the species is legendary, and with Shakespeare otherwise; when
that call succeeds only `Description` changes, to the output, and `Name`, `Habitat` and
`IsLegendary` are as before; when it returns an error the response is as it was. -/
theorem applyTranslation_spec
    (translate : String → translation.Method → String × Option String) (sr : SpeciesResponse) :
    ((sr.Habitat = "cave" ∨ sr.IsLegendary = true) →
        (applyTranslation translate sr).2 = [(sr.Description, translation.Yoda)])
    ∧ (¬ (sr.Habitat = "cave" ∨ sr.IsLegendary = true) →
        (applyTranslation translate sr).2 = [(sr.Description, translation.Shakespeare)])
    ∧ (∀ m, (applyTranslation translate sr).2 = [(sr.Description, m)] →
        (translate sr.Description m).2 = none →
        (applyTranslation translate sr).1
          = { Name := sr.Name, Description := (translate sr.Description m).1,
              Habitat := sr.Habitat, IsLegendary := sr.IsLegendary })
    ∧ (∀ m, (applyTranslation translate sr).2 = [(sr.Description, m)] →
        (translate sr.Description m).2 ≠ none → (applyTranslation translate sr).1 = sr) := by
  obtain ⟨m, hcalls, hy, hs, hok, herr⟩ := applyTranslation_cases translate sr
  have hm : ∀ k, (applyTranslation translate sr).2 = [(sr.Description, k)] → k = m := by
    intro k hk
    rw [hcalls] at hk
    simp only [List.cons.injEq, Prod.mk.injEq, true_and, and_true] at hk
    exact hk.symm
  refine ⟨?_, ?_, ?_, ?_⟩
  · intro h
    rw [hcalls, hy.mpr h]
  · intro h
    rw [hcalls, hs.mpr h]
  · intro k hk he
    rw [hm k hk] at he ⊢
    exact hok he
  · intro k hk he
    rw [hm k hk] at he
    exact herr he

/-- A legendary species is translated with Yoda. -/
theorem applyTranslation_spec_witness :
    (applyTranslation (fun s _ => (s ++ "!", none))
      { Name := "mewtwo", Description := "It was created", Habitat := "rare",
        IsLegendary := true }).2 = [("It was created", translation.Yoda)] :=
  (applyTranslation_spec (fun s _ => (s ++ "!", none))
    { Name := "mewtwo", Description := "It was created", Habitat := "rare",
      IsLegendary := true }).1 (by decide)

end pokemon

namespace helpers

/-- C21: when the middlewares have put a request identifier and a logger into the context,
`RespondError` writes for a normalized error the status `StatusCode` if that is greater
than 0 and 500 otherwise, with the code `Code` and the message `Code`; for a compound error
its own `StatusCode()`, `Code()` and `Error()`; for any other error the status 500, the code
`server_error` and the message of the error; the envelope carries the request identifier
and no data. For a nil error nothing is written. -/
theorem RespondError_spec (marshal : errors.Error → String) (formatter : format.Encoder)
    (id : String) (l : log.Logger) (ctx : middleware.Context) :
    (∀ e : errors.Error,
      RespondError marshal formatter { requestID := some id, logger := some l }
          (some (.normalized e))
        = .val (some
            { contentType := formatter.ContentType
              status := if e.StatusCode > 0 then e.StatusCode else 500
              value := { RequestID := id, Error := some { Error := e.Code, Code := e.Code },
                         Data := none } }))
    ∧ (∀ (msg : String) (code : errors.Code) (statusCode : Int),
      RespondError marshal formatter { requestID := some id, logger := some l }
          (some (.compound msg code statusCode))
        = .val (some
            { contentType := formatter.ContentType
              status := statusCode
              value := { RequestID := id, Error := some { Error := msg, Code := code },
                         Data := none } }))
    ∧ (∀ msg : String,
      RespondError marshal formatter { requestID := some id, logger := some l }
          (some (.other msg))
        = .val (some
            { contentType := formatter.ContentType
              status := 500
              value := { RequestID := id, Error := some { Error := msg, Code := "server_error" },
                         Data := none } }))
    ∧ RespondError marshal formatter ctx none = .val none := by
  refine ⟨?_, ?_, ?_, rfl⟩
  · intro e
    simp [RespondError, middleware.RequestID, write, middleware.Logger,
      http.StatusInternalServerError]
  · intro msg code statusCode
    simp [RespondError, middleware.RequestID, write, middleware.Logger, Failure.Error]
  · intro msg
    simp [RespondError, middleware.RequestID, write, middleware.Logger, Failure.Error,
      http.StatusInternalServerError, errors.CodeServerError]

end helpers

namespace pokeapi

/-- The loop of `Description` over entries that are all non-nil with a non-nil language
returns the text of the first entry that matches, or the empty string. -/
theorem descriptionLoop_eq (equalFold : String → String → Bool) (lang : String) :
    ∀ entries : List (Option FlavorText),
      (∀ e ∈ entries, ∃ ft l, e = some ft ∧ ft.Language = some l) →
      descriptionLoop equalFold lang entries
        = .val (match entries.find? fun e =>
                  match e with
                  | some ft =>
                    (match ft.Language with
                     | some l => equalFold lang l.Name
                     | none => false)
                  | none => false with
                | some (some ft) => ft.Text
                | _ => "") := by
  intro entries
  induction entries with
  | nil => intro _; rfl
  | cons e rest ih =>
    intro h
    obtain ⟨ft, l, rfl, hl⟩ := h e (List.mem_cons_self _ _)
    have hrest := ih fun x hx => h x (List.mem_cons_of_mem _ hx)
    by_cases hf : equalFold lang l.Name = true
    · simp [descriptionLoop, hl, hf, List.find?]
    · have hf2 : equalFold lang l.Name = false := by simpa using hf
      simp only [descriptionLoop, hl, hf2, List.find?, Bool.false_eq_true, if_false]
      exact hrest

/-- C22: for a species whose only flavor text has no language, no entry matches `en`, yet
`Description` does not return the empty string as its comment says for a text that is not
found: it panics on the nil pointer. -/
theorem Description_nil_language :
    Species.Description strings.EqualFold
        (some { Name := "mew", IsLegendary := false, Habitat := none,
                FlavorText := [some { Text := "So rare", Language := none }] }) "en"
      = .panic "invalid memory address or nil pointer dereference"
    ∧ Species.Description strings.EqualFold
        (some { Name := "mew", IsLegendary := false, Habitat := none,
                FlavorText := [some { Text := "So rare", Language := none }] }) "en"
      ≠ .val "" := by
  refine ⟨by decide, by decide⟩

/-- What `Description` does for a species whose flavor-text entries are all non-nil and all
have a language: it returns the text of the first entry, in list order, whose language
name equals `lang` ignoring letter case, and the empty string when `lang` is empty, the
species has no entries or no entry matches; for the nil species it returns the empty
string. -/
theorem Description_spec (equalFold : String → String → Bool) (s : Option Species)
    (lang : String)
    (hwf : ∀ sp, s = some sp → ∀ e ∈ sp.FlavorText, ∃ ft l, e = some ft ∧ ft.Language = some l) :
    Species.Description equalFold s lang = .val (descriptionSpec equalFold s lang)
    ∧ (lang = "" → Species.Description equalFold s lang = .val "")
    ∧ (s = none → Species.Description equalFold s lang = .val "")
    ∧ (∀ sp, s = some sp → sp.FlavorText = [] → Species.Description equalFold s lang = .val "")
    ∧ (∀ sp, s = some sp →
        (∀ ft l, some ft ∈ sp.FlavorText → ft.Language = some l → equalFold lang l.Name = false) →
        Species.Description equalFold s lang = .val "")
    ∧ (∀ sp pre ft l post, s = some sp → lang ≠ "" →
        sp.FlavorText = pre ++ some ft :: post → ft.Language = some l →
        equalFold lang l.Name = true →
        (∀ ft2 l2, some ft2 ∈ pre → ft2.Language = some l2 → equalFold lang l2.Name = false) →
        Species.Description equalFold s lang = .val ft.Text) := by
  have hmain : Species.Description equalFold s lang = .val (descriptionSpec equalFold s lang) := by
    unfold Species.Description descriptionSpec
    by_cases hlang : lang = ""
    · simp [hlang]
    · cases s with
      | none => simp [hlang]
      | some sp =>
        simp only [hlang, if_false]
        by_cases hlen : sp.FlavorText.length = 0
        · have hnil : sp.FlavorText = [] := List.length_eq_zero.mp hlen
          simp [hnil]
        · simp only [hlen, if_false]
          exact descriptionLoop_eq equalFold lang sp.FlavorText (hwf sp rfl)
  refine ⟨hmain, ?_, ?_, ?_, ?_, ?_⟩
  · intro h
    simp [Species.Description, h]
  · intro h
    subst h
    by_cases hlang : lang = "" <;> simp [Species.Description, hlang]
  · intro sp hs hnil
    subst hs
    by_cases hlang : lang = "" <;> simp [Species.Description, hlang, hnil]
  · intro sp hs hno
    subst hs
    rw [hmain]
    unfold descriptionSpec
    by_cases hlang : lang = ""
    · simp [hlang]
    · simp only [hlang, if_false]
      have hfind : sp.FlavorText.find? (fun e =>
          match e with
          | some ft =>
            (match ft.Language with
             | some l => equalFold lang l.Name
             | none => false)
          | none => false) = none := by
        rw [List.find?_eq_none]
        intro e he
        obtain ⟨ft, l, rfl, hl⟩ := hwf sp rfl e he
        simp [hl, hno ft l he hl]
      rw [hfind]
  · intro sp pre ft l post hs hlang hsplit hl hmatch hpre
    subst hs
    rw [hmain]
    unfold descriptionSpec
    simp only [hlang, if_false, hsplit]
    have hfind : (pre ++ some ft :: post).find? (fun e =>
        match e with
        | some ft =>
          (match ft.Language with
           | some l => equalFold lang l.Name
           | none => false)
        | none => false) = some (some ft) := by
      rw [List.find?_append]
      have hnone : pre.find? (fun e =>
          match e with
          | some ft =>
            (match ft.Language with
             | some l => equalFold lang l.Name
             | none => false)
          | none => false) = none := by
        rw [List.find?_eq_none]
        intro e he
        obtain ⟨ft2, l2, rfl, hl2⟩ := hwf sp rfl e (by rw [hsplit]; exact List.mem_append_left _ he)
        simp [hl2, hpre ft2 l2 he hl2]
      rw [hnone]
      simp [List.find?, hl, hmatch]
    rw [hfind]

/-- A species with three entries: the first text in English is found whatever the case of
the language asked for. -/
theorem Description_spec_witness :
    Species.Description strings.EqualFold
        (some { Name := "mewtwo", IsLegendary := true, Habitat := none,
                FlavorText := [some { Text := "Il a", Language := some { Name := "fr" } },
                               some { Text := "It was", Language := some { Name := "en" } },
                               some { Text := "It is", Language := some { Name := "en" } }] })
        "EN"
      = .val "It was" :=
  (Description_spec strings.EqualFold
    (some { Name := "mewtwo", IsLegendary := true, Habitat := none,
            FlavorText := [some { Text := "Il a", Language := some { Name := "fr" } },
                           some { Text := "It was", Language := some { Name := "en" } },
                           some { Text := "It is", Language := some { Name := "en" } }] })
    "EN" (by
      intro sp hsp e he
      injection hsp with hsp
      subst hsp
      simp only [List.mem_cons, List.mem_singleton, List.not_mem_nil, or_false] at he
      rcases he with rfl | rfl | rfl
      · exact ⟨_, _, rfl, rfl⟩
      · exact ⟨_, _, rfl, rfl⟩
      · exact ⟨_, _, rfl, rfl⟩)).2.2.2.2.2
    _ [some { Text := "Il a", Language := some { Name := "fr" } }]
    { Text := "It was", Language := some { Name := "en" } } { Name := "en" }
    [some { Text := "It is", Language := some { Name := "en" } }]
    rfl (by decide) rfl rfl (by decide) (by
      intro ft2 l2 hmem hl2
      simp only [List.mem_singleton, Option.some.injEq] at hmem
      subst hmem
      injection hl2 with hl2
      subst hl2
      decide)

end pokeapi

namespace translation

/-- The two orders in which the iteration can visit the two entries of the map. -/
theorem order_cases (order : List (Method × String)) (h : order.Perm methodMappings) :
    order = [(Shakespeare, "shakespeare"), (Yoda, "yoda")]
    ∨ order = [(Yoda, "yoda"), (Shakespeare, "shakespeare")] := by
  have hlen : order.length = 2 := h.length_eq
  match order, hlen with
  | [x, y], _ =>
    have hx : x ∈ methodMappings := h.subset (List.mem_cons_self _ _)
    have hy : y ∈ methodMappings := h.subset (List.mem_cons_of_mem _ (List.mem_cons_self _ _))
    have hnd : [x, y].Nodup := h.nodup_iff.mpr (by decide)
    have hxy : x ≠ y := by
      intro hc
      subst hc
      simp at hnd
    simp only [methodMappings, List.mem_cons, List.mem_singleton, List.not_mem_nil,
      or_false] at hx hy
    rcases hx with rfl | rfl <;> rcases hy with rfl | rfl
    · exact absurd rfl hxy
    · exact Or.inl rfl
    · exact Or.inr rfl
    · exact absurd rfl hxy

/-- Counterexample to C23 as stated: `null` is not a JSON string, yet `UnmarshalJSON`
returns no error for it (and leaves the receiver as it was). -/
theorem UnmarshalJSON_null_accepted :
    Method.UnmarshalJSON encoding.json.UnmarshalString strings.EqualFold methodMappings Yoda
        [110, 117, 108, 108] = (Yoda, none)
    ∧ (Method.UnmarshalJSON encoding.json.UnmarshalString strings.EqualFold methodMappings Yoda
        [110, 117, 108, 108]).2 = none := by
  refine ⟨by decide, by decide⟩

/-- C23 (amended): whatever the order of the iteration over the map, for `Shakespeare` and
`Yoda` the output of `MarshalJSON` is decoded by `UnmarshalJSON` to the same method with no
error; input that the library decodes to a string naming no known method (a JSON string of
another text, or `null`, which the library accepts and which leaves the string empty) is
accepted with no error and leaves the receiver unchanged; input that the library refuses
returns the error of the library and leaves the receiver unchanged. The library enters by
what it guarantees: a name is marshalled without error to text that unmarshals to the same
name, and `EqualFold` holds of each name with itself and not with the other. -/
theorem Method_json_round_trip (unmarshal : List UInt8 → Except String String)
    (marshal : String → List UInt8 × Option String) (equalFold : String → String → Bool)
    (order : List (Method × String)) (m0 : Method)
    (hperm : order.Perm methodMappings)
    (hfold : equalFold "shakespeare" "shakespeare" = true ∧ equalFold "yoda" "yoda" = true
      ∧ equalFold "shakespeare" "yoda" = false ∧ equalFold "yoda" "shakespeare" = false)
    (hrt : ∀ s ∈ ["shakespeare", "yoda"], (marshal s).2 = none ∧ unmarshal (marshal s).1 = .ok s) :
    (∀ m ∈ [Shakespeare, Yoda],
        (Method.MarshalJSON marshal m).2 = none
        ∧ Method.UnmarshalJSON unmarshal equalFold order m0 (Method.MarshalJSON marshal m).1
            = (m, none))
    ∧ (∀ b s, unmarshal b = .ok s → equalFold s "shakespeare" = false →
        equalFold s "yoda" = false →
        Method.UnmarshalJSON unmarshal equalFold order m0 b = (m0, none))
    ∧ (∀ b err, unmarshal b = .error err →
        Method.UnmarshalJSON unmarshal equalFold order m0 b = (m0, some err)) := by
  obtain ⟨hss, hyy, hsy, hys⟩ := hfold
  have hs := hrt "shakespeare" (by simp)
  have hy := hrt "yoda" (by simp)
  have hns : Method.Name Shakespeare = "shakespeare" := by decide
  have hny : Method.Name Yoda = "yoda" := by decide
  refine ⟨?_, ?_, ?_⟩
  · intro m hm
    simp only [List.mem_cons, List.mem_singleton, List.not_mem_nil, or_false] at hm
    rcases hm with rfl | rfl
    · refine ⟨by rw [Method.MarshalJSON, hns]; exact hs.1, ?_⟩
      rw [Method.MarshalJSON, hns, Method.UnmarshalJSON, hs.2]
      rcases order_cases order hperm with ho | ho <;> rw [ho] <;>
        simp [unmarshalLoop, hss, hsy]
    · refine ⟨by rw [Method.MarshalJSON, hny]; exact hy.1, ?_⟩
      rw [Method.MarshalJSON, hny, Method.UnmarshalJSON, hy.2]
      rcases order_cases order hperm with ho | ho <;> rw [ho] <;>
        simp [unmarshalLoop, hyy, hys]
  · intro b s hb h1 h2
    rw [Method.UnmarshalJSON, hb]
    rcases order_cases order hperm with ho | ho <;> rw [ho] <;>
      simp [unmarshalLoop, h1, h2]
  · intro b err hb
    rw [Method.UnmarshalJSON, hb]

/-- With the stand-ins for the library, `Yoda` survives the round trip into a receiver that
held `Shakespeare`. -/
theorem Method_json_round_trip_witness :
    (Method.MarshalJSON encoding.json.MarshalString Yoda).2 = none
    ∧ Method.UnmarshalJSON encoding.json.UnmarshalString strings.EqualFold methodMappings
        Shakespeare (Method.MarshalJSON encoding.json.MarshalString Yoda).1 = (Yoda, none) :=
  (Method_json_round_trip encoding.json.UnmarshalString encoding.json.MarshalString
    strings.EqualFold methodMappings Shakespeare (List.Perm.refl _)
    (by decide)
    (by
      intro s hs
      simp only [List.mem_cons, List.mem_singleton, List.not_mem_nil, or_false] at hs
      rcases hs with rfl | rfl
      · exact ⟨rfl, rfl⟩
      · exact ⟨rfl, rfl⟩)).1 Yoda (by decide)

end translation

namespace api

theorem shouldRetry_lt {c : client} {err : Option errors.Error} {resp : Option http.Response}
    {retry : Int} (h : c.shouldRetry err resp retry = true) :
    retry < c.cfg.MaxNetworkRetries := by
  by_contra hn
  have hge : retry ≥ c.cfg.MaxNetworkRetries := not_lt.mp hn
  simp [client.shouldRetry, hge] at h

/-- The retry counter of the loop: when the loop is entered with the counter at the number
of sleeps so far, it ends with one attempt more than sleeps, at most `max(n, 0)` sleeps,
and the `i`-th sleep is the delay of the backoff for the retry count `i`. -/
theorem doLoop_counter (c : client) (rand : Nat → Nat) (req : http.Request) :
    ∀ (fuel : Nat) (retry : Int) (tr : DoTrace)
      (out : Outcome (Option http.Response × Option errors.Error)) (tr2 : DoTrace),
      retry = (tr.sleeps.length : Int) → tr.attempts = tr.sleeps.length →
      (tr.sleeps.length : Int) ≤ max c.cfg.MaxNetworkRetries 0 →
      (List.range tr.sleeps.length).map (fun i => c.cfg.Backoff.Next (rand i) (i : Int))
        = tr.sleeps.map Outcome.val →
      client.doLoop c rand req fuel retry tr = some (out, tr2) →
      tr2.attempts ≤ tr2.sleeps.length + 1
      ∧ (tr2.sleeps.length : Int) ≤ max c.cfg.MaxNetworkRetries 0
      ∧ (List.range tr2.sleeps.length).map (fun i => c.cfg.Backoff.Next (rand i) (i : Int))
          = tr2.sleeps.map Outcome.val
      ∧ (req.GetBody ≠ none → tr2.attempts = tr2.sleeps.length + 1) := by
  intro fuel
  induction fuel with
  | zero =>
    intro retry tr out tr2 _ _ _ _ h
    simp [client.doLoop] at h
  | succ f ih =>
    intro retry tr out tr2 hretry hatt hbound hmap h
    have hstop : ∀ o : Outcome (Option http.Response × Option errors.Error),
        some (o, ({ attempts := tr.attempts + 1, sleeps := tr.sleeps } : DoTrace))
          = some (out, tr2) →
        tr2.attempts ≤ tr2.sleeps.length + 1
        ∧ (tr2.sleeps.length : Int) ≤ max c.cfg.MaxNetworkRetries 0
        ∧ (List.range tr2.sleeps.length).map (fun i => c.cfg.Backoff.Next (rand i) (i : Int))
            = tr2.sleeps.map Outcome.val
        ∧ (req.GetBody ≠ none → tr2.attempts = tr2.sleeps.length + 1) := by
      intro o ho
      simp only [Option.some.injEq, Prod.mk.injEq] at ho
      obtain ⟨_, rfl⟩ := ho
      exact ⟨by simp [hatt], hbound, hmap, fun _ => by simp [hatt]⟩
    cases hget : req.GetBody with
    | none =>
      simp only [client.doLoop, hget, Option.some.injEq, Prod.mk.injEq] at h
      obtain ⟨_, rfl⟩ := h
      exact ⟨by omega, hbound, hmap, fun hc => absurd rfl hc⟩
    | some cpy =>
      rw [← hget]
      rcases hdo : c.cfg.HTTPClient.Do tr.attempts { req with Body := cpy, GetBody := some cpy }
        with ⟨r, rawErr⟩
      simp only [client.doLoop, hget, hdo] at h
      split at h
      · exact hstop _ h
      · split at h
        · split at h <;> exact hstop _ h
        · rename_i hsr
          split at h
          · rename_i d hd
            have hsr2 := shouldRetry_lt (by simpa using hsr)
            have hd2 : c.cfg.Backoff.Next (rand tr.sleeps.length) (tr.sleeps.length : Int)
                = .val d := by
              rw [← hretry]
              exact hd
            have hres := ih (retry + 1) { attempts := tr.attempts + 1, sleeps := tr.sleeps ++ [d] }
              out tr2 (by simp [hretry]) (by simp [hatt])
              (by
                simp only [List.length_append, List.length_singleton, Nat.cast_add, Nat.cast_one]
                have : retry < max c.cfg.MaxNetworkRetries 0 := lt_max_of_lt_left hsr2
                omega)
              (by
                simp only [List.length_append, List.length_singleton, List.range_succ,
                  List.map_append, List.map_cons, List.map_nil, hmap, hd2])
              h
            exact hres
          · exact hstop _ h
          · exact hstop _ h

end api

namespace api

/-- With an error present and a status other than 429, `shouldRetry` holds exactly while
the retry count is below the maximum. -/
theorem shouldRetry_error_status (c : client) (e : errors.Error) (r : http.Response)
    (retry : Int) (hs : r.StatusCode ≠ 429) :
    c.shouldRetry (some e) (some r) retry = true ↔ retry < c.cfg.MaxNetworkRetries := by
  constructor
  · exact shouldRetry_lt
  · intro hlt
    have hnot : ¬ retry ≥ c.cfg.MaxNetworkRetries := not_le.mpr hlt
    simp only [client.shouldRetry, hnot, if_false, http.StatusTooManyRequests, hs,
      Option.isSome_some]
    split <;> rfl

/-- One pass of the retry loop when the transport answers the status `s`, an error status
other than 429, and `j` retries remain. -/
theorem doLoop_all_status (c : client) (rand : Nat → Nat) (req : http.Request)
    (cpy : http.Reader) (s : Int) (hs : 400 ≤ s) (hs429 : s ≠ 429) (n : Nat)
    (hmax : c.cfg.MaxNetworkRetries = n) (hget : req.GetBody = some cpy)
    (hstatus : ∀ (k : Nat) (r : http.Request),
      ∃ b, c.cfg.HTTPClient.Do k r = (some { StatusCode := s, Body := b }, none))
    (hback : ∀ (src : Nat) (k : Int), 0 ≤ k → k < n → ∃ d, c.cfg.Backoff.Next src k = .val d) :
    ∀ (j : Nat), j ≤ n → ∀ (fuel : Nat), j + 1 ≤ fuel → ∀ (tr : DoTrace),
      ∃ b tr2, client.doLoop c rand req fuel ((n : Int) - j) tr
          = some (.val (none, some (errors.FromResponse
              { req with Body := cpy, GetBody := some cpy } { StatusCode := s, Body := b } b)),
              tr2)
        ∧ tr2.attempts = tr.attempts + (j + 1) := by
  intro j
  induction j with
  | zero =>
    intro _ fuel hfuel tr
    obtain ⟨f, rfl⟩ : ∃ f, fuel = f + 1 := ⟨fuel - 1, by omega⟩
    obtain ⟨b, hb⟩ := hstatus tr.attempts { req with Body := cpy, GetBody := some cpy }
    refine ⟨b, { tr with attempts := tr.attempts + 1 }, ?_, rfl⟩
    simp [client.doLoop, hget, hb, client.shouldRetry, hmax, http.StatusBadRequest, hs]
  | succ j ih =>
    intro hj fuel hfuel tr
    obtain ⟨f, rfl⟩ : ∃ f, fuel = f + 1 := ⟨fuel - 1, by omega⟩
    obtain ⟨b, hb⟩ := hstatus tr.attempts { req with Body := cpy, GetBody := some cpy }
    have hlt : ((n : Int) - ((j + 1 : Nat) : Int)) < n := by omega
    have hnn : (0 : Int) ≤ (n : Int) - ((j + 1 : Nat) : Int) := by omega
    obtain ⟨d, hd⟩ := hback (rand tr.sleeps.length) ((n : Int) - ((j + 1 : Nat) : Int)) hnn hlt
    obtain ⟨b2, tr2, h1, h2⟩ := ih (by omega) f (by omega)
      { attempts := tr.attempts + 1, sleeps := tr.sleeps ++ [d] }
    refine ⟨b2, tr2, ?_, by simp at h2; omega⟩
    have hstep : (n : Int) - ((j + 1 : Nat) : Int) + 1 = (n : Int) - (j : Nat) := by
      push_cast; ring
    have hsr : c.shouldRetry
        (some (errors.FromResponse { req with Body := cpy, GetBody := some cpy }
          { StatusCode := s, Body := b } b))
        (some { StatusCode := s, Body := b }) ((n : Int) - ((j + 1 : Nat) : Int)) = true :=
      (shouldRetry_error_status c _ _ _ hs429).mpr (by rw [hmax]; exact hlt)
    have hge : s ≥ http.StatusBadRequest := hs
    simp only [client.doLoop, hget, hb, Option.map_none', hge, if_true, hsr, Bool.not_true,
      client.sleepTime, hd, hstep]
    simpa using h1

end api

namespace api

/-- C29: an attempt that receives a status `s >= 400` other than 429 leaves the loop with a
non-nil error and is retried exactly while the retry count is below the maximum; among the
error statuses 429 is the only one that stops the loop while retries remain. So with a
maximum of `n` retries, a readable body and a backoff that returns, an upstream that
answers every attempt with such a status (404, say) receives exactly `n + 1` attempts, and
`client.do` returns the error made from the last response. -/
theorem do_retries_error_status (c : client) (rand : Nat → Nat) (req : http.Request)
    (body : http.Reader) (n fuel : Nat) (s : Int) (hs : 400 ≤ s) (hs429 : s ≠ 429)
    (hmax : c.cfg.MaxNetworkRetries = n)
    (hbody : (http.ReadAll body).2 = none)
    (hstatus : ∀ (k : Nat) (r : http.Request),
      ∃ b, c.cfg.HTTPClient.Do k r = (some { StatusCode := s, Body := b }, none))
    (hback : ∀ (src : Nat) (k : Int), 0 ≤ k → k < n → ∃ d, c.cfg.Backoff.Next src k = .val d)
    (hfuel : n + 1 ≤ fuel) :
    (∀ (e : errors.Error) (r : http.Response) (retry : Int), r.StatusCode = s →
        (c.shouldRetry (some e) (some r) retry = true ↔ retry < n))
    ∧ (∀ (e : errors.Error) (r : http.Response) (retry : Int), 400 ≤ r.StatusCode →
        retry < n → (c.shouldRetry (some e) (some r) retry = false ↔ r.StatusCode = 429))
    ∧ (∃ b tr, c.do_ rand fuel req body
          = some (.val (none, some (errors.FromResponse (requestAfterDo req body)
              { StatusCode := s, Body := b } b)), tr)
        ∧ tr.attempts = n + 1) := by
  refine ⟨?_, ?_, ?_⟩
  · intro e r retry hr
    rw [← hmax]
    exact shouldRetry_error_status c e r retry (by rw [hr]; exact hs429)
  · intro e r retry _ hlt
    constructor
    · intro hf
      by_contra hne
      have ht := (shouldRetry_error_status c e r retry hne).mpr (by rw [hmax]; exact hlt)
      rw [hf] at ht
      exact Bool.false_ne_true ht
    · intro h429
      have hnot : ¬ retry ≥ c.cfg.MaxNetworkRetries := by rw [hmax]; exact not_le.mpr hlt
      simp [client.shouldRetry, hnot, h429, http.StatusInternalServerError,
        http.StatusServiceUnavailable, http.StatusBadGateway, http.StatusConflict,
        http.StatusTooManyRequests]
  · obtain ⟨r1, hset⟩ := setBody_of_readable req hbody
    obtain ⟨cpy, hget, hafter⟩ := requestAfterDo_eq hset
    obtain ⟨b, tr2, h1, h2⟩ :=
      doLoop_all_status c rand r1 cpy s hs hs429 n hmax hget hstatus hback n le_rfl fuel hfuel
        { attempts := 0, sleeps := [] }
    refine ⟨b, tr2, ?_, by simpa using h2⟩
    simp only [client.do_, hset]
    rw [hafter]
    simpa using h1

/-- An upstream that always answers 404 receives 3 attempts when the maximum is 2. -/
theorem do_retries_error_status_witness :
    ∃ b tr, (sampleClient 404 2).do_ (fun _ => 0) 3 sampleRequest .nil
        = some (.val (none, some (errors.FromResponse (requestAfterDo sampleRequest .nil)
            { StatusCode := 404, Body := b } b)), tr)
      ∧ tr.attempts = 2 + 1 :=
  (do_retries_error_status (sampleClient 404 2) (fun _ => 0) sampleRequest .nil 2 3 404
    (by decide) (by decide) rfl rfl (fun _ _ => ⟨_, rfl⟩) (fun _ _ _ _ => ⟨0, rfl⟩)
    (by decide)).2.2

/-- C26: whatever the transport and the backoff do, with a maximum of `n` retries
`client.do` comes to an end within `max(n, 0) + 1` iterations of its loop, after at most
`max(n, 0) + 1` attempts and at most `max(n, 0)` retries, each retry being followed by at
most one attempt; the retry counter starts at 0 and grows by one with each retry: the
`i`-th sleep of the call is the delay the backoff gave for the retry count `i`. -/
theorem do_terminates (c : client) (rand : Nat → Nat) (fuel : Nat) (req : http.Request)
    (body : http.Reader)
    (hfuel : (max c.cfg.MaxNetworkRetries 0).toNat + 1 ≤ fuel) :
    ∃ out tr, c.do_ rand fuel req body = some (out, tr)
      ∧ tr.attempts ≤ (max c.cfg.MaxNetworkRetries 0).toNat + 1
      ∧ tr.sleeps.length ≤ (max c.cfg.MaxNetworkRetries 0).toNat
      ∧ tr.attempts ≤ tr.sleeps.length + 1
      ∧ (List.range tr.sleeps.length).map (fun i => c.cfg.Backoff.Next (rand i) (i : Int))
          = tr.sleeps.map Outcome.val := by
  cases hr : (http.ReadAll body).2 with
  | some msg =>
    refine ⟨_, _, by rw [client.do_, setBody_of_read_error hr], ?_, ?_, ?_, ?_⟩ <;> simp
  | none =>
    obtain ⟨r1, hset⟩ := setBody_of_readable req hr
    have hj : c.cfg.MaxNetworkRetries - (0 : Int)
        ≤ ((max c.cfg.MaxNetworkRetries 0).toNat : Int) := by
      have := le_max_left c.cfg.MaxNetworkRetries 0
      omega
    obtain ⟨out, tr2, h1, _⟩ := doLoop_returns c rand r1 (max c.cfg.MaxNetworkRetries 0).toNat
      fuel 0 { attempts := 0, sleeps := [] } hj hfuel
    obtain ⟨h3, h4, h5, _⟩ := doLoop_counter c rand r1 fuel 0 { attempts := 0, sleeps := [] }
      out tr2 rfl rfl (by simp) rfl h1
    have h6 : tr2.sleeps.length ≤ (max c.cfg.MaxNetworkRetries 0).toNat := by omega
    refine ⟨out, tr2, ?_, by omega, h6, h3, h5⟩
    simp only [client.do_, hset]
    exact h1

/-- With a maximum of 2 retries and fuel for 3 iterations the call against an upstream that
always answers 500 comes to an end. -/
theorem do_terminates_witness :
    ∃ out tr, (sampleClient 500 2).do_ (fun _ => 0) 3 sampleRequest .nil = some (out, tr)
      ∧ tr.attempts ≤ (max (sampleClient 500 2).cfg.MaxNetworkRetries 0).toNat + 1
      ∧ tr.sleeps.length ≤ (max (sampleClient 500 2).cfg.MaxNetworkRetries 0).toNat
      ∧ tr.attempts ≤ tr.sleeps.length + 1
      ∧ (List.range tr.sleeps.length).map
            (fun (i : Nat) => (sampleClient 500 2).cfg.Backoff.Next 0 (i : Int))
          = tr.sleeps.map Outcome.val :=
  do_terminates (sampleClient 500 2) (fun _ => 0) 3 sampleRequest .nil (by decide)

end api

namespace api

/-- Counterexample to C25 as stated: the context is cancelled before the call, so that the
transport fails every attempt at once; with a maximum of 2 retries and a constant backoff
of one second, `client.do` still makes 3 attempts and sleeps twice for the full second
before it returns the error. -/
theorem do_cancelled_sleeps_and_retries :
    ((cancelledClient 2).do_ (fun _ => 0) 3 sampleRequest .nil).map (fun x => x.2)
      = some { attempts := 3, sleeps := [1000000000, 1000000000] }
    ∧ ((cancelledClient 2).do_ (fun _ => 0) 3 sampleRequest .nil).map (fun x => x.2)
      ≠ some { attempts := 1, sleeps := [] } := by
  refine ⟨by decide, by decide⟩

/-- C25 (amended): the retry loop does not look at the context. When the context is
cancelled or expired the transport fails every attempt without a response, and with a
readable body and a backoff that returns `client.do` still makes all
`max(MaxNetworkRetries, 0) + 1` attempts and sleeps before each retry for the whole delay
of the backoff; then it returns no response and the normalized error with code
`http_client_error`, made from the failure of the last attempt. -/
theorem do_cancelled_keeps_retrying (c : client) (rand : Nat → Nat) (fuel : Nat)
    (req : http.Request) (body : http.Reader) (msgs : Nat → String)
    (hbody : (http.ReadAll body).2 = none)
    (hfail : ∀ (k : Nat) (r : http.Request), c.cfg.HTTPClient.Do k r = (none, some (msgs k)))
    (hback : ∀ (src : Nat) (k : Int), 0 ≤ k → k < c.cfg.MaxNetworkRetries →
      ∃ d, c.cfg.Backoff.Next src k = .val d)
    (hfuel : c.cfg.MaxNetworkRetries.toNat + 1 ≤ fuel) :
    ∃ tr, c.do_ rand fuel req body
        = some (.val (none, some (errors.FromRequestAndSource (requestAfterDo req body)
            errors.CodeHTTPClientError (some (msgs c.cfg.MaxNetworkRetries.toNat)))), tr)
      ∧ tr.attempts = c.cfg.MaxNetworkRetries.toNat + 1
      ∧ tr.sleeps.length = c.cfg.MaxNetworkRetries.toNat
      ∧ (List.range tr.sleeps.length).map
            (fun (i : Nat) => c.cfg.Backoff.Next (rand i) (i : Int))
          = tr.sleeps.map Outcome.val := by
  obtain ⟨r1, hset⟩ := setBody_of_readable req hbody
  obtain ⟨cpy, hget, hafter⟩ := requestAfterDo_eq hset
  obtain ⟨tr2, h1, h2⟩ := doLoop_all_fail c rand r1 cpy msgs hget hfail hback
    c.cfg.MaxNetworkRetries.toNat le_rfl fuel hfuel { attempts := 0, sleeps := [] }
  simp only [sub_self, Nat.zero_add] at h1 h2
  obtain ⟨_, _, h5, h6⟩ := doLoop_counter c rand r1 fuel 0 { attempts := 0, sleeps := [] }
    _ tr2 rfl rfl (by simp) rfl h1
  have h7 := h6 (by rw [hget]; exact Option.some_ne_none _)
  refine ⟨tr2, ?_, h2, by omega, h5⟩
  simp only [client.do_, hset]
  rw [hafter]
  exact h1

/-- With a maximum of 2 retries and a backoff of one second the call on a cancelled context
makes 3 attempts and sleeps twice. -/
theorem do_cancelled_keeps_retrying_witness :
    ∃ tr, (cancelledClient 2).do_ (fun _ => 0) 3 sampleRequest .nil
        = some (.val (none, some (errors.FromRequestAndSource (requestAfterDo sampleRequest .nil)
            errors.CodeHTTPClientError
            (some ((fun _ => "context canceled") (cancelledClient 2).cfg.MaxNetworkRetries.toNat)))),
            tr)
      ∧ tr.attempts = (cancelledClient 2).cfg.MaxNetworkRetries.toNat + 1
      ∧ tr.sleeps.length = (cancelledClient 2).cfg.MaxNetworkRetries.toNat
      ∧ (List.range tr.sleeps.length).map
            (fun (i : Nat) => (cancelledClient 2).cfg.Backoff.Next ((fun _ => 0) i) (i : Int))
          = tr.sleeps.map Outcome.val :=
  do_cancelled_keeps_retrying (cancelledClient 2) (fun _ => 0) 3 sampleRequest .nil
    (fun _ => "context canceled") rfl (fun _ _ => rfl) (fun _ _ _ _ => ⟨1000000000, rfl⟩)
    (by decide)

end api

namespace api

/-- The retry loop returns a result, not a panic, when the transport answers every attempt
with a response or an error and the backoff returns a delay for the retry counts below the
maximum. -/
theorem doLoop_returns_val (c : client) (rand : Nat → Nat) (req : http.Request)
    (cpy : http.Reader) (hget : req.GetBody = some cpy)
    (hresp : ∀ (k : Nat) (r : http.Request), c.cfg.HTTPClient.Do k r ≠ (none, none))
    (hback : ∀ (src : Nat) (k : Int), 0 ≤ k → k < c.cfg.MaxNetworkRetries →
      ∃ d, c.cfg.Backoff.Next src k = .val d) :
    ∀ (j : Nat) (fuel : Nat) (retry : Int) (tr : DoTrace),
      0 ≤ retry → c.cfg.MaxNetworkRetries - retry ≤ j → j + 1 ≤ fuel →
      ∃ res tr2, client.doLoop c rand req fuel retry tr = some (.val res, tr2) := by
  intro j
  induction j with
  | zero =>
    intro fuel retry tr _ hj hfuel
    obtain ⟨f, rfl⟩ : ∃ f, fuel = f + 1 := ⟨fuel - 1, by omega⟩
    have hge : retry ≥ c.cfg.MaxNetworkRetries := by
      simp only [Nat.cast_zero] at hj
      omega
    have hsr : ∀ (err : Option errors.Error) (res : Option http.Response),
        c.shouldRetry err res retry = false := by
      intro err res
      simp [client.shouldRetry, hge]
    have hne := hresp tr.attempts { req with Body := cpy, GetBody := some cpy }
    rcases hdo : c.cfg.HTTPClient.Do tr.attempts { req with Body := cpy, GetBody := some cpy }
      with ⟨r, rawErr⟩
    rw [hdo] at hne
    simp only [client.doLoop, hget, hdo, hsr, Bool.not_false, if_true]
    split
    · rename_i hmap
      cases rawErr with
      | some e => simp at hmap
      | none => exact absurd rfl hne
    · split <;> exact ⟨_, _, rfl⟩
  | succ j ih =>
    intro fuel retry tr hretry hj hfuel
    obtain ⟨f, rfl⟩ : ∃ f, fuel = f + 1 := ⟨fuel - 1, by omega⟩
    have hnext : ∀ d : Int, ∃ res tr2,
        client.doLoop c rand req f (retry + 1)
          { attempts := tr.attempts + 1, sleeps := tr.sleeps ++ [d] } = some (.val res, tr2) := by
      intro d
      exact ih f (retry + 1) _ (by omega) (by push_cast at hj; omega) (by omega)
    have hne := hresp tr.attempts { req with Body := cpy, GetBody := some cpy }
    rcases hdo : c.cfg.HTTPClient.Do tr.attempts { req with Body := cpy, GetBody := some cpy }
      with ⟨r, rawErr⟩
    rw [hdo] at hne
    simp only [client.doLoop, hget, hdo]
    split
    · rename_i hmap
      cases rawErr with
      | some e => simp at hmap
      | none => exact absurd rfl hne
    · split
      · split <;> exact ⟨_, _, rfl⟩
      · rename_i hsr
        have hlt := shouldRetry_lt (by simpa using hsr)
        obtain ⟨d, hd⟩ := hback (rand tr.sleeps.length) retry hretry hlt
        simp only [client.sleepTime, hd]
        exact hnext d

end api

namespace api

/-- Which attempt is the last: when the loop is entered with the retry counter at the
number of attempts so far and returns a result, `shouldRetry` held of the outcome of every
attempt but the last, and does not hold of the outcome of the last. -/
theorem doLoop_stops_at (c : client) (rand : Nat → Nat) (req : http.Request) (cpy : http.Reader)
    (hget : req.GetBody = some cpy) :
    ∀ (fuel : Nat) (retry : Int) (tr : DoTrace)
      (res : Option http.Response × Option errors.Error) (tr2 : DoTrace),
      retry = (tr.attempts : Int) →
      client.doLoop c rand req fuel retry tr = some (.val res, tr2) →
      (∀ i : Nat, tr.attempts ≤ i → i + 1 < tr2.attempts →
        c.shouldRetry
          (finalResultSpec { req with Body := cpy, GetBody := some cpy }
            (c.cfg.HTTPClient.Do i { req with Body := cpy, GetBody := some cpy })).2
          (c.cfg.HTTPClient.Do i { req with Body := cpy, GetBody := some cpy }).1 (i : Int)
          = true)
      ∧ c.shouldRetry
          (finalResultSpec { req with Body := cpy, GetBody := some cpy }
            (c.cfg.HTTPClient.Do (tr2.attempts - 1)
              { req with Body := cpy, GetBody := some cpy })).2
          (c.cfg.HTTPClient.Do (tr2.attempts - 1)
            { req with Body := cpy, GetBody := some cpy }).1 ((tr2.attempts - 1 : Nat) : Int)
          = false := by
  intro fuel
  induction fuel with
  | zero =>
    intro retry tr res tr2 _ h
    simp [client.doLoop] at h
  | succ f ih =>
    intro retry tr res tr2 hretry h
    have hstop : ∀ o : Outcome (Option http.Response × Option errors.Error),
        some (o, ({ attempts := tr.attempts + 1, sleeps := tr.sleeps } : DoTrace))
          = some (Outcome.val res, tr2) →
        c.shouldRetry
          (finalResultSpec { req with Body := cpy, GetBody := some cpy }
            (c.cfg.HTTPClient.Do tr.attempts { req with Body := cpy, GetBody := some cpy })).2
          (c.cfg.HTTPClient.Do tr.attempts { req with Body := cpy, GetBody := some cpy }).1
          retry = false →
        (∀ i : Nat, tr.attempts ≤ i → i + 1 < tr2.attempts →
          c.shouldRetry
            (finalResultSpec { req with Body := cpy, GetBody := some cpy }
              (c.cfg.HTTPClient.Do i { req with Body := cpy, GetBody := some cpy })).2
            (c.cfg.HTTPClient.Do i { req with Body := cpy, GetBody := some cpy }).1 (i : Int)
            = true)
        ∧ c.shouldRetry
            (finalResultSpec { req with Body := cpy, GetBody := some cpy }
              (c.cfg.HTTPClient.Do (tr2.attempts - 1)
                { req with Body := cpy, GetBody := some cpy })).2
            (c.cfg.HTTPClient.Do (tr2.attempts - 1)
              { req with Body := cpy, GetBody := some cpy }).1 ((tr2.attempts - 1 : Nat) : Int)
            = false := by
      intro o ho hsr
      simp only [Option.some.injEq, Prod.mk.injEq] at ho
      obtain ⟨_, rfl⟩ := ho
      refine ⟨fun i h1 h2 => ?_, ?_⟩
      · simp only at h2
        omega
      · simp only [Nat.add_sub_cancel]
        rw [← hretry]
        exact hsr
    have hrec : ∀ d : Int,
        client.doLoop c rand req f (retry + 1)
          { attempts := tr.attempts + 1, sleeps := tr.sleeps ++ [d] }
          = some (Outcome.val res, tr2) →
        c.shouldRetry
          (finalResultSpec { req with Body := cpy, GetBody := some cpy }
            (c.cfg.HTTPClient.Do tr.attempts { req with Body := cpy, GetBody := some cpy })).2
          (c.cfg.HTTPClient.Do tr.attempts { req with Body := cpy, GetBody := some cpy }).1
          retry = true →
        (∀ i : Nat, tr.attempts ≤ i → i + 1 < tr2.attempts →
          c.shouldRetry
            (finalResultSpec { req with Body := cpy, GetBody := some cpy }
              (c.cfg.HTTPClient.Do i { req with Body := cpy, GetBody := some cpy })).2
            (c.cfg.HTTPClient.Do i { req with Body := cpy, GetBody := some cpy }).1 (i : Int)
            = true)
        ∧ c.shouldRetry
            (finalResultSpec { req with Body := cpy, GetBody := some cpy }
              (c.cfg.HTTPClient.Do (tr2.attempts - 1)
                { req with Body := cpy, GetBody := some cpy })).2
            (c.cfg.HTTPClient.Do (tr2.attempts - 1)
              { req with Body := cpy, GetBody := some cpy }).1 ((tr2.attempts - 1 : Nat) : Int)
            = false := by
      intro d hd hsr
      obtain ⟨h1, h2⟩ := ih (retry + 1) _ res tr2 (by simp [hretry]) hd
      refine ⟨fun i hi1 hi2 => ?_, h2⟩
      rcases Nat.eq_or_lt_of_le hi1 with heq | hlt
      · rw [← heq, ← hretry]
        exact hsr
      · exact h1 i hlt hi2
    rcases hdo : c.cfg.HTTPClient.Do tr.attempts { req with Body := cpy, GetBody := some cpy }
      with ⟨r, rawErr⟩
    rw [hdo] at hstop hrec
    simp only [client.doLoop, hget, hdo] at h
    cases rawErr with
    | some msg =>
      simp only [Option.map_some'] at h
      have hcls : (finalResultSpec { req with Body := cpy, GetBody := some cpy }
          (r, some msg)).2 = some (errors.FromRequestAndSource
            { req with Body := cpy, GetBody := some cpy } errors.CodeHTTPClientError
            (some msg)) := by
        cases r <;> rfl
      rw [hcls] at hstop hrec
      split at h
      · rename_i hc
        exact hstop _ h (by simpa using hc)
      · rename_i hc
        split at h
        · exact hrec _ h (by simpa using hc)
        · simp at h
        · simp at h
    | none =>
      cases r with
      | none => simp at h
      | some resp =>
        simp only [Option.map_none'] at h
        by_cases hs : resp.StatusCode ≥ http.StatusBadRequest
        · have hn : ¬ resp.StatusCode < 400 := by
            simp only [http.StatusBadRequest] at hs
            omega
          have hcls : (finalResultSpec { req with Body := cpy, GetBody := some cpy }
              (some resp, none)).2 = some (errors.FromResponse
                { req with Body := cpy, GetBody := some cpy } resp resp.Body) := by
            simp [finalResultSpec, hn]
          rw [hcls] at hstop hrec
          simp only [hs, if_true] at h
          split at h
          · rename_i hc
            exact hstop _ h (by simpa using hc)
          · rename_i hc
            split at h
            · exact hrec _ h (by simpa using hc)
            · simp at h
            · simp at h
        · have hn : resp.StatusCode < 400 := by
            simp only [http.StatusBadRequest] at hs
            omega
          have hcls : (finalResultSpec { req with Body := cpy, GetBody := some cpy }
              (some resp, none)).2 = none := by
            simp [finalResultSpec, hn]
          rw [hcls] at hstop hrec
          simp only [hs, if_false] at h
          split at h
          · rename_i hc
            exact hstop _ h (by simpa using hc)
          · rename_i hc
            split at h
            · exact hrec _ h (by simpa using hc)
            · simp at h
            · simp at h

end api

namespace api

/-- C18: given a readable body, a transport that answers every attempt with a response or
an error, a backoff that returns and enough fuel, `client.do` returns a result, after at
least one and at most `max(MaxNetworkRetries, 0) + 1` attempts, and that result is
determined by the final attempt alone: it is `finalResultSpec` of what the transport
answered to the last attempt, that is, the response and no error when that attempt obtained
a response with a status below 400 without transport error, and otherwise no response and
the normalized error classified from that attempt. The final attempt is the first one of
whose outcome `shouldRetry` does not hold, so that a failure that is retried does not show
in the result. -/
theorem do_result_of_final_attempt (c : client) (rand : Nat → Nat) (fuel : Nat)
    (req : http.Request) (body : http.Reader)
    (hbody : (http.ReadAll body).2 = none)
    (hresp : ∀ (k : Nat) (r : http.Request), c.cfg.HTTPClient.Do k r ≠ (none, none))
    (hback : ∀ (src : Nat) (k : Int), 0 ≤ k → k < c.cfg.MaxNetworkRetries →
      ∃ d, c.cfg.Backoff.Next src k = .val d)
    (hfuel : c.cfg.MaxNetworkRetries.toNat + 1 ≤ fuel) :
    ∃ res tr, c.do_ rand fuel req body = some (.val res, tr)
      ∧ 0 < tr.attempts
      ∧ tr.attempts ≤ c.cfg.MaxNetworkRetries.toNat + 1
      ∧ res = finalResultSpec (requestAfterDo req body)
          (c.cfg.HTTPClient.Do (tr.attempts - 1) (requestAfterDo req body))
      ∧ (∀ r, c.cfg.HTTPClient.Do (tr.attempts - 1) (requestAfterDo req body) = (some r, none) →
          r.StatusCode < 400 → res = (some r, none))
      ∧ (∀ r, c.cfg.HTTPClient.Do (tr.attempts - 1) (requestAfterDo req body) = (some r, none) →
          400 ≤ r.StatusCode →
          res = (none, some (errors.FromResponse (requestAfterDo req body) r r.Body)))
      ∧ (∀ r msg, c.cfg.HTTPClient.Do (tr.attempts - 1) (requestAfterDo req body)
            = (r, some msg) →
          res = (none, some (errors.FromRequestAndSource (requestAfterDo req body)
            errors.CodeHTTPClientError (some msg))))
      ∧ (∀ i : Nat, i + 1 < tr.attempts →
          c.shouldRetry
            (finalResultSpec (requestAfterDo req body)
              (c.cfg.HTTPClient.Do i (requestAfterDo req body))).2
            (c.cfg.HTTPClient.Do i (requestAfterDo req body)).1 (i : Int) = true)
      ∧ c.shouldRetry
          (finalResultSpec (requestAfterDo req body)
            (c.cfg.HTTPClient.Do (tr.attempts - 1) (requestAfterDo req body))).2
          (c.cfg.HTTPClient.Do (tr.attempts - 1) (requestAfterDo req body)).1
          ((tr.attempts - 1 : Nat) : Int) = false := by
  obtain ⟨r1, hset⟩ := setBody_of_readable req hbody
  obtain ⟨cpy, hget, hafter⟩ := requestAfterDo_eq hset
  obtain ⟨res, tr, hloop⟩ :=
    doLoop_returns_val c rand r1 cpy hget hresp hback c.cfg.MaxNetworkRetries.toNat fuel 0
      { attempts := 0, sleeps := [] } le_rfl (by omega) hfuel
  have hdo : c.do_ rand fuel req body = some (.val res, tr) := by
    simp only [client.do_, hset, hloop]
  obtain ⟨out, tr0, hdo0, hatt, hall⟩ :=
    do_ends_with_final_attempt c rand fuel req body hbody hfuel
  rw [hdo] at hdo0
  simp only [Option.some.injEq, Prod.mk.injEq] at hdo0
  obtain ⟨hout, htr⟩ := hdo0
  subst htr
  obtain ⟨h1, h2, h3, h4, h5⟩ := hall res hout.symm
  obtain ⟨h6, h7⟩ := doLoop_stops_at c rand r1 cpy hget fuel 0 { attempts := 0, sleeps := [] }
    res tr rfl hloop
  rw [← hafter] at h6 h7
  exact ⟨res, tr, hdo, h1, hatt, h2, h3, h4, h5, fun i hi => h6 i (Nat.zero_le _) hi, h7⟩

/-- A transport that answers 500 and then 200: the call returns a result that is the
outcome of its last attempt, and that result is the response with status 200 of the second
attempt and no error; the failure of the first attempt does not show. -/
theorem do_result_of_final_attempt_witness :
    (∃ res tr, flakyClient.do_ (fun _ => 0) 3 sampleRequest .nil = some (.val res, tr)
      ∧ res = finalResultSpec (requestAfterDo sampleRequest .nil)
          (flakyClient.cfg.HTTPClient.Do (tr.attempts - 1) (requestAfterDo sampleRequest .nil)))
    ∧ flakyClient.do_ (fun _ => 0) 3 sampleRequest .nil
        = some (.val (some { StatusCode := 200, Body := .bytes [] }, none),
            { attempts := 2, sleeps := [0] }) :=
  ⟨(do_result_of_final_attempt flakyClient (fun _ => 0) 3 sampleRequest .nil rfl
      (fun k _ => by
        show (if k = 0 then _ else _) ≠ _
        split <;> simp)
      (fun _ _ _ _ => ⟨0, rfl⟩) (by decide)).imp
      fun _ h => h.imp fun _ h => ⟨h.1, h.2.2.2.1⟩,
    rfl⟩

end api
